import Mathlib

/-! Buddhabrot: a shallow embedding of `Buddhabrot.cpp`.

The functions of `src/Buddhabrot/Buddhabrot.cpp` are embedded as Lean functions.

* The `double` arithmetic of `rowFromR`, `colFromI` and `colourFromHeatmap` is binary64
  arithmetic: a `double` is a `Binary64` (a finite rational, an infinity or a NaN) and every
  subtraction, division and multiplication is rounded to the nearest binary64 number, ties
  to even, with gradual underflow and overflow to an infinity (`Binary64.round`).  A finite
  `double` argument is given by its value, a rational.
* The arithmetic of `ComplexNumber` (its header is absent from the sources) is modelled from
  the spec, over exact rationals; the comparisons of the loop guard and of the viewport
  check are exact.
* `static_cast<int>` truncates towards zero and is undefined outside the range of `int`;
  undefined behaviour, thrown exceptions and out-of-range indexing are the `none` result.
* `UINT` is a 32-bit unsigned counter: `++` is addition modulo `2^32`.
* The pseudorandom draws of `generateHeatmap` are an input: `draw k` is the sample drawn at
  `sampleIndex = k`.  The console progress report (and its `iterCount` bookkeeping) is not
  modelled.
* The text that `flushToPPMFile` writes is a `String`, an `endl` being a newline.
-/

/-- Modelled from the spec: the complex-number value type of `ComplexNumber.hpp` (absent
from the sources), "a complex-number value type exposing real/imaginary components,
addition, multiplication, and squared magnitude". -/
structure ComplexNumber where
  r : ℚ
  i : ℚ
deriving DecidableEq

namespace ComplexNumber

/-- Modelled from the spec: the default-constructed `ComplexNumber z;`, "an orbit value z
initialized to the origin (0+0i)". -/
def origin : ComplexNumber := ⟨0, 0⟩

/-- Modelled from the spec: `operator+` of the absent `ComplexNumber.hpp`, complex
addition. -/
def add (a b : ComplexNumber) : ComplexNumber := ⟨a.r + b.r, a.i + b.i⟩

/-- Modelled from the spec: `operator*` of the absent `ComplexNumber.hpp`, complex
multiplication. -/
def mul (a b : ComplexNumber) : ComplexNumber :=
  ⟨a.r * b.r - a.i * b.i, a.r * b.i + a.i * b.r⟩

/-- Modelled from the spec: `squareMagnitude()` of the absent `ComplexNumber.hpp`, the
squared magnitude `r*r + i*i`. -/
def squareMagnitude (a : ComplexNumber) : ℚ := a.r * a.r + a.i * a.i

end ComplexNumber

/-- A heatmap `UINT**`: a list of rows, each a list of 32-bit unsigned counters. -/
abbrev Heatmap := List (List Nat)

/-- The object state of the C++ class `Buddhabrot`. -/
structure Buddhabrot where
  imageWidth : Int
  imageHeight : Int
  redIterations : Nat
  blueIterations : Nat
  greenIterations : Nat
  min : ComplexNumber
  max : ComplexNumber
  sampleCount : Int
  maxHeatmapValue : Nat
  redHeatmap : Heatmap
  blueHeatmap : Heatmap
  greenHeatmap : Heatmap
deriving DecidableEq

namespace Buddhabrot

/-- The number of values of a `UINT` (32-bit unsigned). -/
def uintSize : Nat := 4294967296

/-- The number of values of a `ULLI` (64-bit unsigned). -/
def ulliSize : Nat := 18446744073709551616

/-- The smallest `int`. -/
def intMin : Int := -2147483648

/-- The largest `int`. -/
def intMax : Int := 2147483647

/-- The conversion `static_cast<int>(x)` of a `double`: truncation towards zero, undefined
when the truncated value is not an `int`. -/
def toInt (x : ℚ) : Option Int :=
  let t : Int := if 0 ≤ x then ⌊x⌋ else ⌈x⌉
  if intMin ≤ t ∧ t ≤ intMax then some t else none

/-- The `int` product `a * b`, undefined on signed overflow. -/
def intMul (a b : Int) : Option Int :=
  if intMin ≤ a * b ∧ a * b ≤ intMax then some (a * b) else none

/-- A value of the type `double` (IEEE 754 binary64): a finite number, an infinity or a NaN.
The sign of an infinity and of a zero is not recorded: the conversion to `int` is undefined
for either infinity and gives 0 for either zero, and the operations below are the ones the
program applies, to the operands it applies them to. -/
inductive Binary64 where
  | finite (q : ℚ)
  | infinite
  | nan
deriving DecidableEq

/-- The number of halvings that bring `n` below 2, at most `fuel` of them: the integer part
of the binary logarithm of `n` when `0 < n < 2^(fuel+1)`. -/
def halvings : Nat → Nat → Nat
  | 0, _ => 0
  | fuel + 1, n => if n < 2 then 0 else halvings fuel (n / 2) + 1

/-- The binary exponent `e` of a positive rational `x`: `2^e ≤ x < 2^(e+1)`. -/
def binade (x : ℚ) : Int :=
  let e0 : Int := (halvings x.num.natAbs x.num.natAbs : Int) - (halvings x.den x.den : Int)
  if (2 : ℚ) ^ e0 ≤ x then e0 else e0 - 1

/-- Rounding to the nearest integer, ties to the even one. -/
def roundHalfEven (y : ℚ) : Int :=
  let f : Int := ⌊y⌋
  if y - f < 1 / 2 then f
  else if 1 / 2 < y - f then f + 1
  else if f % 2 = 0 then f else f + 1

/-- The number with 53 significant bits, and exponent at least `-1022` (gradual underflow),
nearest to the positive rational `x`, ties to even. -/
def nearest (x : ℚ) : ℚ :=
  let e : Int := Max.max (binade x) (-1022)
  (roundHalfEven (x * (2 : ℚ) ^ (52 - e)) : ℚ) * (2 : ℚ) ^ (e - 52)

/-- The rounding of an exact result to binary64 (round to nearest, ties to even): the
nearest binary64 number, or an infinity when that is `2^1024` or more in magnitude. -/
def Binary64.round (x : ℚ) : Binary64 :=
  if x = 0 then Binary64.finite 0
  else if (2 : ℚ) ^ (1024 : Int) ≤ nearest |x| then Binary64.infinite
  else Binary64.finite (if x < 0 then -nearest |x| else nearest |x|)

/-- The `double` difference `x - y` of two finite operands. -/
def Binary64.sub (x y : ℚ) : Binary64 := Binary64.round (x - y)

/-- The `double` quotient `x / y` of a finite `x`: a division by zero gives an infinity (a
NaN for `0 / 0`), a division by an infinity gives zero. -/
def Binary64.div (x : ℚ) : Binary64 → Binary64
  | Binary64.finite y =>
    if y = 0 then (if x = 0 then Binary64.nan else Binary64.infinite)
    else Binary64.round (x / y)
  | Binary64.infinite => Binary64.finite 0
  | Binary64.nan => Binary64.nan

/-- The `double` product `x * y`: an infinity times zero is a NaN. -/
def Binary64.mul : Binary64 → Binary64 → Binary64
  | Binary64.finite x, Binary64.finite y => Binary64.round (x * y)
  | Binary64.finite x, Binary64.infinite => if x = 0 then Binary64.nan else Binary64.infinite
  | Binary64.infinite, Binary64.finite y => if y = 0 then Binary64.nan else Binary64.infinite
  | Binary64.infinite, Binary64.infinite => Binary64.infinite
  | Binary64.nan, _ => Binary64.nan
  | _, Binary64.nan => Binary64.nan

/-- The conversion `static_cast<int>(x)` of a `double`: undefined for an infinity, for a NaN
and for a finite value whose truncation is not an `int`. -/
def Binary64.toInt : Binary64 → Option Int
  | Binary64.finite x => Buddhabrot.toInt x
  | Binary64.infinite => none
  | Binary64.nan => none

/-- `Buddhabrot::allocHeatmap`: `height` rows of `width` zero counters (`new[]` throws on a
negative length). -/
def allocHeatmap (width height : Int) : Option Heatmap :=
  if height < 0 then none
  else if 0 < height ∧ width < 0 then none
  else some (List.replicate height.toNat (List.replicate width.toNat 0))

/-- `Buddhabrot::colourFromHeatmap`: `scale = static_cast<double>(maxColour) /
maxHeatmapValue` and then `static_cast<int>(heatmapValue * scale)`, in binary64 (the `int`
and `UINT` operands convert to `double` exactly).  With `maxHeatmapValue = 0` the quotient
is an infinity or a NaN, and so is the product, whose conversion to `int` is undefined. -/
def colourFromHeatmap (heatmapValue maxHeatmapValue : Nat) (maxColour : Int) : Option Int :=
  let scale : Binary64 :=
    Binary64.div (maxColour : ℚ) (Binary64.finite (maxHeatmapValue : ℚ))
  Binary64.toInt (Binary64.mul (Binary64.finite (heatmapValue : ℚ)) scale)

/-- `Buddhabrot::rowFromR`: `static_cast<int>((r - minR) * (imageHeight / (maxR - minR)))`,
in binary64 (`imageHeight` converts to `double` exactly). -/
def rowFromR (r minR maxR : ℚ) (imageHeight : Int) : Option Int :=
  Binary64.toInt (Binary64.mul (Binary64.sub r minR)
    (Binary64.div (imageHeight : ℚ) (Binary64.sub maxR minR)))

/-- `Buddhabrot::colFromI`: `static_cast<int>((i - minI) * (imageWidth / (maxI - minI)))`,
in binary64 (`imageWidth` converts to `double` exactly). -/
def colFromI (i minI maxI : ℚ) (imageWidth : Int) : Option Int :=
  Binary64.toInt (Binary64.mul (Binary64.sub i minI)
    (Binary64.div (imageWidth : ℚ) (Binary64.sub maxI minI)))

/-- The `while` loop of `Buddhabrot::buddhabrotPoints`, with state `n`, `z`, `outputPoints`.
The first argument bounds the number of passes that remain (the loop makes at most
`numIters - n` of them); the result is the final `(n, outputPoints)`. -/
def pointsLoop (c : ComplexNumber) (numIters : Nat) :
    Nat → Nat → ComplexNumber → List ComplexNumber → Nat × List ComplexNumber
  | 0, n, _, outputPoints => (n, outputPoints)
  | fuel + 1, n, z, outputPoints =>
    if n < numIters ∧ z.squareMagnitude ≤ 2 then
      let z1 := (z.mul z).add c
      pointsLoop c numIters fuel (n + 1) z1 (outputPoints ++ [z1])
    else (n, outputPoints)

/-- `Buddhabrot::buddhabrotPoints` for a budget `numIters ≥ 0` (with a negative budget
`reserve` throws before the loop is reached). -/
def buddhabrotPoints (c : ComplexNumber) (numIters : Nat) : List ComplexNumber :=
  let res := pointsLoop c numIters numIters 0 ComplexNumber.origin []
  if res.1 = numIters then [] else res.2

/-- The body of the `for (ComplexNumber& point : points)` loop of
`Buddhabrot::generateHeatmap`: the inclusive viewport check, the index computation, the
increment `++heatmap[row][col]` and the update of `maxHeatmapValue`.  An index outside the
allocated heatmap is undefined behaviour. -/
def recordPoint (imageWidth imageHeight : Int) (min max : ComplexNumber)
    (st : Heatmap × Nat) (point : ComplexNumber) : Option (Heatmap × Nat) :=
  if point.r ≤ max.r ∧ point.r ≥ min.r ∧ point.i ≤ max.i ∧ point.i ≥ min.i then
    match rowFromR point.r min.r max.r imageHeight,
          colFromI point.i min.i max.i imageWidth with
    | some row, some col =>
      if 0 ≤ row ∧ 0 ≤ col then
        match st.1[row.toNat]? with
        | none => none
        | some cells =>
          match cells[col.toNat]? with
          | none => none
          | some v =>
            let v1 := (v + 1) % uintSize
            some (st.1.set row.toNat (cells.set col.toNat v1),
                  if v1 > st.2 then v1 else st.2)
      else none
    | _, _ => none
  else some st

/-- The whole `for (ComplexNumber& point : points)` loop of `generateHeatmap`. -/
def recordPoints (imageWidth imageHeight : Int) (min max : ComplexNumber) :
    Heatmap × Nat → List ComplexNumber → Option (Heatmap × Nat)
  | st, [] => some st
  | st, point :: points =>
    match recordPoint imageWidth imageHeight min max st point with
    | none => none
    | some st1 => recordPoints imageWidth imageHeight min max st1 points

/-- The `for (sampleIndex ...)` loop of `generateHeatmap` over the successive samples. -/
def sampleLoop (imageWidth imageHeight : Int) (min max : ComplexNumber) (numIters : Nat) :
    Heatmap × Nat → List ComplexNumber → Option (Heatmap × Nat)
  | st, [] => some st
  | st, sample :: samples =>
    match recordPoints imageWidth imageHeight min max st (buddhabrotPoints sample numIters) with
    | none => none
    | some st1 => sampleLoop imageWidth imageHeight min max numIters st1 samples

/-- `Buddhabrot::generateHeatmap`: `numSamples` samples, the one at `sampleIndex = k` being
`draw k`; the result is the heatmap and `maxHeatmapValue` after the loop. -/
def generateHeatmap (heatmap : Heatmap) (imageWidth imageHeight : Int)
    (min max : ComplexNumber) (numIters : Nat) (numSamples : Nat) (maxHeatmapValue : Nat)
    (draw : Nat → ComplexNumber) : Option (Heatmap × Nat) :=
  sampleLoop imageWidth imageHeight min max numIters (heatmap, maxHeatmapValue)
    ((List.range numSamples).map draw)

/-- The constructor `Buddhabrot::Buddhabrot`, with its parameters in the order of the
source. -/
def construct (width height samples : Int) (minR maxR minI maxI : ℚ)
    (redIters blueIters greenIters : Nat) : Option Buddhabrot :=
  match intMul width height with
  | none => none
  | some wh =>
    match intMul wh samples with
    | none => none
    | some count =>
      match allocHeatmap width height with
      | none => none
      | some zeros =>
        some { imageWidth := width, imageHeight := height,
               redIterations := redIters, blueIterations := blueIters,
               greenIterations := greenIters,
               min := ⟨minR, minI⟩, max := ⟨maxR, maxI⟩,
               sampleCount := count, maxHeatmapValue := 0,
               redHeatmap := zeros, blueHeatmap := zeros, greenHeatmap := zeros }

/-- The `ULLI numSamples` argument that `generate` passes for `sampleCount`. -/
def numSamples (b : Buddhabrot) : Nat := (b.sampleCount % (ulliSize : Int)).toNat

/-- The three `generateHeatmap` calls of `Buddhabrot::generate`: red, then green, then blue,
all through the one `maxHeatmapValue`. -/
def accumulate (b : Buddhabrot) (redDraw greenDraw blueDraw : Nat → ComplexNumber) :
    Option Buddhabrot :=
  match generateHeatmap b.redHeatmap b.imageWidth b.imageHeight b.min b.max
      b.redIterations b.numSamples b.maxHeatmapValue redDraw with
  | none => none
  | some (red, m1) =>
    match generateHeatmap b.greenHeatmap b.imageWidth b.imageHeight b.min b.max
        b.greenIterations b.numSamples m1 greenDraw with
    | none => none
    | some (green, m2) =>
      match generateHeatmap b.blueHeatmap b.imageWidth b.imageHeight b.min b.max
          b.blueIterations b.numSamples m2 blueDraw with
      | none => none
      | some (blue, m3) =>
        some { b with redHeatmap := red, greenHeatmap := green, blueHeatmap := blue,
                      maxHeatmapValue := m3 }

/-- One assignment `heatmap[row][col] = colourFromHeatmap(heatmap[row][col],
maxHeatmapValue, 255)` of `generate`: the `int` result is stored into a `UINT` cell. -/
def scaleCell (maxHeatmapValue : Nat) (v : Nat) : Option Nat :=
  match colourFromHeatmap v maxHeatmapValue 255 with
  | none => none
  | some colour => some (colour % (uintSize : Int)).toNat

/-- The scaling of one row of a heatmap (the `col` loop of `generate`). -/
def scaleRow (maxHeatmapValue : Nat) : List Nat → Option (List Nat)
  | [] => some []
  | v :: vs =>
    match scaleCell maxHeatmapValue v, scaleRow maxHeatmapValue vs with
    | some v1, some vs1 => some (v1 :: vs1)
    | _, _ => none

/-- The scaling of a whole heatmap (the `row` loop of `generate`); the heatmaps have
`imageHeight` rows of `imageWidth` cells, so the loops visit every cell. -/
def scaleHeatmap (maxHeatmapValue : Nat) : Heatmap → Option Heatmap
  | [] => some []
  | cells :: rows =>
    match scaleRow maxHeatmapValue cells, scaleHeatmap maxHeatmapValue rows with
    | some cells1, some rows1 => some (cells1 :: rows1)
    | _, _ => none

/-- `Buddhabrot::generate`: the three accumulation phases, then the scaling of every cell of
the three heatmaps by the final `maxHeatmapValue`. -/
def generate (b : Buddhabrot) (redDraw greenDraw blueDraw : Nat → ComplexNumber) :
    Option Buddhabrot :=
  match accumulate b redDraw greenDraw blueDraw with
  | none => none
  | some acc =>
    match scaleHeatmap acc.maxHeatmapValue acc.redHeatmap,
          scaleHeatmap acc.maxHeatmapValue acc.greenHeatmap,
          scaleHeatmap acc.maxHeatmapValue acc.blueHeatmap with
    | some red, some green, some blue =>
      some { acc with redHeatmap := red, greenHeatmap := green, blueHeatmap := blue }
    | _, _, _ => none

/-- The orbit iterate `z_k` of the start point `c`: `z_0 = 0` and
`z_k = z_{k-1} * z_{k-1} + c`. -/
def orbit (c : ComplexNumber) : Nat → ComplexNumber
  | 0 => ComplexNumber.origin
  | k + 1 => ((orbit c k).mul (orbit c k)).add c

/-- The list `[z_1, ..., z_n]` of the first `n` orbit iterates of `c`. -/
def orbitPrefix (c : ComplexNumber) (n : Nat) : List ComplexNumber :=
  (List.range n).map (fun k => orbit c (k + 1))

/-! ## Auxiliary notions used in the statements -/

/-- The inclusive viewport check of `generateHeatmap`. -/
def inViewport (min max point : ComplexNumber) : Prop :=
  point.r ≤ max.r ∧ point.r ≥ min.r ∧ point.i ≤ max.i ∧ point.i ≥ min.i

instance (min max point : ComplexNumber) : Decidable (inViewport min max point) := by
  unfold inViewport; infer_instance

/-- The counter `heatmap[row][col]`, when that index is inside the heatmap. -/
def cellAt (heatmap : Heatmap) (row col : Nat) : Option Nat :=
  match heatmap[row]? with
  | none => none
  | some cells => cells[col]?

/-- The sum of all cell counts of a heatmap. -/
def gridSum (heatmap : Heatmap) : Nat := (heatmap.map List.sum).sum

/-- The number of points of a trajectory that pass the inclusive viewport check. -/
def recordedCount (min max : ComplexNumber) (points : List ComplexNumber) : Nat :=
  points.countP (fun p => decide (inViewport min max p))

/-- The number of in-viewport orbit points over all the trajectories of the samples. -/
def recordedTotal (min max : ComplexNumber) (numIters : Nat)
    (samples : List ComplexNumber) : Nat :=
  (samples.map (fun s => recordedCount min max (buddhabrotPoints s numIters))).sum

/-- The heatmap has `height` rows of `width` cells each. -/
def hasShape (heatmap : Heatmap) (width height : Nat) : Prop :=
  heatmap.length = height ∧ ∀ cells ∈ heatmap, cells.length = width

/-- The largest element of a list of counters (0 for the empty list). -/
def rowMax (cells : List Nat) : Nat := cells.foldr Max.max 0

/-- The largest cell count of a list of rows (0 when there is no cell). -/
def gridMax (heatmap : Heatmap) : Nat := rowMax (heatmap.map rowMax)

/-- The object built by `Buddhabrot(2, 2, 1, -2, 2, -2, 2, 3, 3, 3)`. -/
def smallObject : Buddhabrot :=
  { imageWidth := 2, imageHeight := 2, redIterations := 3, blueIterations := 3,
    greenIterations := 3, min := ⟨-2, -2⟩, max := ⟨2, 2⟩, sampleCount := 4,
    maxHeatmapValue := 0, redHeatmap := [[0, 0], [0, 0]], blueHeatmap := [[0, 0], [0, 0]],
    greenHeatmap := [[0, 0], [0, 0]] }

/-- The samples `3/2 + (k/2) i` used in the example runs. -/
def smallDraw (k : Nat) : ComplexNumber := ⟨3 / 2, (k : ℚ) / 2⟩

/-- The object built by `Buddhabrot(1, 1, 536870912, -4, 4, -4, 4, 9, 1, 1)`: a single cell
per channel and `2^29` samples per channel. -/
def singleCellObject : Buddhabrot :=
  { imageWidth := 1, imageHeight := 1, redIterations := 9, blueIterations := 1,
    greenIterations := 1, min := ⟨-4, -4⟩, max := ⟨4, 4⟩, sampleCount := 536870912,
    maxHeatmapValue := 0, redHeatmap := [[0]], blueHeatmap := [[0]],
    greenHeatmap := [[0]] }

/-- The object built by `Buddhabrot(5, 5, 1, -2, 2, -2, 2, 3, 3, 3)`. -/
def mediumObject : Buddhabrot :=
  { imageWidth := 5, imageHeight := 5, redIterations := 3, blueIterations := 3,
    greenIterations := 3, min := ⟨-2, -2⟩, max := ⟨2, 2⟩, sampleCount := 25,
    maxHeatmapValue := 0,
    redHeatmap := List.replicate 5 (List.replicate 5 0),
    blueHeatmap := List.replicate 5 (List.replicate 5 0),
    greenHeatmap := List.replicate 5 (List.replicate 5 0) }

/-- The object `mediumObject` with the value `v` in cell `[4][2]` of every channel and the
global maximum `m`. -/
def mediumResult (v m : Nat) : Buddhabrot :=
  { mediumObject with
    redHeatmap := List.replicate 4 (List.replicate 5 0) ++ [[0, 0, v, 0, 0]],
    greenHeatmap := List.replicate 4 (List.replicate 5 0) ++ [[0, 0, v, 0, 0]],
    blueHeatmap := List.replicate 4 (List.replicate 5 0) ++ [[0, 0, v, 0, 0]],
    maxHeatmapValue := m }

/-- The effect of one increment on the single cell and the global maximum. -/
def bump (s : Nat × Nat) : Nat × Nat :=
  ((s.1 + 1) % uintSize, if (s.1 + 1) % uintSize > s.2 then (s.1 + 1) % uintSize else s.2)

/-- The image produced by `generate` from `smallObject` with the samples `smallDraw`. -/
def smallImage : Buddhabrot :=
  { smallObject with redHeatmap := [[0, 0], [0, 255]], greenHeatmap := [[0, 0], [0, 255]],
                     blueHeatmap := [[0, 0], [0, 255]], maxHeatmapValue := 4 }

/-! ## The text written by `flushToPPMFile` -/

/-- The text of one pixel in `Buddhabrot::flushToPPMFile`: the red, green and blue values,
the first two followed by `" "`, the third by `"   "`. -/
def pixelText (red green blue : Nat) : String :=
  toString red ++ " " ++ toString green ++ " " ++ toString blue ++ "   "

/-- The `col` loop of `Buddhabrot::flushToPPMFile` over the columns that remain: the pixels
of row `row`.  An index outside a heatmap is undefined behaviour. -/
def pixelsText (b : Buddhabrot) (row : Nat) : List Nat → Option String
  | [] => some ""
  | col :: cols =>
    match cellAt b.redHeatmap row col, cellAt b.greenHeatmap row col,
          cellAt b.blueHeatmap row col, pixelsText b row cols with
    | some red, some green, some blue, some rest => some (pixelText red green blue ++ rest)
    | _, _, _, _ => none

/-- The `row` loop of `Buddhabrot::flushToPPMFile` over the rows that remain: the pixels of
each row and then `endl`. -/
def rowsText (b : Buddhabrot) : List Nat → Option String
  | [] => some ""
  | row :: rows =>
    match pixelsText b row (List.range b.imageWidth.toNat), rowsText b rows with
    | some pixels, some rest => some (pixels ++ "\n" ++ rest)
    | _, _ => none

/-- `Buddhabrot::flushToPPMFile`: the text written to `outputFile`, the three header lines
and then the rows (an `endl` writes a newline).  The release of the heatmaps that follows
the writing is not modelled. -/
def flushToPPMFile (b : Buddhabrot) : Option String :=
  match rowsText b (List.range b.imageHeight.toNat) with
  | none => none
  | some rows =>
    some ("P3" ++ "\n" ++ (toString b.imageWidth ++ " " ++ toString b.imageHeight ++ "\n")
      ++ (toString (255 : Int) ++ "\n") ++ rows)

/-- The lines of a text, each one ended by a newline; the first argument is the line read
so far (a last line need not be ended). -/
def splitLines : List Char → List Char → List String
  | line, [] => if line = [] then [] else [String.mk line]
  | line, c :: cs =>
    if c = '\n' then String.mk line :: splitLines [] cs else splitLines (line ++ [c]) cs

/-- The lines of a text. -/
def lines (text : String) : List String := splitLines [] text.data

/-- The whitespace-separated tokens of a list of characters; the first argument is the
token read so far. -/
def tokensFrom : List Char → List Char → List String
  | token, [] => if token = [] then [] else [String.mk token]
  | token, c :: cs =>
    if c.isWhitespace then
      if token = [] then tokensFrom [] cs else String.mk token :: tokensFrom [] cs
    else tokensFrom (token ++ [c]) cs

/-- The whitespace-separated tokens of a line. -/
def tokens (line : String) : List String := tokensFrom [] line.data

/-- A 2 × 2 object with scaled heatmaps, an input of `flushToPPMFile` in the example. -/
def ppmObject : Buddhabrot :=
  { imageWidth := 2, imageHeight := 2, redIterations := 3, blueIterations := 3,
    greenIterations := 3, min := ⟨-2, -2⟩, max := ⟨2, 2⟩, sampleCount := 4,
    maxHeatmapValue := 4, redHeatmap := [[0, 63], [127, 255]],
    blueHeatmap := [[9, 10], [11, 12]], greenHeatmap := [[1, 2], [3, 4]] }

/-- The decimal text of the counter `heatmap[row][col]` (empty outside the heatmap). -/
def cellText (heatmap : Heatmap) (row col : Nat) : String :=
  match cellAt heatmap row col with
  | some v => toString v
  | none => ""

/-! ## The accumulation in the words of the specification -/

/-- The accumulation as the specification words it (a second definition, which follows the
spec and not the source): "accumulation order across channels is red → green → blue", every
channel taking `sampleCount` samples with its own iteration budget, over the same viewport
and grid dimensions, all three through the one running global maximum, starting from the
zero-initialised grid `zeros` and the maximum 0.  The result is the red, green and blue
grids and the global maximum. -/
def accumulateChannels (imageWidth imageHeight : Int) (min max : ComplexNumber)
    (sampleCount : Nat) (redBudget greenBudget blueBudget : Nat)
    (redDraw greenDraw blueDraw : Nat → ComplexNumber) (zeros : Heatmap) :
    Option (Heatmap × Heatmap × Heatmap × Nat) :=
  match generateHeatmap zeros imageWidth imageHeight min max redBudget sampleCount 0
      redDraw with
  | none => none
  | some (red, m1) =>
    match generateHeatmap zeros imageWidth imageHeight min max greenBudget sampleCount m1
        greenDraw with
    | none => none
    | some (green, m2) =>
      match generateHeatmap zeros imageWidth imageHeight min max blueBudget sampleCount m2
          blueDraw with
      | none => none
      | some (blue, m3) => some (red, green, blue, m3)

/-- The red, green and blue heatmaps and the global maximum of an object. -/
def channels (b : Buddhabrot) : Heatmap × Heatmap × Heatmap × Nat :=
  (b.redHeatmap, b.greenHeatmap, b.blueHeatmap, b.maxHeatmapValue)

/-- The object built by `Buddhabrot(2, 2, 1, -2, 2, -2, 2, 1, 3, 1)`. -/
def budgetObject : Buddhabrot :=
  { imageWidth := 2, imageHeight := 2, redIterations := 1, blueIterations := 3,
    greenIterations := 1, min := ⟨-2, -2⟩, max := ⟨2, 2⟩, sampleCount := 4,
    maxHeatmapValue := 0, redHeatmap := [[0, 0], [0, 0]], blueHeatmap := [[0, 0], [0, 0]],
    greenHeatmap := [[0, 0], [0, 0]] }

/-! ## Notions used in the statements about the binary64 arithmetic -/

/-- No operation of the coordinate mapping `(x - lo) * (n / (hi - lo))` rounds: the
difference, the divisor, the quotient and the product are binary64 numbers. -/
def exactScaled (x lo hi : ℚ) (n : Int) : Prop :=
  Binary64.round (x - lo) = Binary64.finite (x - lo) ∧
  Binary64.round (hi - lo) = Binary64.finite (hi - lo) ∧
  Binary64.round ((n : ℚ) / (hi - lo)) = Binary64.finite ((n : ℚ) / (hi - lo)) ∧
  Binary64.round ((x - lo) * ((n : ℚ) / (hi - lo)))
    = Binary64.finite ((x - lo) * ((n : ℚ) / (hi - lo)))

instance (x lo hi : ℚ) (n : Int) : Decidable (exactScaled x lo hi n) := by
  unfold exactScaled; infer_instance

/-- Neither operation of the normalizer `v * (d / G)` rounds: the quotient and the product
are binary64 numbers. -/
def exactColour (v G : Nat) (d : Int) : Prop :=
  Binary64.round ((d : ℚ) / (G : ℚ)) = Binary64.finite ((d : ℚ) / (G : ℚ)) ∧
  Binary64.round ((v : ℚ) * ((d : ℚ) / (G : ℚ)))
    = Binary64.finite ((v : ℚ) * ((d : ℚ) / (G : ℚ)))

instance (v G : Nat) (d : Int) : Decidable (exactColour v G d) := by
  unfold exactColour; infer_instance

/-- The index `(rowFromR r, colFromI i)` of a point is defined and is a valid index of a
heatmap of `imageHeight` rows of `imageWidth` cells. -/
def indexInGrid (imageWidth imageHeight : Int) (min max point : ComplexNumber) : Prop :=
  ∃ row ∈ rowFromR point.r min.r max.r imageHeight,
    ∃ col ∈ colFromI point.i min.i max.i imageWidth,
      0 ≤ row ∧ row < imageHeight ∧ 0 ≤ col ∧ col < imageWidth

instance (imageWidth imageHeight : Int) (min max point : ComplexNumber) :
    Decidable (indexInGrid imageWidth imageHeight min max point) := by
  unfold indexInGrid; infer_instance

/-! # Theorems -/

/-! ## The trajectory generator `buddhabrotPoints` -/

/-- C1: evaluation of `buddhabrotPoints` at the two inputs where it departs from "the orbit
up to and including the first iterate of squared magnitude above 4.0".  For `c = 3+0i` and
budget 1 the first iterate already has squared magnitude 9 > 4, the claimed result is
`[3+0i]`, and the code returns the empty list (the escape falls on the last budgeted
iteration).  For `c = 1.5+0i` and budget 3 the first iterate above 4.0 is `z_2 = 3.75`, the
claimed result is `[1.5, 3.75]`, and the code returns `[1.5]` (its loop guard compares the
squared magnitude with 2.0). -/
theorem buddhabrotPoints_escape_within_budget_eval :
    (4 < (orbit ⟨3, 0⟩ 1).squareMagnitude ∧
      orbitPrefix ⟨3, 0⟩ 1 = [⟨3, 0⟩] ∧
      buddhabrotPoints ⟨3, 0⟩ 1 = []) ∧
    ((orbit ⟨3 / 2, 0⟩ 1).squareMagnitude ≤ 4 ∧
      4 < (orbit ⟨3 / 2, 0⟩ 2).squareMagnitude ∧
      orbitPrefix ⟨3 / 2, 0⟩ 2 = [⟨3 / 2, 0⟩, ⟨15 / 4, 0⟩] ∧
      buddhabrotPoints ⟨3 / 2, 0⟩ 3 = [⟨3 / 2, 0⟩]) := by
  decide!

/-- C2: evaluation of `buddhabrotPoints` at `c = -1.5+0i` with budget 2: both iterates
`z_1 = -1.5` and `z_2 = 0.75` have squared magnitude at most 4 (magnitude at most 2), so the
claimed result is the empty list, and the code returns `[-1.5+0i]`. -/
theorem buddhabrotPoints_bounded_orbit_eval :
    (orbit ⟨-3 / 2, 0⟩ 1).squareMagnitude ≤ 4 ∧
    (orbit ⟨-3 / 2, 0⟩ 2).squareMagnitude ≤ 4 ∧
    buddhabrotPoints ⟨-3 / 2, 0⟩ 2 = [⟨-3 / 2, 0⟩] := by
  decide!

/-- C3: evaluation of `buddhabrotPoints` at `c = 3+0i` with budget 1: the first iterate
`z_1 = c` has squared magnitude 9 > 4 (magnitude above 2) and the budget is at least 1, so
the claimed result is non-empty, and the code returns the empty list; with the budget 10 of
the spec's example it returns `[3+0i]`. -/
theorem buddhabrotPoints_first_iterate_escape_eval :
    orbit ⟨3, 0⟩ 1 = ⟨3, 0⟩ ∧
    4 < (⟨3, 0⟩ : ComplexNumber).squareMagnitude ∧
    buddhabrotPoints ⟨3, 0⟩ 1 = [] ∧
    buddhabrotPoints ⟨3, 0⟩ 10 = [⟨3, 0⟩] := by
  decide!

/-- With budget 0 the loop is never entered and the result is empty. -/
theorem buddhabrotPoints_zero_budget (c : ComplexNumber) : buddhabrotPoints c 0 = [] := by
  simp [buddhabrotPoints, pointsLoop]

theorem pointsLoop_origin (numIters fuel n : Nat) (outputPoints : List ComplexNumber)
    (h : n + fuel = numIters) :
    (pointsLoop ComplexNumber.origin numIters fuel n ComplexNumber.origin outputPoints).1
      = numIters := by
  induction fuel generalizing n outputPoints with
  | zero => simpa [pointsLoop] using h
  | succ k ih =>
    have hn : n < numIters := by omega
    have hz : (ComplexNumber.origin.mul ComplexNumber.origin).add ComplexNumber.origin
        = ComplexNumber.origin := by
      simp [ComplexNumber.origin, ComplexNumber.mul, ComplexNumber.add]
    have hm : ComplexNumber.origin.squareMagnitude ≤ 2 := by
      simp [ComplexNumber.origin, ComplexNumber.squareMagnitude]
    rw [pointsLoop, if_pos ⟨hn, hm⟩]
    simp only [hz]
    exact ih (n + 1) _ (by omega)

/-- The start point `0+0i` never leaves the origin: the result is empty for every budget. -/
theorem buddhabrotPoints_origin (numIters : Nat) :
    buddhabrotPoints ComplexNumber.origin numIters = [] := by
  simp [buddhabrotPoints, pointsLoop_origin numIters numIters 0 [] (by omega)]

/-- A start point that fails the loop guard at once is returned alone for every budget of at
least 2. -/
theorem buddhabrotPoints_first_escape (c : ComplexNumber) (numIters : Nat)
    (hc : 2 < c.squareMagnitude) (hN : 2 ≤ numIters) : buddhabrotPoints c numIters = [c] := by
  obtain ⟨k, rfl⟩ : ∃ k, numIters = k + 2 := ⟨numIters - 2, by omega⟩
  have hz : (ComplexNumber.origin.mul ComplexNumber.origin).add c = c := by
    simp [ComplexNumber.origin, ComplexNumber.mul, ComplexNumber.add]
  have hm : ComplexNumber.origin.squareMagnitude ≤ 2 := by
    simp [ComplexNumber.origin, ComplexNumber.squareMagnitude]
  have hguard : ¬ (0 + 1 < k + 2 ∧ c.squareMagnitude ≤ 2) := fun h => absurd h.2 (not_le.mpr hc)
  simp only [buddhabrotPoints, pointsLoop, if_pos (⟨by omega, hm⟩ : 0 < k + 2 ∧ _), hz,
    if_neg hguard, List.nil_append]
  simp

/-! ## Rounding to binary64 -/

theorem toInt_of_nonneg {x : ℚ} (h0 : 0 ≤ x) (h1 : ⌊x⌋ ≤ intMax) : toInt x = some ⌊x⌋ := by
  have hfl : (0 : Int) ≤ ⌊x⌋ := Int.floor_nonneg.mpr h0
  have hmin : intMin ≤ ⌊x⌋ := le_trans (by decide) hfl
  simp [toInt, h0, hmin, h1]

theorem halvings_spec : ∀ (fuel n : Nat), 0 < n → n < 2 ^ (fuel + 1) →
    2 ^ halvings fuel n ≤ n ∧ n < 2 ^ (halvings fuel n + 1) := by
  intro fuel
  induction fuel with
  | zero =>
    intro n h0 h1
    have : n = 1 := by omega
    subst this
    simp [halvings]
  | succ fuel ih =>
    intro n h0 h1
    unfold halvings
    split_ifs with h
    · have : n = 1 := by omega
      subst this
      simp
    · have h2 : n / 2 < 2 ^ (fuel + 1) := by
        have : 2 ^ (fuel + 1 + 1) = 2 * 2 ^ (fuel + 1) := by ring
        omega
      obtain ⟨h3, h4⟩ := ih (n / 2) (by omega) h2
      have e1 : 2 ^ (halvings fuel (n / 2) + 1) = 2 * 2 ^ halvings fuel (n / 2) := by ring
      have e2 : 2 ^ (halvings fuel (n / 2) + 1 + 1)
          = 2 * 2 ^ (halvings fuel (n / 2) + 1) := by ring
      rw [e1] at h4
      rw [e2, e1]
      constructor <;> omega

theorem halvings_self (n : Nat) (h : 0 < n) :
    2 ^ halvings n n ≤ n ∧ n < 2 ^ (halvings n n + 1) :=
  halvings_spec n n h (lt_trans (Nat.lt_two_pow n) (Nat.pow_lt_pow_right (by decide) (by omega)))

/-- The exponent computed by `binade` brackets a positive rational. -/
theorem binade_spec {x : ℚ} (hx : 0 < x) :
    (2 : ℚ) ^ binade x ≤ x ∧ x < (2 : ℚ) ^ (binade x + 1) := by
  have hnum : 0 < x.num := Rat.num_pos.mpr hx
  have hN0 : 0 < x.num.natAbs := Int.natAbs_pos.mpr (ne_of_gt hnum)
  obtain ⟨ha1, ha2⟩ := halvings_self x.num.natAbs hN0
  obtain ⟨hb1, hb2⟩ := halvings_self x.den x.den_pos
  set a := halvings x.num.natAbs x.num.natAbs with ha
  set b := halvings x.den x.den with hb
  have hNq : ((x.num.natAbs : ℕ) : ℚ) = (x.num : ℚ) := by
    rw [Nat.cast_natAbs, abs_of_pos hnum]
  have hxe : x = (x.num.natAbs : ℚ) / (x.den : ℚ) := by
    rw [hNq]; exact (Rat.num_div_den x).symm
  have hD0 : (0 : ℚ) < (x.den : ℚ) := by exact_mod_cast x.den_pos
  have hN1 : (2 : ℚ) ^ a ≤ (x.num.natAbs : ℚ) := by exact_mod_cast ha1
  have hN2 : (x.num.natAbs : ℚ) < (2 : ℚ) ^ (a + 1) := by exact_mod_cast ha2
  have hD1 : (2 : ℚ) ^ b ≤ (x.den : ℚ) := by exact_mod_cast hb1
  have hD2 : (x.den : ℚ) < (2 : ℚ) ^ (b + 1) := by exact_mod_cast hb2
  have hpb : (0 : ℚ) < (2 : ℚ) ^ b := by positivity
  have hz : (2 : ℚ) ^ ((a : ℤ) - (b : ℤ)) = (2 : ℚ) ^ a / (2 : ℚ) ^ b := by
    rw [zpow_sub₀ (by norm_num : (2 : ℚ) ≠ 0), zpow_natCast, zpow_natCast]
  have hup : x < (2 : ℚ) ^ ((a : ℤ) - (b : ℤ) + 1) := by
    rw [zpow_add_one₀ (by norm_num : (2 : ℚ) ≠ 0), hz, hxe, div_mul_eq_mul_div,
      div_lt_div_iff₀ hD0 hpb]
    calc (x.num.natAbs : ℚ) * (2 : ℚ) ^ b < (2 : ℚ) ^ (a + 1) * (2 : ℚ) ^ b :=
          mul_lt_mul_of_pos_right hN2 hpb
      _ = (2 : ℚ) ^ a * 2 * (2 : ℚ) ^ b := by ring
      _ ≤ (2 : ℚ) ^ a * 2 * (x.den : ℚ) := mul_le_mul_of_nonneg_left hD1 (by positivity)
  have hlo : (2 : ℚ) ^ ((a : ℤ) - (b : ℤ) - 1) ≤ x := by
    rw [zpow_sub_one₀ (by norm_num : (2 : ℚ) ≠ 0), hz, hxe, div_mul_eq_mul_div,
      div_le_div_iff₀ hpb hD0]
    have h2 : (x.den : ℚ) * 2⁻¹ ≤ (2 : ℚ) ^ b := by
      have : (2 : ℚ) ^ (b + 1) = (2 : ℚ) ^ b * 2 := by ring
      rw [this] at hD2
      linarith
    calc (2 : ℚ) ^ a * 2⁻¹ * (x.den : ℚ) = (2 : ℚ) ^ a * ((x.den : ℚ) * 2⁻¹) := by ring
      _ ≤ (2 : ℚ) ^ a * (2 : ℚ) ^ b := mul_le_mul_of_nonneg_left h2 (by positivity)
      _ ≤ (x.num.natAbs : ℚ) * (2 : ℚ) ^ b := mul_le_mul_of_nonneg_right hN1 (le_of_lt hpb)
  unfold binade
  simp only [← ha, ← hb]
  split_ifs with h
  · exact ⟨h, hup⟩
  · refine ⟨hlo, ?_⟩
    rw [sub_add_cancel]
    exact not_le.mp h

theorem binade_mono {x y : ℚ} (hx : 0 < x) (hxy : x ≤ y) : binade x ≤ binade y := by
  obtain ⟨h1, -⟩ := binade_spec hx
  obtain ⟨-, h2⟩ := binade_spec (lt_of_lt_of_le hx hxy)
  have h3 : (2 : ℚ) ^ binade x < (2 : ℚ) ^ (binade y + 1) :=
    lt_of_le_of_lt (le_trans h1 hxy) h2
  have := (zpow_lt_zpow_iff_right₀ (by norm_num : (1 : ℚ) < 2)).mp h3
  omega

theorem binade_ge {x : ℚ} {k : Int} (hk : (2 : ℚ) ^ k ≤ x) : k ≤ binade x := by
  have hx : 0 < x := lt_of_lt_of_le (zpow_pos (by norm_num) k) hk
  obtain ⟨-, h2⟩ := binade_spec hx
  have := (zpow_lt_zpow_iff_right₀ (by norm_num : (1 : ℚ) < 2)).mp (lt_of_le_of_lt hk h2)
  omega

theorem binade_lt {x : ℚ} {k : Int} (hx : 0 < x) (hk : x < (2 : ℚ) ^ k) : binade x < k := by
  obtain ⟨h1, -⟩ := binade_spec hx
  exact (zpow_lt_zpow_iff_right₀ (by norm_num : (1 : ℚ) < 2)).mp (lt_of_le_of_lt h1 hk)

theorem roundHalfEven_le (y : ℚ) : (roundHalfEven y : ℚ) ≤ y + 1 / 2 := by
  have h1 := Int.floor_le y
  have h2 := Int.lt_floor_add_one y
  unfold roundHalfEven
  simp only
  split_ifs <;> push_cast <;> linarith

theorem roundHalfEven_ge (y : ℚ) : y - 1 / 2 ≤ (roundHalfEven y : ℚ) := by
  have h1 := Int.floor_le y
  have h2 := Int.lt_floor_add_one y
  unfold roundHalfEven
  simp only
  split_ifs <;> push_cast <;> linarith

theorem roundHalfEven_floor_le (y : ℚ) : ⌊y⌋ ≤ roundHalfEven y := by
  unfold roundHalfEven
  simp only
  split_ifs <;> omega

theorem roundHalfEven_le_floor (y : ℚ) : roundHalfEven y ≤ ⌊y⌋ + 1 := by
  unfold roundHalfEven
  simp only
  split_ifs <;> omega

theorem roundHalfEven_intCast (k : Int) : roundHalfEven (k : ℚ) = k := by
  unfold roundHalfEven
  simp

theorem roundHalfEven_mono {y z : ℚ} (h : y ≤ z) : roundHalfEven y ≤ roundHalfEven z := by
  have hfl : ⌊y⌋ ≤ ⌊z⌋ := Int.floor_mono h
  rcases lt_or_eq_of_le hfl with hlt | heq
  · exact le_trans (roundHalfEven_le_floor y) (le_trans (by omega) (roundHalfEven_floor_le z))
  · unfold roundHalfEven
    simp only
    rw [heq]
    have hyz : y - (⌊z⌋ : ℚ) ≤ z - (⌊z⌋ : ℚ) := by linarith
    split_ifs <;> first | omega | (exfalso; linarith)

theorem roundHalfEven_nonneg {y : ℚ} (h : 0 ≤ y) : 0 ≤ roundHalfEven y :=
  le_trans (Int.floor_nonneg.mpr h) (roundHalfEven_floor_le y)

/-- The exponent used by `nearest`. -/
theorem nearest_eq (x : ℚ) :
    nearest x = (roundHalfEven (x * (2 : ℚ) ^ (52 - Max.max (binade x) (-1022))) : ℚ)
      * (2 : ℚ) ^ (Max.max (binade x) (-1022) - 52) := rfl

theorem two_zpow_pos (k : Int) : (0 : ℚ) < (2 : ℚ) ^ k := zpow_pos (by norm_num) k

theorem two_zpow_mul (j k : Int) : (2 : ℚ) ^ j * (2 : ℚ) ^ k = (2 : ℚ) ^ (j + k) :=
  (zpow_add₀ (by norm_num : (2 : ℚ) ≠ 0) j k).symm

theorem nearest_nonneg {x : ℚ} (hx : 0 ≤ x) : 0 ≤ nearest x := by
  rw [nearest_eq]
  have h1 : (0 : ℚ) ≤ x * (2 : ℚ) ^ (52 - Max.max (binade x) (-1022)) :=
    mul_nonneg hx (le_of_lt (two_zpow_pos _))
  have h2 : (0 : ℚ) ≤ (roundHalfEven (x * (2 : ℚ) ^ (52 - Max.max (binade x) (-1022))) : ℚ) := by
    exact_mod_cast roundHalfEven_nonneg h1
  exact mul_nonneg h2 (le_of_lt (two_zpow_pos _))

/-- The rounding error of `nearest` is at most half a unit in the last place. -/
theorem nearest_err (x : ℚ) :
    |nearest x - x| ≤ (2 : ℚ) ^ (Max.max (binade x) (-1022) - 53) := by
  rw [nearest_eq]
  set e := Max.max (binade x) (-1022) with he
  have hs : (0 : ℚ) < (2 : ℚ) ^ (e - 52) := two_zpow_pos _
  have h1 := roundHalfEven_le (x * (2 : ℚ) ^ (52 - e))
  have h2 := roundHalfEven_ge (x * (2 : ℚ) ^ (52 - e))
  have hx : x = x * (2 : ℚ) ^ (52 - e) * (2 : ℚ) ^ (e - 52) := by
    rw [mul_assoc, two_zpow_mul]
    simp
  have hhalf : (2 : ℚ) ^ (e - 53) = 1 / 2 * (2 : ℚ) ^ (e - 52) := by
    have : e - 53 = (-1) + (e - 52) := by ring
    rw [this, ← two_zpow_mul]
    norm_num
  rw [hhalf, abs_le]
  constructor
  · nth_rewrite 2 [hx]
    nlinarith
  · nth_rewrite 2 [hx]
    nlinarith

/-- In the normal range the relative rounding error is at most `2^-53`. -/
theorem nearest_err_normal {x : ℚ} (hx : (2 : ℚ) ^ (-1022 : Int) ≤ x) :
    |nearest x - x| ≤ x * (2 : ℚ) ^ (-53 : Int) := by
  have hpos : 0 < x := lt_of_lt_of_le (two_zpow_pos _) hx
  have hb : (-1022 : Int) ≤ binade x := binade_ge hx
  have he : Max.max (binade x) (-1022) = binade x := max_eq_left hb
  have h := nearest_err x
  rw [he] at h
  have h2 : (2 : ℚ) ^ (binade x - 53) = (2 : ℚ) ^ binade x * (2 : ℚ) ^ (-53 : Int) := by
    rw [two_zpow_mul]; rfl
  rw [h2] at h
  exact le_trans h (mul_le_mul_of_nonneg_right (binade_spec hpos).1 (le_of_lt (two_zpow_pos _)))

theorem nearest_mono {x y : ℚ} (hx : 0 < x) (hxy : x ≤ y) : nearest x ≤ nearest y := by
  have hy : 0 < y := lt_of_lt_of_le hx hxy
  have hb := binade_mono hx hxy
  have hle : Max.max (binade x) (-1022) ≤ Max.max (binade y) (-1022) := by omega
  rcases eq_or_lt_of_le hle with heq | hlt
  · rw [nearest_eq, nearest_eq, heq]
    have hm : roundHalfEven (x * (2 : ℚ) ^ (52 - Max.max (binade y) (-1022)))
        ≤ roundHalfEven (y * (2 : ℚ) ^ (52 - Max.max (binade y) (-1022))) :=
      roundHalfEven_mono (mul_le_mul_of_nonneg_right hxy (le_of_lt (two_zpow_pos _)))
    have hm' : (roundHalfEven (x * (2 : ℚ) ^ (52 - Max.max (binade y) (-1022))) : ℚ)
        ≤ (roundHalfEven (y * (2 : ℚ) ^ (52 - Max.max (binade y) (-1022))) : ℚ) := by
      exact_mod_cast hm
    exact mul_le_mul_of_nonneg_right hm' (le_of_lt (two_zpow_pos _))
  · set ex := Max.max (binade x) (-1022) with hex
    set ey := Max.max (binade y) (-1022) with hey
    have hey' : ey = binade y := by omega
    -- the left value is at most 2^(ex+1)
    have h1 : nearest x ≤ (2 : ℚ) ^ (ex + 1) := by
      rw [nearest_eq, ← hex]
      have hxlt : x ≤ (2 : ℚ) ^ (ex + 1) :=
        le_trans (le_of_lt (binade_spec hx).2)
          (zpow_le_zpow_right₀ (by norm_num) (by omega))
      have hsc : x * (2 : ℚ) ^ (52 - ex) ≤ ((2 ^ 53 : Int) : ℚ) := by
        have : ((2 ^ 53 : Int) : ℚ) = (2 : ℚ) ^ (ex + 1) * (2 : ℚ) ^ (52 - ex) := by
          rw [two_zpow_mul]
          have : ex + 1 + (52 - ex) = 53 := by ring
          rw [this]
          norm_num
        rw [this]
        exact mul_le_mul_of_nonneg_right hxlt (le_of_lt (two_zpow_pos _))
      have hm := roundHalfEven_mono hsc
      rw [roundHalfEven_intCast] at hm
      have hm' : (roundHalfEven (x * (2 : ℚ) ^ (52 - ex)) : ℚ) ≤ ((2 ^ 53 : Int) : ℚ) := by
        exact_mod_cast hm
      have : (2 : ℚ) ^ (ex + 1) = ((2 ^ 53 : Int) : ℚ) * (2 : ℚ) ^ (ex - 52) := by
        have h53 : ((2 ^ 53 : Int) : ℚ) = (2 : ℚ) ^ (53 : Int) := by norm_num
        rw [h53, two_zpow_mul]
        congr 1
        ring
      rw [this]
      exact mul_le_mul_of_nonneg_right hm' (le_of_lt (two_zpow_pos _))
    -- the right value is at least 2^ey
    have h2 : (2 : ℚ) ^ ey ≤ nearest y := by
      rw [nearest_eq, ← hey]
      have hylo : (2 : ℚ) ^ ey ≤ y := by rw [hey']; exact (binade_spec hy).1
      have hsc : ((2 ^ 52 : Int) : ℚ) ≤ y * (2 : ℚ) ^ (52 - ey) := by
        have : ((2 ^ 52 : Int) : ℚ) = (2 : ℚ) ^ ey * (2 : ℚ) ^ (52 - ey) := by
          rw [two_zpow_mul]
          have : ey + (52 - ey) = 52 := by ring
          rw [this]
          norm_num
        rw [this]
        exact mul_le_mul_of_nonneg_right hylo (le_of_lt (two_zpow_pos _))
      have hm := roundHalfEven_mono hsc
      rw [roundHalfEven_intCast] at hm
      have hm' : ((2 ^ 52 : Int) : ℚ) ≤ (roundHalfEven (y * (2 : ℚ) ^ (52 - ey)) : ℚ) := by
        exact_mod_cast hm
      have : (2 : ℚ) ^ ey = ((2 ^ 52 : Int) : ℚ) * (2 : ℚ) ^ (ey - 52) := by
        have h52 : ((2 ^ 52 : Int) : ℚ) = (2 : ℚ) ^ (52 : Int) := by norm_num
        rw [h52, two_zpow_mul]
        congr 1
        ring
      rw [this]
      exact mul_le_mul_of_nonneg_right hm' (le_of_lt (two_zpow_pos _))
    exact le_trans h1 (le_trans (zpow_le_zpow_right₀ (by norm_num) (by omega)) h2)

theorem round_zero : Binary64.round 0 = Binary64.finite 0 := by
  simp [Binary64.round]

theorem round_pos {x : ℚ} (hx : 0 < x) :
    Binary64.round x = if (2 : ℚ) ^ (1024 : Int) ≤ nearest x then Binary64.infinite
      else Binary64.finite (nearest x) := by
  unfold Binary64.round
  rw [if_neg (ne_of_gt hx), abs_of_pos hx, if_neg (not_lt.mpr (le_of_lt hx))]

/-- The absolute rounding error of a non-negative number below `2^1023`. -/
theorem round_abs {x : ℚ} (h0 : 0 ≤ x) (h1 : x ≤ (2 : ℚ) ^ (1023 : Int)) :
    ∃ y, Binary64.round x = Binary64.finite y ∧ 0 ≤ y ∧
      |y - x| ≤ x * (2 : ℚ) ^ (-53 : Int) + (2 : ℚ) ^ (-1075 : Int) := by
  rcases eq_or_lt_of_le h0 with h | hpos
  · subst h
    exact ⟨0, round_zero, le_refl 0, by simp; positivity⟩
  · have herr : |nearest x - x| ≤ x * (2 : ℚ) ^ (-53 : Int) + (2 : ℚ) ^ (-1075 : Int) := by
      by_cases hn : (2 : ℚ) ^ (-1022 : Int) ≤ x
      · exact le_trans (nearest_err_normal hn) (by linarith [two_zpow_pos (-1075)])
      · have hb : binade x < -1022 := binade_lt hpos (not_le.mp hn)
        have he : Max.max (binade x) (-1022) = -1022 := max_eq_right (le_of_lt hb)
        have h := nearest_err x
        rw [he] at h
        have h2 : (-1022 : Int) - 53 = -1075 := by norm_num
        rw [h2] at h
        have : 0 ≤ x * (2 : ℚ) ^ (-53 : Int) := mul_nonneg h0 (le_of_lt (two_zpow_pos _))
        linarith
    have hfin : ¬ (2 : ℚ) ^ (1024 : Int) ≤ nearest x := by
      rw [not_le]
      have hle := (abs_le.mp herr).2
      have hu : (2 : ℚ) ^ (-53 : Int) ≤ 1 / 4 := by
        rw [show (1 / 4 : ℚ) = (2 : ℚ) ^ (-2 : Int) by norm_num]
        exact zpow_le_zpow_right₀ (by norm_num) (by norm_num)
      have hs : (2 : ℚ) ^ (-1075 : Int) ≤ (2 : ℚ) ^ (1022 : Int) :=
        zpow_le_zpow_right₀ (by norm_num) (by norm_num)
      have e1 : (2 : ℚ) ^ (1024 : Int) = 2 * (2 : ℚ) ^ (1023 : Int) := by
        rw [show (1024 : Int) = 1 + 1023 by norm_num, ← two_zpow_mul]; norm_num
      have e2 : (2 : ℚ) ^ (1023 : Int) = 2 * (2 : ℚ) ^ (1022 : Int) := by
        rw [show (1023 : Int) = 1 + 1022 by norm_num, ← two_zpow_mul]; norm_num
      have hp : (0 : ℚ) < (2 : ℚ) ^ (1022 : Int) := two_zpow_pos _
      have hxu : x * (2 : ℚ) ^ (-53 : Int) ≤ x * (1 / 4) :=
        mul_le_mul_of_nonneg_left hu h0
      generalize (2 : ℚ) ^ (1024 : Int) = V at e1 ⊢
      generalize (2 : ℚ) ^ (1023 : Int) = T at e1 e2 h1
      generalize (2 : ℚ) ^ (1022 : Int) = P at e2 hp hs
      generalize (2 : ℚ) ^ (-1075 : Int) = S at hs hle
      generalize x * (2 : ℚ) ^ (-53 : Int) = W at hxu hle
      linarith
    refine ⟨nearest x, by rw [round_pos hpos, if_neg hfin], nearest_nonneg h0, herr⟩

/-- The relative rounding error of a number of the normal range. -/
theorem round_rel {x : ℚ} (h0 : (2 : ℚ) ^ (-1022 : Int) ≤ x) (h1 : x ≤ (2 : ℚ) ^ (1023 : Int)) :
    ∃ y, Binary64.round x = Binary64.finite y ∧ 0 < y ∧
      |y - x| ≤ x * (2 : ℚ) ^ (-53 : Int) := by
  have hpos : 0 < x := lt_of_lt_of_le (two_zpow_pos _) h0
  obtain ⟨y, hy, -, -⟩ := round_abs (le_of_lt hpos) h1
  have hyn : y = nearest x := by
    rw [round_pos hpos] at hy
    split_ifs at hy
    exact (Binary64.finite.inj hy).symm
  have herr := nearest_err_normal h0
  rw [← hyn] at herr
  refine ⟨y, hy, ?_, herr⟩
  have hu : (2 : ℚ) ^ (-53 : Int) ≤ 1 / 4 := by
    rw [show (1 / 4 : ℚ) = (2 : ℚ) ^ (-2 : Int) by norm_num]
    exact zpow_le_zpow_right₀ (by norm_num) (by norm_num)
  have hxu : x * (2 : ℚ) ^ (-53 : Int) ≤ x * (1 / 4) :=
    mul_le_mul_of_nonneg_left hu (le_of_lt hpos)
  have := (abs_le.mp herr).1
  generalize x * (2 : ℚ) ^ (-53 : Int) = W at hxu this
  linarith

/-- Rounding is monotone on the non-negative numbers, also across an overflow. -/
theorem round_mono {x y b : ℚ} (h0 : 0 ≤ x) (hxy : x ≤ y)
    (hy : Binary64.round y = Binary64.finite b) :
    ∃ a, Binary64.round x = Binary64.finite a ∧ 0 ≤ a ∧ a ≤ b := by
  rcases eq_or_lt_of_le h0 with h | hpos
  · subst h
    refine ⟨0, round_zero, le_refl 0, ?_⟩
    rcases eq_or_lt_of_le hxy with h | hypos
    · rw [← h, round_zero] at hy
      exact le_of_eq (Binary64.finite.inj hy)
    · rw [round_pos hypos] at hy
      split_ifs at hy
      rw [← Binary64.finite.inj hy]
      exact nearest_nonneg (le_of_lt hypos)
  · have hypos : 0 < y := lt_of_lt_of_le hpos hxy
    rw [round_pos hypos] at hy
    split_ifs at hy with hfin
    have hb : b = nearest y := (Binary64.finite.inj hy).symm
    have hm := nearest_mono hpos hxy
    have hfx : ¬ (2 : ℚ) ^ (1024 : Int) ≤ nearest x := fun h => hfin (le_trans h hm)
    exact ⟨nearest x, by rw [round_pos hpos, if_neg hfx], nearest_nonneg h0, by rw [hb]; exact hm⟩

/-- The error of a product `a * s` of two approximations, and of its rounding `p`, where
`a` approximates `α`, `s` approximates `n / D` and `D` approximates `Δ`. -/
theorem scaled_error {α Δ n a D s p u η : ℚ}
    (hα0 : 0 ≤ α) (hΔ : 0 < Δ) (hn : 0 ≤ n) (hu0 : 0 ≤ u) (hu : u ≤ 1 / 4) (hη : 0 ≤ η)
    (hD : |D - Δ| ≤ Δ * u) (ha : |a - α| ≤ α * u + η)
    (hs : |s - n / D| ≤ n / D * u) (hp : |p - a * s| ≤ a * s * u + η) :
    |p - α * n / Δ| ≤ 13 * (α * n / Δ) * u + 4 * (n / Δ) * η + η := by
  have hDlo : Δ / 2 ≤ D := by
    have := (abs_le.mp hD).1
    nlinarith
  have hDpos : 0 < D := lt_of_lt_of_le (by linarith) hDlo
  set σ := n / Δ with hσ
  set t := n / D with ht
  have hσ0 : 0 ≤ σ := div_nonneg hn (le_of_lt hΔ)
  have ht0 : 0 ≤ t := div_nonneg hn (le_of_lt hDpos)
  have htD : t * D = n := div_mul_cancel₀ n (ne_of_gt hDpos)
  have hσΔ : σ * Δ = n := div_mul_cancel₀ n (ne_of_gt hΔ)
  -- t ≤ 2 σ
  have ht2 : t ≤ 2 * σ := by
    have h1 : t * (Δ / 2) ≤ t * D := mul_le_mul_of_nonneg_left hDlo ht0
    have h2 : t * (Δ / 2) ≤ σ * Δ := by rw [hσΔ, ← htD]; exact h1
    have h3 : t * Δ ≤ 2 * σ * Δ := by linarith
    exact le_of_mul_le_mul_right h3 hΔ
  -- |t - σ| ≤ t u
  have hts : |t - σ| ≤ t * u := by
    have h1 : (σ - t) * Δ = t * (D - Δ) := by
      have : (σ - t) * Δ = σ * Δ - t * Δ := by ring
      rw [this, hσΔ, ← htD]; ring
    have h2 : |σ - t| * Δ = t * |D - Δ| := by
      rw [← abs_of_pos hΔ, ← abs_mul, h1, abs_mul, abs_of_nonneg ht0, abs_of_pos hΔ]
    have h3 : |σ - t| * Δ ≤ t * u * Δ := by
      rw [h2]
      calc t * |D - Δ| ≤ t * (Δ * u) := mul_le_mul_of_nonneg_left hD ht0
        _ = t * u * Δ := by ring
    rw [abs_sub_comm]
    exact le_of_mul_le_mul_right h3 hΔ
  have htu : t * u ≤ 2 * σ * u := mul_le_mul_of_nonneg_right ht2 hu0
  -- |s - σ| ≤ 4 σ u
  have hsσ : |s - σ| ≤ 4 * σ * u := by
    calc |s - σ| = |(s - t) + (t - σ)| := by ring_nf
      _ ≤ |s - t| + |t - σ| := abs_add _ _
      _ ≤ t * u + t * u := add_le_add hs hts
      _ ≤ 4 * σ * u := by linarith
  have hσu : σ * u ≤ σ * (1 / 4) := mul_le_mul_of_nonneg_left hu hσ0
  have hs2 : s ≤ 2 * σ := by
    have := (abs_le.mp hsσ).2
    linarith
  have hs0 : 0 ≤ s := by
    have h1 := (abs_le.mp hs).1
    have h2 : t * u ≤ t * (1 / 4) := mul_le_mul_of_nonneg_left hu ht0
    linarith
  -- |a s - α σ| ≤ 6 α σ u + 2 σ η
  have hprod : |a * s - α * σ| ≤ 6 * (α * σ) * u + 2 * σ * η := by
    have e : a * s - α * σ = (a - α) * s + α * (s - σ) := by ring
    rw [e]
    calc |(a - α) * s + α * (s - σ)| ≤ |(a - α) * s| + |α * (s - σ)| := abs_add _ _
      _ = |a - α| * s + α * |s - σ| := by
          rw [abs_mul, abs_mul, abs_of_nonneg hs0, abs_of_nonneg hα0]
      _ ≤ (α * u + η) * (2 * σ) + α * (4 * σ * u) :=
          add_le_add (mul_le_mul ha hs2 hs0 (by positivity))
            (mul_le_mul_of_nonneg_left hsσ hα0)
      _ = 6 * (α * σ) * u + 2 * σ * η := by ring
  have hv0 : 0 ≤ α * σ := mul_nonneg hα0 hσ0
  have has : a * s ≤ α * σ + (6 * (α * σ) * u + 2 * σ * η) := by
    have := (abs_le.mp hprod).2
    linarith
  have hfinal : |p - α * σ| ≤ 13 * (α * σ) * u + 4 * σ * η + η := by
    have h1 : |p - α * σ| ≤ |p - a * s| + |a * s - α * σ| := by
      have e : p - α * σ = (p - a * s) + (a * s - α * σ) := by ring
      rw [e]; exact abs_add _ _
    have h2 : a * s * u ≤ (α * σ + (6 * (α * σ) * u + 2 * σ * η)) * u :=
      mul_le_mul_of_nonneg_right has hu0
    have h3 : (α * σ) * u * u ≤ (α * σ) * u * 1 :=
      mul_le_mul_of_nonneg_left (by linarith) (mul_nonneg hv0 hu0)
    have h4 : σ * η * u ≤ σ * η * 1 :=
      mul_le_mul_of_nonneg_left (by linarith) (mul_nonneg hσ0 hη)
    nlinarith
  have e : α * n / Δ = α * σ := by rw [hσ]; ring
  rw [e]
  exact hfinal

theorem two_zpow_le {j k : Int} (h : j ≤ k) : (2 : ℚ) ^ j ≤ (2 : ℚ) ^ k :=
  zpow_le_zpow_right₀ (by norm_num) h

theorem unit_le_quarter : (2 : ℚ) ^ (-53 : Int) ≤ 1 / 4 := by
  rw [show (1 / 4 : ℚ) = (2 : ℚ) ^ (-2 : Int) by norm_num]
  exact two_zpow_le (by norm_num)

/-- An approximation with a relative error of at most a quarter lies between half and twice
the approximated value. -/
theorem approx_bounds {D Δ u : ℚ} (hΔ : 0 ≤ Δ) (hu : u ≤ 1 / 4) (h : |D - Δ| ≤ Δ * u) :
    Δ / 2 ≤ D ∧ D ≤ 2 * Δ := by
  obtain ⟨h1, h2⟩ := abs_le.mp h
  have h3 : Δ * u ≤ Δ * (1 / 4) := mul_le_mul_of_nonneg_left hu hΔ
  constructor <;> linarith

theorem approx_bounds_abs {a α u η : ℚ} (hα : 0 ≤ α) (hu : u ≤ 1 / 4)
    (h : |a - α| ≤ α * u + η) : a ≤ 2 * α + η := by
  obtain ⟨-, h2⟩ := abs_le.mp h
  have h3 : α * u ≤ α * (1 / 4) := mul_le_mul_of_nonneg_left hu hα
  linarith

/-- The quotient `n / D` of the coordinate mappings is in the normal range. -/
theorem quotient_normal {n D Δ : ℚ} (hn1 : 1 ≤ n) (hn2 : n ≤ (2 : ℚ) ^ (31 : Int))
    (hmin : (2 : ℚ) ^ (-900 : Int) ≤ Δ) (hmax : Δ ≤ (2 : ℚ) ^ (900 : Int))
    (hDlo : Δ / 2 ≤ D) (hDhi : D ≤ 2 * Δ) :
    (2 : ℚ) ^ (-1022 : Int) ≤ n / D ∧ n / D ≤ (2 : ℚ) ^ (1023 : Int) := by
  have hΔ : 0 < Δ := lt_of_lt_of_le (two_zpow_pos _) hmin
  have hDpos : 0 < D := lt_of_lt_of_le (by linarith) hDlo
  have e1 : (2 : ℚ) ^ (901 : Int) = 2 * (2 : ℚ) ^ (900 : Int) := by
    rw [show (901 : Int) = 1 + 900 by norm_num, ← two_zpow_mul]; norm_num
  have e2 : (2 : ℚ) ^ (-900 : Int) = 2 * (2 : ℚ) ^ (-901 : Int) := by
    rw [show (-900 : Int) = 1 + (-901) by norm_num, ← two_zpow_mul]; norm_num
  have hD1 : D ≤ (2 : ℚ) ^ (901 : Int) := by rw [e1]; linarith
  have hD2 : (2 : ℚ) ^ (-901 : Int) ≤ D := by
    rw [e2] at hmin; linarith
  constructor
  · rw [le_div_iff₀ hDpos]
    calc (2 : ℚ) ^ (-1022 : Int) * D
        ≤ (2 : ℚ) ^ (-1022 : Int) * (2 : ℚ) ^ (901 : Int) :=
          mul_le_mul_of_nonneg_left hD1 (le_of_lt (two_zpow_pos _))
      _ = (2 : ℚ) ^ (-121 : Int) := by rw [two_zpow_mul]; norm_num
      _ ≤ (2 : ℚ) ^ (0 : Int) := two_zpow_le (by norm_num)
      _ = 1 := by norm_num
      _ ≤ n := hn1
  · rw [div_le_iff₀ hDpos]
    calc n ≤ (2 : ℚ) ^ (31 : Int) := hn2
      _ ≤ (2 : ℚ) ^ (122 : Int) := two_zpow_le (by norm_num)
      _ = (2 : ℚ) ^ (1023 : Int) * (2 : ℚ) ^ (-901 : Int) := by rw [two_zpow_mul]; norm_num
      _ ≤ (2 : ℚ) ^ (1023 : Int) * D :=
          mul_le_mul_of_nonneg_left hD2 (le_of_lt (two_zpow_pos _))

/-- The final numeric bound of the error of the coordinate mappings. -/
theorem scaled_bound {v σ n : ℚ} (hvn : v ≤ n) (hn2 : n ≤ (2 : ℚ) ^ (31 : Int))
    (hσ : σ ≤ (2 : ℚ) ^ (931 : Int)) :
    13 * v * (2 : ℚ) ^ (-53 : Int) + 4 * σ * (2 : ℚ) ^ (-1075 : Int) + (2 : ℚ) ^ (-1075 : Int)
      ≤ (2 : ℚ) ^ (-18 : Int) := by
  have h1 : v * (2 : ℚ) ^ (-53 : Int) ≤ (2 : ℚ) ^ (-22 : Int) := by
    calc v * (2 : ℚ) ^ (-53 : Int) ≤ (2 : ℚ) ^ (31 : Int) * (2 : ℚ) ^ (-53 : Int) :=
          mul_le_mul_of_nonneg_right (le_trans hvn hn2) (le_of_lt (two_zpow_pos _))
      _ = (2 : ℚ) ^ (-22 : Int) := by rw [two_zpow_mul]; norm_num
  have h2 : σ * (2 : ℚ) ^ (-1075 : Int) ≤ (2 : ℚ) ^ (-24 : Int) := by
    calc σ * (2 : ℚ) ^ (-1075 : Int) ≤ (2 : ℚ) ^ (931 : Int) * (2 : ℚ) ^ (-1075 : Int) :=
          mul_le_mul_of_nonneg_right hσ (le_of_lt (two_zpow_pos _))
      _ = (2 : ℚ) ^ (-144 : Int) := by rw [two_zpow_mul]; norm_num
      _ ≤ (2 : ℚ) ^ (-24 : Int) := two_zpow_le (by norm_num)
  have h3 : (2 : ℚ) ^ (-1075 : Int) ≤ (2 : ℚ) ^ (-24 : Int) := two_zpow_le (by norm_num)
  have e : (2 : ℚ) ^ (-18 : Int) = 64 * (2 : ℚ) ^ (-24 : Int) := by
    rw [show (64 : ℚ) = (2 : ℚ) ^ (6 : Int) by norm_num, two_zpow_mul]; norm_num
  have e22 : (2 : ℚ) ^ (-22 : Int) = 4 * (2 : ℚ) ^ (-24 : Int) := by
    rw [show (4 : ℚ) = (2 : ℚ) ^ (2 : Int) by norm_num, two_zpow_mul]; norm_num
  have hT : (0 : ℚ) < (2 : ℚ) ^ (-24 : Int) := two_zpow_pos _
  have eg : 13 * v * (2 : ℚ) ^ (-53 : Int) + 4 * σ * (2 : ℚ) ^ (-1075 : Int)
      + (2 : ℚ) ^ (-1075 : Int)
      = 13 * (v * (2 : ℚ) ^ (-53 : Int)) + 4 * (σ * (2 : ℚ) ^ (-1075 : Int))
        + (2 : ℚ) ^ (-1075 : Int) := by ring
  rw [e, eg]
  rw [e22] at h1
  generalize (2 : ℚ) ^ (-24 : Int) = T at h1 h2 h3 hT ⊢
  generalize v * (2 : ℚ) ^ (-53 : Int) = A at h1 ⊢
  generalize σ * (2 : ℚ) ^ (-1075 : Int) = B at h2 ⊢
  generalize (2 : ℚ) ^ (-1075 : Int) = C at h3 ⊢
  linarith

/-- The binary64 value of `(x - lo) * (n / (hi - lo))`, the expression of `rowFromR` and
`colFromI`, for a coordinate of the inclusive range: it is finite, non-negative and within
`2^-18` of the exact value. -/
theorem scaled_value {x lo hi : ℚ} {n : Int} (hn : 0 < n) (hnmax : n ≤ intMax)
    (hlo : lo ≤ x) (hhi : x ≤ hi)
    (hmin : (2 : ℚ) ^ (-900 : Int) ≤ hi - lo) (hmax : hi - lo ≤ (2 : ℚ) ^ (900 : Int)) :
    ∃ p : ℚ, Binary64.mul (Binary64.sub x lo)
        (Binary64.div (n : ℚ) (Binary64.sub hi lo)) = Binary64.finite p ∧
      0 ≤ p ∧ |p - (x - lo) * n / (hi - lo)| ≤ (2 : ℚ) ^ (-18 : Int) := by
  have hΔ : 0 < hi - lo := lt_of_lt_of_le (two_zpow_pos _) hmin
  have hα0 : 0 ≤ x - lo := by linarith
  have hαΔ : x - lo ≤ hi - lo := by linarith
  have hnq : (1 : ℚ) ≤ (n : ℚ) := by exact_mod_cast hn
  have hnq2 : (n : ℚ) ≤ (2 : ℚ) ^ (31 : Int) := by
    have h1 : (n : ℚ) ≤ ((2147483647 : Int) : ℚ) := by exact_mod_cast hnmax
    have h31 : (2 : ℚ) ^ (31 : Int) = 2147483648 := by norm_num
    rw [h31]
    push_cast at h1
    linarith
  have hu0 : (0 : ℚ) ≤ (2 : ℚ) ^ (-53 : Int) := le_of_lt (two_zpow_pos _)
  have hη0 : (0 : ℚ) ≤ (2 : ℚ) ^ (-1075 : Int) := le_of_lt (two_zpow_pos _)
  -- the divisor and the first factor
  obtain ⟨D, hDr, hDpos, hDerr⟩ := round_rel (le_trans (two_zpow_le (by norm_num)) hmin)
    (le_trans hmax (two_zpow_le (by norm_num)))
  obtain ⟨a, har, ha0, haerr⟩ := round_abs hα0
    (le_trans hαΔ (le_trans hmax (two_zpow_le (by norm_num))))
  obtain ⟨hDlo, hDhi⟩ := approx_bounds (le_of_lt hΔ) unit_le_quarter hDerr
  -- the quotient
  obtain ⟨hq1, hq2⟩ := quotient_normal hnq hnq2 hmin hmax hDlo hDhi
  obtain ⟨s, hsr, hspos, hserr⟩ := round_rel hq1 hq2
  obtain ⟨-, hs2⟩ := approx_bounds (le_trans (le_of_lt (two_zpow_pos _)) hq1)
    unit_le_quarter hserr
  -- the product is below the overflow threshold
  have hσ0 : 0 ≤ (n : ℚ) / (hi - lo) := div_nonneg (by linarith) (le_of_lt hΔ)
  have hσΔ : (n : ℚ) / (hi - lo) * (hi - lo) = n := div_mul_cancel₀ _ (ne_of_gt hΔ)
  have hσ : (n : ℚ) / (hi - lo) ≤ (2 : ℚ) ^ (931 : Int) := by
    rw [div_le_iff₀ hΔ]
    calc (n : ℚ) ≤ (2 : ℚ) ^ (31 : Int) := hnq2
      _ = (2 : ℚ) ^ (931 : Int) * (2 : ℚ) ^ (-900 : Int) := by rw [two_zpow_mul]; norm_num
      _ ≤ (2 : ℚ) ^ (931 : Int) * (hi - lo) :=
          mul_le_mul_of_nonneg_left hmin (le_of_lt (two_zpow_pos _))
  have htσ : (n : ℚ) / D ≤ 2 * ((n : ℚ) / (hi - lo)) := by
    rw [div_le_iff₀ hDpos]
    have h4 : (n : ℚ) / (hi - lo) * ((hi - lo) / 2) ≤ (n : ℚ) / (hi - lo) * D :=
      mul_le_mul_of_nonneg_left hDlo hσ0
    linarith
  have hs4 : s ≤ 4 * ((n : ℚ) / (hi - lo)) := by linarith
  have ha2 : a ≤ 2 * (hi - lo) + (2 : ℚ) ^ (-1075 : Int) := by
    have h1 := approx_bounds_abs hα0 unit_le_quarter haerr
    linarith
  have has : a * s ≤ (2 : ℚ) ^ (1023 : Int) := by
    have h1 : a * s ≤ (2 * (hi - lo) + (2 : ℚ) ^ (-1075 : Int)) * (4 * ((n : ℚ) / (hi - lo))) :=
      mul_le_mul ha2 hs4 (le_of_lt hspos) (by linarith)
    have h2 : (2 * (hi - lo) + (2 : ℚ) ^ (-1075 : Int)) * (4 * ((n : ℚ) / (hi - lo)))
        = 8 * n + 4 * ((n : ℚ) / (hi - lo) * (2 : ℚ) ^ (-1075 : Int)) := by
      have : (2 * (hi - lo) + (2 : ℚ) ^ (-1075 : Int)) * (4 * ((n : ℚ) / (hi - lo)))
          = 8 * ((n : ℚ) / (hi - lo) * (hi - lo))
            + 4 * ((n : ℚ) / (hi - lo) * (2 : ℚ) ^ (-1075 : Int)) := by ring
      rw [this, hσΔ]
    have h3 : (n : ℚ) / (hi - lo) * (2 : ℚ) ^ (-1075 : Int) ≤ (2 : ℚ) ^ (31 : Int) := by
      calc (n : ℚ) / (hi - lo) * (2 : ℚ) ^ (-1075 : Int)
          ≤ (2 : ℚ) ^ (931 : Int) * (2 : ℚ) ^ (-1075 : Int) :=
            mul_le_mul_of_nonneg_right hσ hη0
        _ = (2 : ℚ) ^ (-144 : Int) := by rw [two_zpow_mul]; norm_num
        _ ≤ (2 : ℚ) ^ (31 : Int) := two_zpow_le (by norm_num)
    have h4 : 12 * (2 : ℚ) ^ (31 : Int) ≤ (2 : ℚ) ^ (1023 : Int) := by
      calc 12 * (2 : ℚ) ^ (31 : Int) ≤ (2 : ℚ) ^ (4 : Int) * (2 : ℚ) ^ (31 : Int) :=
            mul_le_mul_of_nonneg_right (by norm_num) (le_of_lt (two_zpow_pos _))
        _ = (2 : ℚ) ^ (35 : Int) := by rw [two_zpow_mul]; norm_num
        _ ≤ (2 : ℚ) ^ (1023 : Int) := two_zpow_le (by norm_num)
    rw [h2] at h1
    generalize (n : ℚ) / (hi - lo) * (2 : ℚ) ^ (-1075 : Int) = B at h1 h3
    generalize (2 : ℚ) ^ (31 : Int) = T at hnq2 h3 h4
    generalize (2 : ℚ) ^ (1023 : Int) = V at h4 ⊢
    linarith
  obtain ⟨p, hpr, hp0, hperr⟩ := round_abs (mul_nonneg ha0 (le_of_lt hspos)) has
  refine ⟨p, ?_, hp0, ?_⟩
  · unfold Binary64.sub
    rw [har, hDr]
    simp only [Binary64.div, if_neg (ne_of_gt hDpos), hsr, Binary64.mul]
    exact hpr
  · have herr := scaled_error hα0 hΔ (by linarith : (0 : ℚ) ≤ (n : ℚ)) hu0 unit_le_quarter
      hη0 hDerr haerr hserr hperr
    refine le_trans herr ?_
    have hvn : (x - lo) * n / (hi - lo) ≤ n := by
      rw [div_le_iff₀ hΔ]
      have : (x - lo) * n ≤ (hi - lo) * n := mul_le_mul_of_nonneg_right hαΔ (by linarith)
      linarith
    exact scaled_bound hvn hnq2 hσ

theorem round_nonneg {x y : ℚ} (h0 : 0 ≤ x) (h : Binary64.round x = Binary64.finite y) :
    0 ≤ y := by
  obtain ⟨a, ha, -, hay⟩ := round_mono (le_refl (0 : ℚ)) h0 h
  rw [round_zero] at ha
  rw [Binary64.finite.inj ha]
  exact hay

theorem toInt_eq_some_of_nonneg {x : ℚ} {k : Int} (h0 : 0 ≤ x) (h : toInt x = some k) :
    k = ⌊x⌋ ∧ ⌊x⌋ ≤ intMax := by
  unfold toInt at h
  simp only [if_pos h0] at h
  split_ifs at h with hr
  exact ⟨(Option.some.inj h).symm, hr.2⟩

/-- The binary64 value of `heatmapValue * (maxColour / maxHeatmapValue)`, the expression of
`colourFromHeatmap`, for a `UINT` maximum and a non-negative `int` depth: where the exact
value `v * d / G` is at most `2^31` it is finite, non-negative and within `2^-20` of it. -/
theorem colour_value {v G : Nat} {d : Int} (hG : 0 < G) (hG32 : G < uintSize)
    (hd0 : 0 ≤ d) (hd : d ≤ intMax) (hx : (v : ℚ) * d / G ≤ (2 : ℚ) ^ (31 : Int)) :
    ∃ p : ℚ, Binary64.mul (Binary64.finite (v : ℚ))
        (Binary64.div (d : ℚ) (Binary64.finite (G : ℚ))) = Binary64.finite p ∧
      0 ≤ p ∧ |p - (v : ℚ) * d / G| ≤ (2 : ℚ) ^ (-20 : Int) := by
  have hGq : (0 : ℚ) < (G : ℚ) := by exact_mod_cast hG
  have hdiv : Binary64.div (d : ℚ) (Binary64.finite (G : ℚ)) = Binary64.round ((d : ℚ) / G) := by
    simp only [Binary64.div, if_neg (ne_of_gt hGq)]
  rw [hdiv]
  have hpos20 : (0 : ℚ) ≤ (2 : ℚ) ^ (-20 : Int) := le_of_lt (two_zpow_pos _)
  rcases eq_or_lt_of_le hd0 with hdz | hdpos
  · subst hdz
    refine ⟨0, ?_, le_refl 0, ?_⟩
    · simp [round_zero, Binary64.mul]
    · simpa using hpos20
  · rcases Nat.eq_zero_or_pos v with hvz | hvpos
    · subst hvz
      obtain ⟨s, hs, -, -⟩ : ∃ s, Binary64.round ((d : ℚ) / G) = Binary64.finite s ∧
          0 ≤ s ∧ |s - (d : ℚ) / G| ≤ (d : ℚ) / G * (2 : ℚ) ^ (-53 : Int)
            + (2 : ℚ) ^ (-1075 : Int) := by
        refine round_abs (div_nonneg (by exact_mod_cast hd0) (le_of_lt hGq)) ?_
        rw [div_le_iff₀ hGq]
        have h1 : (d : ℚ) ≤ (2 : ℚ) ^ (31 : Int) := by
          have : (d : ℚ) ≤ ((2147483647 : Int) : ℚ) := by exact_mod_cast hd
          rw [show (2 : ℚ) ^ (31 : Int) = 2147483648 by norm_num]
          push_cast at this; linarith
        have h2 : (1 : ℚ) ≤ (G : ℚ) := by exact_mod_cast hG
        calc (d : ℚ) ≤ (2 : ℚ) ^ (31 : Int) := h1
          _ ≤ (2 : ℚ) ^ (1023 : Int) := two_zpow_le (by norm_num)
          _ = (2 : ℚ) ^ (1023 : Int) * 1 := by ring
          _ ≤ (2 : ℚ) ^ (1023 : Int) * G :=
              mul_le_mul_of_nonneg_left h2 (le_of_lt (two_zpow_pos _))
      refine ⟨0, ?_, le_refl 0, ?_⟩
      · rw [hs]; simp [Binary64.mul, round_zero]
      · simpa using hpos20
    · have hdq : (1 : ℚ) ≤ (d : ℚ) := by exact_mod_cast hdpos
      have hvq : (1 : ℚ) ≤ (v : ℚ) := by exact_mod_cast hvpos
      have hd31 : (d : ℚ) ≤ (2 : ℚ) ^ (31 : Int) := by
        have : (d : ℚ) ≤ ((2147483647 : Int) : ℚ) := by exact_mod_cast hd
        rw [show (2 : ℚ) ^ (31 : Int) = 2147483648 by norm_num]
        push_cast at this; linarith
      have hG32q : (G : ℚ) ≤ (2 : ℚ) ^ (32 : Int) := by
        have : (G : ℚ) ≤ ((4294967296 : Nat) : ℚ) := by
          exact_mod_cast le_of_lt hG32
        rw [show (2 : ℚ) ^ (32 : Int) = 4294967296 by norm_num]
        push_cast at this; linarith
      have hG1 : (1 : ℚ) ≤ (G : ℚ) := by exact_mod_cast hG
      set q := (d : ℚ) / G with hq
      have hq0 : 0 < q := div_pos (by linarith) hGq
      have hqlo : (2 : ℚ) ^ (-32 : Int) ≤ q := by
        rw [hq, le_div_iff₀ hGq]
        calc (2 : ℚ) ^ (-32 : Int) * G ≤ (2 : ℚ) ^ (-32 : Int) * (2 : ℚ) ^ (32 : Int) :=
              mul_le_mul_of_nonneg_left hG32q (le_of_lt (two_zpow_pos _))
          _ = 1 := by rw [two_zpow_mul]; norm_num
          _ ≤ d := hdq
      have hqhi : q ≤ (2 : ℚ) ^ (31 : Int) := by
        rw [hq, div_le_iff₀ hGq]
        calc (d : ℚ) ≤ (2 : ℚ) ^ (31 : Int) := hd31
          _ = (2 : ℚ) ^ (31 : Int) * 1 := by ring
          _ ≤ (2 : ℚ) ^ (31 : Int) * G :=
              mul_le_mul_of_nonneg_left hG1 (le_of_lt (two_zpow_pos _))
      obtain ⟨s, hs, hspos, hserr⟩ := round_rel (le_trans (two_zpow_le (by norm_num)) hqlo)
        (le_trans hqhi (two_zpow_le (by norm_num)))
      obtain ⟨hslo, hshi⟩ := approx_bounds (le_of_lt hq0) unit_le_quarter hserr
      have hxe : (v : ℚ) * d / G = (v : ℚ) * q := by rw [hq]; ring
      rw [hxe] at hx ⊢
      have hx0 : 0 ≤ (v : ℚ) * q := mul_nonneg (by linarith) (le_of_lt hq0)
      -- the product is in the normal range
      have hp1 : (2 : ℚ) ^ (-1022 : Int) ≤ (v : ℚ) * s := by
        have h1 : (2 : ℚ) ^ (-33 : Int) ≤ s := by
          have e : (2 : ℚ) ^ (-32 : Int) = 2 * (2 : ℚ) ^ (-33 : Int) := by
            rw [show (-32 : Int) = 1 + (-33) by norm_num, ← two_zpow_mul]; norm_num
          rw [e] at hqlo
          linarith
        calc (2 : ℚ) ^ (-1022 : Int) ≤ (2 : ℚ) ^ (-33 : Int) := two_zpow_le (by norm_num)
          _ ≤ s := h1
          _ = 1 * s := by ring
          _ ≤ (v : ℚ) * s := mul_le_mul_of_nonneg_right hvq (le_of_lt hspos)
      have hvs : (v : ℚ) * s ≤ 2 * ((v : ℚ) * q) := by
        have := mul_le_mul_of_nonneg_left hshi (by linarith : (0 : ℚ) ≤ (v : ℚ))
        linarith
      have hp2 : (v : ℚ) * s ≤ (2 : ℚ) ^ (1023 : Int) := by
        have e : (2 : ℚ) ^ (32 : Int) = 2 * (2 : ℚ) ^ (31 : Int) := by
          rw [show (32 : Int) = 1 + 31 by norm_num, ← two_zpow_mul]; norm_num
        calc (v : ℚ) * s ≤ 2 * ((v : ℚ) * q) := hvs
          _ ≤ 2 * (2 : ℚ) ^ (31 : Int) := by linarith
          _ = (2 : ℚ) ^ (32 : Int) := e.symm
          _ ≤ (2 : ℚ) ^ (1023 : Int) := two_zpow_le (by norm_num)
      obtain ⟨p, hp, hppos, hperr⟩ := round_rel hp1 hp2
      refine ⟨p, by rw [hs]; simpa [Binary64.mul] using hp, le_of_lt hppos, ?_⟩
      have h1 : |(v : ℚ) * s - (v : ℚ) * q| ≤ (v : ℚ) * q * (2 : ℚ) ^ (-53 : Int) := by
        rw [← mul_sub, abs_mul, abs_of_nonneg (by linarith : (0 : ℚ) ≤ (v : ℚ))]
        calc (v : ℚ) * |s - q| ≤ (v : ℚ) * (q * (2 : ℚ) ^ (-53 : Int)) :=
              mul_le_mul_of_nonneg_left hserr (by linarith)
          _ = (v : ℚ) * q * (2 : ℚ) ^ (-53 : Int) := by ring
      have h2 : (v : ℚ) * s * (2 : ℚ) ^ (-53 : Int)
          ≤ 2 * ((v : ℚ) * q) * (2 : ℚ) ^ (-53 : Int) :=
        mul_le_mul_of_nonneg_right hvs (le_of_lt (two_zpow_pos _))
      have h3 : |p - (v : ℚ) * q| ≤ 3 * ((v : ℚ) * q * (2 : ℚ) ^ (-53 : Int)) := by
        calc |p - (v : ℚ) * q| = |(p - (v : ℚ) * s) + ((v : ℚ) * s - (v : ℚ) * q)| := by ring_nf
          _ ≤ |p - (v : ℚ) * s| + |(v : ℚ) * s - (v : ℚ) * q| := abs_add _ _
          _ ≤ 3 * ((v : ℚ) * q * (2 : ℚ) ^ (-53 : Int)) := by linarith
      have h4 : (v : ℚ) * q * (2 : ℚ) ^ (-53 : Int) ≤ (2 : ℚ) ^ (-22 : Int) := by
        calc (v : ℚ) * q * (2 : ℚ) ^ (-53 : Int)
            ≤ (2 : ℚ) ^ (31 : Int) * (2 : ℚ) ^ (-53 : Int) :=
              mul_le_mul_of_nonneg_right hx (le_of_lt (two_zpow_pos _))
          _ = (2 : ℚ) ^ (-22 : Int) := by rw [two_zpow_mul]; norm_num
      have e20 : (2 : ℚ) ^ (-20 : Int) = 4 * (2 : ℚ) ^ (-22 : Int) := by
        rw [show (4 : ℚ) = (2 : ℚ) ^ (2 : Int) by norm_num, two_zpow_mul]; norm_num
      have hT : (0 : ℚ) < (2 : ℚ) ^ (-22 : Int) := two_zpow_pos _
      rw [e20]
      linarith

/-- `colourFromHeatmap` is monotone in the cell value wherever the colour of the larger cell
value is defined. -/
theorem colour_mono {a b G : Nat} {d : Int} (hG : 0 < G) (hd : 0 ≤ d) (hab : a ≤ b)
    {cb : Int} (h : colourFromHeatmap b G d = some cb) :
    ∃ ca : Int, colourFromHeatmap a G d = some ca ∧ ca ≤ cb := by
  have hGq : (0 : ℚ) < (G : ℚ) := by exact_mod_cast hG
  have hdiv : Binary64.div (d : ℚ) (Binary64.finite (G : ℚ)) = Binary64.round ((d : ℚ) / G) := by
    simp only [Binary64.div, if_neg (ne_of_gt hGq)]
  unfold colourFromHeatmap at h ⊢
  simp only [hdiv] at h ⊢
  have hq0 : (0 : ℚ) ≤ (d : ℚ) / G := div_nonneg (by exact_mod_cast hd) (le_of_lt hGq)
  cases hS : Binary64.round ((d : ℚ) / G) with
  | finite s =>
    rw [hS] at h
    have hs0 : 0 ≤ s := round_nonneg hq0 hS
    simp only [Binary64.mul] at h ⊢
    cases hB : Binary64.round ((b : ℚ) * s) with
    | finite pb =>
      rw [hB] at h
      simp only [Binary64.toInt] at h
      have hab' : (a : ℚ) * s ≤ (b : ℚ) * s :=
        mul_le_mul_of_nonneg_right (by exact_mod_cast hab) hs0
      have ha0 : 0 ≤ (a : ℚ) * s := mul_nonneg (Nat.cast_nonneg a) hs0
      obtain ⟨pa, hA, hpa0, hpab⟩ := round_mono ha0 hab' hB
      obtain ⟨hcb, hfit⟩ := toInt_eq_some_of_nonneg (le_trans hpa0 hpab) h
      have hfl : ⌊pa⌋ ≤ ⌊pb⌋ := Int.floor_mono hpab
      refine ⟨⌊pa⌋, ?_, by rw [hcb]; exact hfl⟩
      rw [hA]
      exact toInt_of_nonneg hpa0 (le_trans hfl hfit)
    | infinite => rw [hB] at h; simp [Binary64.toInt] at h
    | nan => rw [hB] at h; simp [Binary64.toInt] at h
  | infinite =>
    rw [hS] at h
    simp only [Binary64.mul] at h
    split_ifs at h <;> simp [Binary64.toInt] at h
  | nan =>
    rw [hS] at h
    simp [Binary64.mul, Binary64.toInt] at h

/-! ## Coordinate mapping -/

/-- The exact value that the mapping truncates lies in `[0, n]` for a coordinate inside the
inclusive range. -/
theorem scaled_mem_Icc {x lo hi : ℚ} {n : Int} (hlt : lo < hi) (hn : 0 < n)
    (hlo : lo ≤ x) (hhi : x ≤ hi) :
    0 ≤ (x - lo) * n / (hi - lo) ∧ (x - lo) * n / (hi - lo) ≤ n := by
  have hd : 0 < hi - lo := sub_pos.mpr hlt
  have hnq : (0 : ℚ) < n := by exact_mod_cast hn
  constructor
  · exact div_nonneg (mul_nonneg (by linarith) (le_of_lt hnq)) (le_of_lt hd)
  · rw [div_le_iff₀ hd]
    have : (x - lo) * n ≤ (hi - lo) * n := mul_le_mul_of_nonneg_right (by linarith) (le_of_lt hnq)
    linarith

theorem scaled_lt {x lo hi : ℚ} {n : Int} (hlt : lo < hi) (hn : 0 < n) (hhi : x < hi) :
    (x - lo) * n / (hi - lo) < n := by
  have hd : 0 < hi - lo := sub_pos.mpr hlt
  have hnq : (0 : ℚ) < n := by exact_mod_cast hn
  rw [div_lt_iff₀ hd]
  have : (x - lo) * n < (hi - lo) * n := mul_lt_mul_of_pos_right (by linarith) hnq
  linarith

/-- The index computed by `rowFromR` and `colFromI` for a coordinate of the inclusive range
`[lo, hi]`: it is defined, lies in `[0, n]`, is within 1 of the floor of the exact value, is
below `n` when the exact value is at most `n - 2^-17`, and where no operation rounds it is
that floor, equal to `n` exactly at `hi`. -/
theorem scaled_index {x lo hi : ℚ} {n : Int} (hn : 0 < n) (hnmax : n ≤ intMax)
    (hlo : lo ≤ x) (hhi : x ≤ hi)
    (hmin : (2 : ℚ) ^ (-900 : Int) ≤ hi - lo) (hmax : hi - lo ≤ (2 : ℚ) ^ (900 : Int)) :
    ∃ k : Int, Binary64.toInt (Binary64.mul (Binary64.sub x lo)
        (Binary64.div (n : ℚ) (Binary64.sub hi lo))) = some k ∧
      0 ≤ k ∧ k ≤ n ∧ |k - ⌊(x - lo) * n / (hi - lo)⌋| ≤ 1 ∧
      ((x - lo) * n / (hi - lo) ≤ n - 1 / 131072 → k < n) ∧
      (exactScaled x lo hi n →
        k = ⌊(x - lo) * n / (hi - lo)⌋ ∧ (k = n ↔ x = hi)) := by
  have hlt : lo < hi := sub_pos.mp (lt_of_lt_of_le (two_zpow_pos _) hmin)
  obtain ⟨p, hp, hp0, hperr⟩ := scaled_value hn hnmax hlo hhi hmin hmax
  obtain ⟨hv0, hvn⟩ := scaled_mem_Icc hlt hn hlo hhi
  have h18 : (2 : ℚ) ^ (-18 : Int) = 1 / 262144 := by norm_num
  rw [h18] at hperr
  obtain ⟨he1, he2⟩ := abs_le.mp hperr
  set v := (x - lo) * n / (hi - lo) with hv
  have hpn : p < n + 1 := by linarith
  have hfl0 : (0 : Int) ≤ ⌊p⌋ := Int.floor_nonneg.mpr hp0
  have hfln : ⌊p⌋ ≤ n := by
    have : ⌊p⌋ < n + 1 := Int.floor_lt.mpr (by push_cast; exact hpn)
    omega
  have hnear : |⌊p⌋ - ⌊v⌋| ≤ 1 := by
    have h1 : ⌊p⌋ < ⌊v⌋ + 2 := by
      apply Int.floor_lt.mpr
      have := Int.lt_floor_add_one v
      push_cast
      linarith
    have h2 : ⌊v⌋ < ⌊p⌋ + 2 := by
      apply Int.floor_lt.mpr
      have := Int.lt_floor_add_one p
      push_cast
      linarith
    rw [abs_le]
    constructor <;> omega
  refine ⟨⌊p⌋, ?_, hfl0, hfln, hnear, ?_, ?_⟩
  · rw [hp]
    exact toInt_of_nonneg hp0 (le_trans hfln hnmax)
  · intro hsafe
    apply Int.floor_lt.mpr
    linarith
  · intro hex
    obtain ⟨h1, h2, h3, h4⟩ := hex
    have hne : hi - lo ≠ 0 := ne_of_gt (sub_pos.mpr hlt)
    have hpe : p = v := by
      have hval : Binary64.mul (Binary64.sub x lo)
          (Binary64.div (n : ℚ) (Binary64.sub hi lo))
          = Binary64.finite ((x - lo) * ((n : ℚ) / (hi - lo))) := by
        unfold Binary64.sub
        rw [h1, h2]
        simp only [Binary64.div, if_neg hne, h3, Binary64.mul]
        exact h4
      rw [hval] at hp
      rw [← Binary64.finite.inj hp, hv, mul_div_assoc]
    rw [hpe]
    refine ⟨rfl, ?_⟩
    constructor
    · intro hk
      by_contra hxne
      have hxlt : x < hi := lt_of_le_of_ne hhi hxne
      have hfl : ⌊v⌋ < n := Int.floor_lt.mpr (scaled_lt hlt hn hxlt)
      omega
    · intro hx
      have : v = (n : ℚ) := by
        rw [hv, hx]; field_simp
      rw [this, Int.floor_intCast]

/-- C5: evaluation of the accumulator at a point on the maximum boundary.  With the viewport
`[-2, 2] × [-2, 2]` and a 4 × 4 image, the sample `1+0i` with budget 3 has the trajectory
`[1+0i, 2+0i]`; the orbit point `2+0i` passes the inclusive viewport check, `rowFromR` maps
it to row 4 = `imageHeight` (and `colFromI` maps an imaginary part 2 to column 4 =
`imageWidth`), so the increment indexes the 4-row heatmap out of range and the run has no
defined result. -/
theorem recordPoint_max_boundary_eval :
    buddhabrotPoints ⟨1, 0⟩ 3 = [⟨1, 0⟩, ⟨2, 0⟩] ∧
    inViewport ⟨-2, -2⟩ ⟨2, 2⟩ ⟨2, 0⟩ ∧
    rowFromR 2 (-2) 2 4 = some 4 ∧
    colFromI 2 (-2) 2 4 = some 4 ∧
    allocHeatmap 4 4 = some [[0, 0, 0, 0], [0, 0, 0, 0], [0, 0, 0, 0], [0, 0, 0, 0]] ∧
    recordPoint 4 4 ⟨-2, -2⟩ ⟨2, 2⟩
      ([[0, 0, 0, 0], [0, 0, 0, 0], [0, 0, 0, 0], [0, 0, 0, 0]], 0) ⟨2, 0⟩ = none ∧
    generateHeatmap [[0, 0, 0, 0], [0, 0, 0, 0], [0, 0, 0, 0], [0, 0, 0, 0]] 4 4
      ⟨-2, -2⟩ ⟨2, 2⟩ 3 1 0 (fun _ => ⟨1, 0⟩) = none := by
  decide!

theorem recordPoint_outside {imageWidth imageHeight : Int} {min max : ComplexNumber}
    {st : Heatmap × Nat} {point : ComplexNumber} (h : ¬ inViewport min max point) :
    recordPoint imageWidth imageHeight min max st point = some st := by
  unfold inViewport at h
  simp only [recordPoint, if_neg h]

theorem recordPoint_inside {imageWidth imageHeight : Int} {min max : ComplexNumber}
    {st : Heatmap × Nat} {point : ComplexNumber} {row col : Nat} {cells : List Nat} {v : Nat}
    (h : inViewport min max point)
    (hrow : rowFromR point.r min.r max.r imageHeight = some (row : Int))
    (hcol : colFromI point.i min.i max.i imageWidth = some (col : Int))
    (hcells : st.1[row]? = some cells) (hv : cells[col]? = some v) :
    recordPoint imageWidth imageHeight min max st point
      = some (st.1.set row (cells.set col ((v + 1) % uintSize)),
              if (v + 1) % uintSize > st.2 then (v + 1) % uintSize else st.2) := by
  unfold inViewport at h
  simp [recordPoint, if_pos h, hrow, hcol, hcells, hv]

/-- Every defined result of the accumulator step is one of its two branches: the state is
untouched, or one cell inside the heatmap is incremented modulo `2^32`. -/
theorem recordPoint_eq_some {imageWidth imageHeight : Int} {min max : ComplexNumber}
    {st st1 : Heatmap × Nat} {point : ComplexNumber}
    (h : recordPoint imageWidth imageHeight min max st point = some st1) :
    (¬ inViewport min max point ∧ st1 = st) ∨
    (inViewport min max point ∧ ∃ (row col : Nat) (cells : List Nat) (v : Nat),
      rowFromR point.r min.r max.r imageHeight = some (row : Int) ∧
      colFromI point.i min.i max.i imageWidth = some (col : Int) ∧
      st.1[row]? = some cells ∧ cells[col]? = some v ∧
      st1 = (st.1.set row (cells.set col ((v + 1) % uintSize)),
             if (v + 1) % uintSize > st.2 then (v + 1) % uintSize else st.2)) := by
  by_cases hin : inViewport min max point
  · right
    refine ⟨hin, ?_⟩
    have hin' := hin
    unfold inViewport at hin'
    simp only [recordPoint, if_pos hin'] at h
    cases hr : rowFromR point.r min.r max.r imageHeight with
    | none => simp [hr] at h
    | some row =>
      cases hc : colFromI point.i min.i max.i imageWidth with
      | none => simp [hr, hc] at h
      | some col =>
        simp only [hr, hc] at h
        by_cases hnn : 0 ≤ row ∧ 0 ≤ col
        · simp only [if_pos hnn] at h
          cases hcells : st.1[row.toNat]? with
          | none => simp [hcells] at h
          | some cells =>
            cases hv : cells[col.toNat]? with
            | none => simp [hcells, hv] at h
            | some v =>
              simp only [hcells, hv, Option.some.injEq] at h
              exact ⟨row.toNat, col.toNat, cells, v, by rw [Int.toNat_of_nonneg hnn.1],
                by rw [Int.toNat_of_nonneg hnn.2], hcells, hv, h.symm⟩
        · simp [if_neg hnn] at h
  · left
    rw [recordPoint_outside hin] at h
    exact ⟨hin, (Option.some.inj h).symm⟩

theorem cellAt_set_self {heatmap : Heatmap} {row col : Nat} {cells : List Nat} {v w : Nat}
    (hcells : heatmap[row]? = some cells) (hv : cells[col]? = some v) :
    cellAt (heatmap.set row (cells.set col w)) row col = some w := by
  obtain ⟨hr, -⟩ := List.getElem?_eq_some.mp hcells
  obtain ⟨hc, -⟩ := List.getElem?_eq_some.mp hv
  simp [cellAt, List.getElem?_set_self hr, List.getElem?_set_self hc]

theorem cellAt_set_of_ne {heatmap : Heatmap} {row col a b : Nat} {cells : List Nat} {w : Nat}
    (hcells : heatmap[row]? = some cells) (hne : (a, b) ≠ (row, col)) :
    cellAt (heatmap.set row (cells.set col w)) a b = cellAt heatmap a b := by
  by_cases har : row = a
  · subst har
    have hb : col ≠ b := fun hb => hne (by rw [hb])
    obtain ⟨hr, -⟩ := List.getElem?_eq_some.mp hcells
    simp [cellAt, List.getElem?_set_self hr, hcells, List.getElem?_set_ne hb]
  · simp [cellAt, List.getElem?_set_ne har]

/-- C6 (as amended): the accumulator step leaves the heatmap and the global maximum unchanged
for a point outside the inclusive viewport bounds; for a point inside them whose index
`(rowFromR r, colFromI i)` lies inside the heatmap, the cell at that index becomes its old
value plus 1 modulo `2^32` (its old value plus 1 unless the 32-bit counter was at its largest
value), every other cell is unchanged, and the global maximum becomes the larger of its old
value and the new cell value. -/
theorem recordPoint_frame (imageWidth imageHeight : Int) (min max : ComplexNumber)
    (heatmap : Heatmap) (maxHeatmapValue : Nat) (point : ComplexNumber) :
    (¬ inViewport min max point →
      recordPoint imageWidth imageHeight min max (heatmap, maxHeatmapValue) point
        = some (heatmap, maxHeatmapValue)) ∧
    (∀ (row col v : Nat), inViewport min max point →
      rowFromR point.r min.r max.r imageHeight = some (row : Int) →
      colFromI point.i min.i max.i imageWidth = some (col : Int) →
      cellAt heatmap row col = some v →
      ∃ (heatmap1 : Heatmap) (max1 : Nat),
        recordPoint imageWidth imageHeight min max (heatmap, maxHeatmapValue) point
          = some (heatmap1, max1) ∧
        cellAt heatmap1 row col = some ((v + 1) % uintSize) ∧
        (v + 1 < uintSize → cellAt heatmap1 row col = some (v + 1)) ∧
        (∀ a b : Nat, (a, b) ≠ (row, col) → cellAt heatmap1 a b = cellAt heatmap a b) ∧
        max1 = Nat.max maxHeatmapValue ((v + 1) % uintSize)) := by
  refine ⟨fun h => recordPoint_outside h, ?_⟩
  intro row col v hin hrow hcol hcell
  cases hcells : heatmap[row]? with
  | none => simp [cellAt, hcells] at hcell
  | some cells =>
    have hv : cells[col]? = some v := by simpa [cellAt, hcells] using hcell
    have hcells' : (heatmap, maxHeatmapValue).1[row]? = some cells := hcells
    refine ⟨_, _, recordPoint_inside hin hrow hcol hcells' hv, ?_, ?_, ?_, ?_⟩
    · exact cellAt_set_self hcells hv
    · intro hlt
      rw [cellAt_set_self hcells hv, Nat.mod_eq_of_lt hlt]
    · intro a b hne
      exact cellAt_set_of_ne hcells hne
    · show (if (v + 1) % uintSize > maxHeatmapValue then (v + 1) % uintSize
        else maxHeatmapValue) = Nat.max maxHeatmapValue ((v + 1) % uintSize)
      split
      · exact (Nat.max_eq_right (by omega)).symm
      · exact (Nat.max_eq_left (by omega)).symm

/-- A run of C6 (as amended) on a 2 × 2 heatmap over the viewport `[0, 1] × [0, 1]`: the
point `1/2 + 0i` increments the cell at row 1, column 0. -/
theorem recordPoint_frame_witness :
    ∃ (heatmap1 : Heatmap) (max1 : Nat),
      recordPoint 2 2 ⟨0, 0⟩ ⟨1, 1⟩ ([[1, 2], [3, 4]], 4) ⟨1 / 2, 0⟩ = some (heatmap1, max1) ∧
      cellAt heatmap1 1 0 = some ((3 + 1) % uintSize) ∧
      (3 + 1 < uintSize → cellAt heatmap1 1 0 = some (3 + 1)) ∧
      (∀ a b : Nat, (a, b) ≠ (1, 0) → cellAt heatmap1 a b = cellAt [[1, 2], [3, 4]] a b) ∧
      max1 = Nat.max 4 ((3 + 1) % uintSize) :=
  (recordPoint_frame 2 2 ⟨0, 0⟩ ⟨1, 1⟩ [[1, 2], [3, 4]] 4 ⟨1 / 2, 0⟩).2 1 0 3
    (by decide!) (by decide!) (by decide!) (by decide!)

/-- C6 (counterexample): on the 1 × 1 heatmap whose counter holds `2^32 - 1`, the point
`1/2 + 1/2 i` of the viewport `[0, 1] × [0, 1]` maps to the cell (0, 0) and the step leaves
that cell at 0, not increased by 1; and on a zeroed 2 × 2 heatmap the point `0 + 1i`, inside
the inclusive bounds, maps to column 2, where there is no cell to increase. -/
theorem recordPoint_increment_counterexample :
    (inViewport ⟨0, 0⟩ ⟨1, 1⟩ ⟨1 / 2, 1 / 2⟩ ∧
      rowFromR (1 / 2) 0 1 1 = some 0 ∧ colFromI (1 / 2) 0 1 1 = some 0 ∧
      recordPoint 1 1 ⟨0, 0⟩ ⟨1, 1⟩ ([[4294967295]], 4294967295) ⟨1 / 2, 1 / 2⟩
        = some ([[0]], 4294967295)) ∧
    (inViewport ⟨0, 0⟩ ⟨1, 1⟩ ⟨0, 1⟩ ∧
      rowFromR 0 0 1 2 = some 0 ∧ colFromI 1 0 1 2 = some 2 ∧
      cellAt [[0, 0], [0, 0]] 0 2 = none ∧
      recordPoint 2 2 ⟨0, 0⟩ ⟨1, 1⟩ ([[0, 0], [0, 0]], 0) ⟨0, 1⟩ = none) := by
  decide!

/-! ## Accumulation over trajectories and samples -/

theorem sum_set_add {cells : List Nat} {col v : Nat} (w : Nat) (hv : cells[col]? = some v) :
    (cells.set col w).sum + v = cells.sum + w := by
  induction cells generalizing col with
  | nil => simp at hv
  | cons x xs ih =>
    cases col with
    | zero =>
      simp only [List.getElem?_cons_zero, Option.some.injEq] at hv
      subst hv
      simp only [List.set_cons_zero, List.sum_cons]
      omega
    | succ k =>
      simp only [List.getElem?_cons_succ] at hv
      have := ih hv
      simp only [List.set_cons_succ, List.sum_cons]
      omega

theorem gridSum_set_add {heatmap : Heatmap} {row col v : Nat} {cells : List Nat} (w : Nat)
    (hcells : heatmap[row]? = some cells) (hv : cells[col]? = some v) :
    gridSum (heatmap.set row (cells.set col w)) + v = gridSum heatmap + w := by
  have h1 : (heatmap.map List.sum)[row]? = some cells.sum := by
    simp [hcells]
  have h2 := sum_set_add (cells.set col w).sum h1
  have h3 := sum_set_add w hv
  simp only [gridSum, List.map_set]
  omega

theorem recordedCount_cons (min max : ComplexNumber) (p : ComplexNumber)
    (points : List ComplexNumber) :
    recordedCount min max (p :: points)
      = (if inViewport min max p then 1 else 0) + recordedCount min max points := by
  by_cases h : inViewport min max p
  · simp [recordedCount, List.countP_cons, h]; omega
  · simp [recordedCount, List.countP_cons, h]

/-- One accumulator step adds the point's contribution to the sum of the cells, up to the
wrap of a 32-bit counter. -/
theorem recordPoint_gridSum {imageWidth imageHeight : Int} {min max : ComplexNumber}
    {st st1 : Heatmap × Nat} {point : ComplexNumber}
    (h : recordPoint imageWidth imageHeight min max st point = some st1) :
    gridSum st1.1 ≤ gridSum st.1 + recordedCount min max [point] ∧
    gridSum st1.1 % uintSize = (gridSum st.1 + recordedCount min max [point]) % uintSize := by
  rcases recordPoint_eq_some h with ⟨hout, rfl⟩ | ⟨hin, row, col, cells, v, -, -, hc, hv, rfl⟩
  · simp [recordedCount, hout]
  · have hs := gridSum_set_add ((v + 1) % uintSize) hc hv
    have hcnt : recordedCount min max [point] = 1 := by simp [recordedCount, hin]
    rw [hcnt]
    simp only [uintSize] at hs ⊢
    omega

theorem recordPoints_gridSum {imageWidth imageHeight : Int} {min max : ComplexNumber}
    {points : List ComplexNumber} {st st1 : Heatmap × Nat}
    (h : recordPoints imageWidth imageHeight min max st points = some st1) :
    gridSum st1.1 ≤ gridSum st.1 + recordedCount min max points ∧
    gridSum st1.1 % uintSize = (gridSum st.1 + recordedCount min max points) % uintSize := by
  induction points generalizing st with
  | nil =>
    simp only [recordPoints, Option.some.injEq] at h
    subst h
    simp [recordedCount]
  | cons p ps ih =>
    simp only [recordPoints] at h
    cases hp : recordPoint imageWidth imageHeight min max st p with
    | none => simp [hp] at h
    | some st2 =>
      simp only [hp] at h
      obtain ⟨h1, h2⟩ := recordPoint_gridSum hp
      obtain ⟨h3, h4⟩ := ih h
      rw [recordedCount_cons]
      have hone : recordedCount min max [p] = if inViewport min max p then 1 else 0 := by
        rw [recordedCount_cons]; simp [recordedCount]
      rw [hone] at h1 h2
      simp only [uintSize] at h2 h4 ⊢
      omega

theorem sampleLoop_gridSum {imageWidth imageHeight : Int} {min max : ComplexNumber}
    {numIters : Nat} {samples : List ComplexNumber} {st st1 : Heatmap × Nat}
    (h : sampleLoop imageWidth imageHeight min max numIters st samples = some st1) :
    gridSum st1.1 ≤ gridSum st.1 + recordedTotal min max numIters samples ∧
    gridSum st1.1 % uintSize
      = (gridSum st.1 + recordedTotal min max numIters samples) % uintSize := by
  induction samples generalizing st with
  | nil =>
    simp only [sampleLoop, Option.some.injEq] at h
    subst h
    simp [recordedTotal]
  | cons s ss ih =>
    simp only [sampleLoop] at h
    cases hp : recordPoints imageWidth imageHeight min max st (buddhabrotPoints s numIters) with
    | none => simp [hp] at h
    | some st2 =>
      simp only [hp] at h
      obtain ⟨h1, h2⟩ := recordPoints_gridSum hp
      obtain ⟨h3, h4⟩ := ih h
      have hcons : recordedTotal min max numIters (s :: ss)
          = recordedCount min max (buddhabrotPoints s numIters)
            + recordedTotal min max numIters ss := by
        simp [recordedTotal]
      rw [hcons]
      simp only [uintSize] at h2 h4 ⊢
      omega

/-! ## When the accumulation is defined -/

theorem hasShape_set {heatmap : Heatmap} {width height row col : Nat} {cells : List Nat}
    (w : Nat) (hs : hasShape heatmap width height) (hcells : heatmap[row]? = some cells) :
    hasShape (heatmap.set row (cells.set col w)) width height := by
  refine ⟨by rw [List.length_set]; exact hs.1, ?_⟩
  intro cells1 hmem
  rcases List.mem_or_eq_of_mem_set hmem with h | h
  · exact hs.2 _ h
  · rw [h, List.length_set]
    exact hs.2 _ (List.getElem?_mem hcells)

theorem allocHeatmap_hasShape {width height : Int} {zeros : Heatmap}
    (h : allocHeatmap width height = some zeros) :
    hasShape zeros width.toNat height.toNat ∧ gridSum zeros = 0 ∧
      ∀ cells ∈ zeros, ∀ v ∈ cells, v = 0 := by
  unfold allocHeatmap at h
  split at h
  · simp at h
  · split at h
    · simp at h
    · simp only [Option.some.injEq] at h
      subst h
      refine ⟨⟨by simp, ?_⟩, ?_, ?_⟩
      · intro cells hc
        rw [List.eq_of_mem_replicate hc]
        simp
      · simp [gridSum]
      · intro cells hc v hv
        rw [List.eq_of_mem_replicate hc] at hv
        exact List.eq_of_mem_replicate hv

/-- The index of a point of the viewport is inside the heatmap when both exact scaled
coordinates stay `2^-17` below the dimension (viewport extents between `2^-900` and `2^900`,
positive `int` dimensions). -/
theorem indexInGrid_of_margin {imageWidth imageHeight : Int} {min max point : ComplexNumber}
    (hH : 0 < imageHeight) (hW : 0 < imageWidth)
    (hHint : imageHeight ≤ intMax) (hWint : imageWidth ≤ intMax)
    (hR : (2 : ℚ) ^ (-900 : Int) ≤ max.r - min.r ∧ max.r - min.r ≤ (2 : ℚ) ^ (900 : Int))
    (hI : (2 : ℚ) ^ (-900 : Int) ≤ max.i - min.i ∧ max.i - min.i ≤ (2 : ℚ) ^ (900 : Int))
    (hin : inViewport min max point)
    (hrow : (point.r - min.r) * imageHeight / (max.r - min.r) ≤ imageHeight - 1 / 131072)
    (hcol : (point.i - min.i) * imageWidth / (max.i - min.i) ≤ imageWidth - 1 / 131072) :
    indexInGrid imageWidth imageHeight min max point := by
  obtain ⟨hr1, hr0, hi1, hi0⟩ := hin
  obtain ⟨row, hrow1, hrow0, -, -, hrs, -⟩ := scaled_index hH hHint hr0 hr1 hR.1 hR.2
  obtain ⟨col, hcol1, hcol0, -, -, hcs, -⟩ := scaled_index hW hWint hi0 hi1 hI.1 hI.2
  exact ⟨row, hrow1, col, hcol1, hrow0, hrs hrow, hcol0, hcs hcol⟩

/-- The accumulator step is defined, and keeps the dimensions of the heatmap, when the index
of the point is inside the heatmap. -/
theorem recordPoint_defined {imageWidth imageHeight : Int} {min max : ComplexNumber}
    {st : Heatmap × Nat} {point : ComplexNumber}
    (hs : hasShape st.1 imageWidth.toNat imageHeight.toNat)
    (hsafe : inViewport min max point → indexInGrid imageWidth imageHeight min max point) :
    ∃ st1, recordPoint imageWidth imageHeight min max st point = some st1 ∧
      hasShape st1.1 imageWidth.toNat imageHeight.toNat := by
  by_cases hin : inViewport min max point
  · obtain ⟨row, hrow, col, hcol, hr0, hr1, hc0, hc1⟩ := hsafe hin
    have hrow' : rowFromR point.r min.r max.r imageHeight = some (row.toNat : Int) := by
      rw [Int.toNat_of_nonneg hr0]; exact hrow
    have hcol' : colFromI point.i min.i max.i imageWidth = some (col.toNat : Int) := by
      rw [Int.toNat_of_nonneg hc0]; exact hcol
    have hrl : row.toNat < st.1.length := by rw [hs.1]; omega
    have hcells : st.1[row.toNat]? = some st.1[row.toNat] := List.getElem?_eq_getElem hrl
    have hcl : col.toNat < (st.1[row.toNat]).length := by
      rw [hs.2 _ (List.getElem_mem hrl)]; omega
    have hv : (st.1[row.toNat])[col.toNat]? = some (st.1[row.toNat])[col.toNat] :=
      List.getElem?_eq_getElem hcl
    exact ⟨_, recordPoint_inside hin hrow' hcol' hcells hv, hasShape_set _ hs hcells⟩
  · exact ⟨st, recordPoint_outside hin, hs⟩

theorem recordPoints_defined {imageWidth imageHeight : Int} {min max : ComplexNumber}
    {points : List ComplexNumber} {st : Heatmap × Nat}
    (hs : hasShape st.1 imageWidth.toNat imageHeight.toNat)
    (hsafe : ∀ p ∈ points, inViewport min max p →
      indexInGrid imageWidth imageHeight min max p) :
    ∃ st1, recordPoints imageWidth imageHeight min max st points = some st1 ∧
      hasShape st1.1 imageWidth.toNat imageHeight.toNat := by
  induction points generalizing st with
  | nil => exact ⟨st, rfl, hs⟩
  | cons p ps ih =>
    obtain ⟨st2, h2, hs2⟩ := recordPoint_defined hs (hsafe p (List.mem_cons_self p ps))
    obtain ⟨st1, h1, hs1⟩ := ih hs2 (fun q hq => hsafe q (List.mem_cons_of_mem p hq))
    exact ⟨st1, by simp only [recordPoints, h2, h1], hs1⟩

theorem sampleLoop_defined {imageWidth imageHeight : Int} {min max : ComplexNumber}
    {numIters : Nat} {samples : List ComplexNumber} {st : Heatmap × Nat}
    (hs : hasShape st.1 imageWidth.toNat imageHeight.toNat)
    (hsafe : ∀ s ∈ samples, ∀ p ∈ buddhabrotPoints s numIters,
      inViewport min max p → indexInGrid imageWidth imageHeight min max p) :
    ∃ st1, sampleLoop imageWidth imageHeight min max numIters st samples = some st1 ∧
      hasShape st1.1 imageWidth.toNat imageHeight.toNat := by
  induction samples generalizing st with
  | nil => exact ⟨st, rfl, hs⟩
  | cons s ss ih =>
    obtain ⟨st2, h2, hs2⟩ := recordPoints_defined hs (hsafe s (List.mem_cons_self s ss))
    obtain ⟨st1, h1, hs1⟩ := ih hs2 (fun q hq => hsafe q (List.mem_cons_of_mem s hq))
    exact ⟨st1, by simp only [sampleLoop, h2, h1], hs1⟩

/-! ## The sum of the cell counts after `generateHeatmap` -/

/-- C7 (as amended): on a zero-initialised `imageHeight × imageWidth` heatmap, for every
sequence of samples each of whose in-viewport orbit points is mapped by `rowFromR` and
`colFromI` to an index inside the heatmap, `generateHeatmap` returns a heatmap whose sum of
cell counts is at most, and congruent modulo `2^32` to, the total number of in-viewport
orbit points of the samples' trajectories; the two are equal whenever that total is below
`2^32`. -/
theorem generateHeatmap_gridSum (imageWidth imageHeight : Int) (min max : ComplexNumber)
    (numIters numSamples maxHeatmapValue : Nat) (draw : Nat → ComplexNumber)
    (zeros : Heatmap)
    (hz : allocHeatmap imageWidth imageHeight = some zeros)
    (hsafe : ∀ k < numSamples, ∀ p ∈ buddhabrotPoints (draw k) numIters,
      inViewport min max p → indexInGrid imageWidth imageHeight min max p) :
    ∃ (heatmap : Heatmap) (maxValue : Nat),
      generateHeatmap zeros imageWidth imageHeight min max numIters numSamples
        maxHeatmapValue draw = some (heatmap, maxValue) ∧
      gridSum heatmap
        ≤ recordedTotal min max numIters ((List.range numSamples).map draw) ∧
      gridSum heatmap % uintSize
        = recordedTotal min max numIters ((List.range numSamples).map draw) % uintSize ∧
      (recordedTotal min max numIters ((List.range numSamples).map draw) < uintSize →
        gridSum heatmap
          = recordedTotal min max numIters ((List.range numSamples).map draw)) := by
  obtain ⟨hshape, hzero, -⟩ := allocHeatmap_hasShape hz
  have hsafe' : ∀ s ∈ (List.range numSamples).map draw, ∀ p ∈ buddhabrotPoints s numIters,
      inViewport min max p → indexInGrid imageWidth imageHeight min max p := by
    intro s hs
    obtain ⟨k, hk, rfl⟩ := List.mem_map.mp hs
    exact hsafe k (List.mem_range.mp hk)
  obtain ⟨st1, hrun, -⟩ := @sampleLoop_defined imageWidth imageHeight min max numIters _
    (zeros, maxHeatmapValue) hshape hsafe'
  obtain ⟨hle, hmod⟩ := sampleLoop_gridSum hrun
  simp only [hzero, Nat.zero_add] at hle hmod
  refine ⟨st1.1, st1.2, hrun, hle, hmod, ?_⟩
  intro hlt
  have h1 : gridSum st1.1 < uintSize := lt_of_le_of_lt hle hlt
  rw [Nat.mod_eq_of_lt h1, Nat.mod_eq_of_lt hlt] at hmod
  exact hmod

/-- A run of C7 (as amended): a 4 × 4 image of the viewport `[-2, 2] × [-2, 2]`, budget 3 and
the two samples `3/2 + 0i` and `3/2 + 1/2 i`. -/
theorem generateHeatmap_gridSum_witness :
    ∃ (heatmap : Heatmap) (maxValue : Nat),
      generateHeatmap [[0, 0, 0, 0], [0, 0, 0, 0], [0, 0, 0, 0], [0, 0, 0, 0]] 4 4
        ⟨-2, -2⟩ ⟨2, 2⟩ 3 2 0 (fun k => ⟨3 / 2, (k : ℚ) / 2⟩) = some (heatmap, maxValue) ∧
      gridSum heatmap
        ≤ recordedTotal ⟨-2, -2⟩ ⟨2, 2⟩ 3
            ((List.range 2).map (fun k => (⟨3 / 2, (k : ℚ) / 2⟩ : ComplexNumber))) ∧
      gridSum heatmap % uintSize
        = recordedTotal ⟨-2, -2⟩ ⟨2, 2⟩ 3
            ((List.range 2).map (fun k => (⟨3 / 2, (k : ℚ) / 2⟩ : ComplexNumber)))
          % uintSize ∧
      (recordedTotal ⟨-2, -2⟩ ⟨2, 2⟩ 3
            ((List.range 2).map (fun k => (⟨3 / 2, (k : ℚ) / 2⟩ : ComplexNumber)))
          < uintSize →
        gridSum heatmap
          = recordedTotal ⟨-2, -2⟩ ⟨2, 2⟩ 3
              ((List.range 2).map (fun k => (⟨3 / 2, (k : ℚ) / 2⟩ : ComplexNumber)))) :=
  generateHeatmap_gridSum 4 4 ⟨-2, -2⟩ ⟨2, 2⟩ 3 2 0 (fun k => ⟨3 / 2, (k : ℚ) / 2⟩)
    [[0, 0, 0, 0], [0, 0, 0, 0], [0, 0, 0, 0], [0, 0, 0, 0]]
    (by decide) (by decide!)

theorem sampleLoop_append (imageWidth imageHeight : Int) (min max : ComplexNumber)
    (numIters : Nat) (xs ys : List ComplexNumber) (st : Heatmap × Nat) :
    sampleLoop imageWidth imageHeight min max numIters st (xs ++ ys)
      = match sampleLoop imageWidth imageHeight min max numIters st xs with
        | none => none
        | some st1 => sampleLoop imageWidth imageHeight min max numIters st1 ys := by
  induction xs generalizing st with
  | nil => simp [sampleLoop]
  | cons x xs ih =>
    simp only [List.cons_append, sampleLoop]
    cases recordPoints imageWidth imageHeight min max st (buddhabrotPoints x numIters) with
    | none => rfl
    | some st2 => exact ih st2

theorem map_const_range (c : ComplexNumber) (n : Nat) :
    (List.range n).map (fun _ => c) = List.replicate n c := by
  rw [List.map_const', List.length_range]

theorem recordedTotal_replicate (min max : ComplexNumber) (numIters : Nat)
    (c : ComplexNumber) (n : Nat) :
    recordedTotal min max numIters (List.replicate n c)
      = n * recordedCount min max (buddhabrotPoints c numIters) := by
  simp [recordedTotal, List.map_replicate, List.sum_replicate]

/-- The single cell and the global maximum after `t` increments from zero, and one more. -/
theorem bump_counter (t : Nat) :
    bump (t % uintSize, Min.min t (uintSize - 1))
      = ((t + 1) % uintSize, Min.min (t + 1) (uintSize - 1)) := by
  simp only [bump, uintSize]
  refine Prod.ext ?_ ?_
  · show _ = _
    omega
  · show _ = _
    split_ifs <;> omega

theorem recordPoint_single_cell {point : ComplexNumber} (v m : Nat)
    (hin : inViewport ⟨-4, -4⟩ ⟨4, 4⟩ point)
    (hrow : rowFromR point.r (-4) 4 1 = some 0) (hcol : colFromI point.i (-4) 4 1 = some 0) :
    recordPoint 1 1 ⟨-4, -4⟩ ⟨4, 4⟩ ([[v]], m) point
      = some ([[(bump (v, m)).1]], (bump (v, m)).2) := by
  have h := @recordPoint_inside 1 1 ⟨-4, -4⟩ ⟨4, 4⟩ ([[v]], m) point 0 0 [v] v
    hin hrow hcol rfl rfl
  rw [h]
  simp [bump]

/-- A trajectory all of whose points are recorded in the single cell of the 1 × 1 image of
`[-4, 4] × [-4, 4]` advances the count of increments by its length. -/
theorem recordPoints_single_cell (points : List ComplexNumber) (t : Nat)
    (h : ∀ p ∈ points, inViewport ⟨-4, -4⟩ ⟨4, 4⟩ p ∧
      rowFromR p.r (-4) 4 1 = some 0 ∧ colFromI p.i (-4) 4 1 = some 0) :
    recordPoints 1 1 ⟨-4, -4⟩ ⟨4, 4⟩ ([[t % uintSize]], Min.min t (uintSize - 1)) points
      = some ([[(t + points.length) % uintSize]],
              Min.min (t + points.length) (uintSize - 1)) := by
  induction points generalizing t with
  | nil => rfl
  | cons p ps ih =>
    obtain ⟨hin, hrow, hcol⟩ := h p (List.mem_cons_self p ps)
    have hrest := ih (t + 1) (fun q hq => h q (List.mem_cons_of_mem p hq))
    rw [recordPoints, recordPoint_single_cell _ _ hin hrow hcol, bump_counter]
    simp only []
    rw [hrest, List.length_cons, show t + 1 + ps.length = t + (ps.length + 1) by omega]

theorem sampleLoop_single_cell (c : ComplexNumber) (numIters m : Nat)
    (hlen : (buddhabrotPoints c numIters).length = m)
    (h : ∀ p ∈ buddhabrotPoints c numIters, inViewport ⟨-4, -4⟩ ⟨4, 4⟩ p ∧
      rowFromR p.r (-4) 4 1 = some 0 ∧ colFromI p.i (-4) 4 1 = some 0)
    (k t : Nat) :
    sampleLoop 1 1 ⟨-4, -4⟩ ⟨4, 4⟩ numIters
        ([[t % uintSize]], Min.min t (uintSize - 1)) (List.replicate k c)
      = some ([[(t + k * m) % uintSize]], Min.min (t + k * m) (uintSize - 1)) := by
  induction k generalizing t with
  | zero => simp [sampleLoop]
  | succ k ih =>
    rw [List.replicate_succ, sampleLoop, recordPoints_single_cell _ _ h, hlen]
    simp only []
    rw [ih (t + m), show t + m + k * m = t + (k + 1) * m by ring]

/-- The red phase of the single-cell object when every sample is `11/32 + 0i`: each
trajectory has 8 points, all recorded in the cell, which wraps to 0 after `2^32` of them. -/
theorem generateHeatmap_single_cell_red :
    generateHeatmap [[0]] 1 1 ⟨-4, -4⟩ ⟨4, 4⟩ 9 536870912 0 (fun _ => ⟨11 / 32, 0⟩)
      = some ([[0]], 4294967295) := by
  have h := sampleLoop_single_cell ⟨11 / 32, 0⟩ 9 8 (by decide!) (by decide!) 536870912 0
  rw [generateHeatmap, map_const_range]
  exact h

/-- C7 (counterexample): on the zero-initialised 1 × 1 heatmap of the viewport
`[-4, 4] × [-4, 4]`, `2^29` samples `11/32 + 0i` with budget 9 record `2^32` in-viewport
orbit points, all in the only cell, whose 32-bit counter wraps and leaves the sum of the
cell counts at 0; on a zero-initialised 2 × 2 heatmap the one sample `1+0i` with budget 3,
whose orbit point `2+0i` lies on the maximum boundary, leaves no defined heatmap at all; and
on a zero-initialised 4 × 4 heatmap neither does the one sample
`2 - 2^-52 = 1.9999999999999998`, strictly inside the viewport `[-2, 2] × [-2, 2]`, whose
row is 4. -/
theorem generateHeatmap_gridSum_counterexample :
    (allocHeatmap 1 1 = some [[0]] ∧
      generateHeatmap [[0]] 1 1 ⟨-4, -4⟩ ⟨4, 4⟩ 9 536870912 0 (fun _ => ⟨11 / 32, 0⟩)
        = some ([[0]], 4294967295) ∧
      gridSum [[0]] = 0 ∧
      recordedTotal ⟨-4, -4⟩ ⟨4, 4⟩ 9
        ((List.range 536870912).map (fun _ => (⟨11 / 32, 0⟩ : ComplexNumber)))
        = 4294967296) ∧
    (allocHeatmap 2 2 = some [[0, 0], [0, 0]] ∧
      generateHeatmap [[0, 0], [0, 0]] 2 2 ⟨-2, -2⟩ ⟨2, 2⟩ 3 1 0 (fun _ => ⟨1, 0⟩)
        = none) ∧
    (allocHeatmap 4 4 = some [[0, 0, 0, 0], [0, 0, 0, 0], [0, 0, 0, 0], [0, 0, 0, 0]] ∧
      buddhabrotPoints ⟨9007199254740991 / 4503599627370496, 0⟩ 3
        = [⟨9007199254740991 / 4503599627370496, 0⟩] ∧
      rowFromR (9007199254740991 / 4503599627370496) (-2) 2 4 = some 4 ∧
      generateHeatmap [[0, 0, 0, 0], [0, 0, 0, 0], [0, 0, 0, 0], [0, 0, 0, 0]] 4 4
        ⟨-2, -2⟩ ⟨2, 2⟩ 3 1 0 (fun _ => ⟨9007199254740991 / 4503599627370496, 0⟩)
        = none) := by
  refine ⟨⟨by decide, generateHeatmap_single_cell_red, by decide, ?_⟩,
    ⟨by decide, by decide!⟩, by decide!⟩
  rw [map_const_range, recordedTotal_replicate]
  have hcnt : recordedCount ⟨-4, -4⟩ ⟨4, 4⟩ (buddhabrotPoints ⟨11 / 32, 0⟩ 9) = 8 := by
    decide!
  rw [hcnt]

/-! ## The global maximum -/

theorem rowMax_cons (x : Nat) (xs : List Nat) : rowMax (x :: xs) = Max.max x (rowMax xs) := rfl

theorem le_rowMax {cells : List Nat} {v : Nat} (h : v ∈ cells) : v ≤ rowMax cells := by
  induction cells with
  | nil => simp at h
  | cons x xs ih =>
    rw [rowMax_cons]
    rcases List.mem_cons.mp h with rfl | h
    · omega
    · have := ih h
      omega

theorem rowMax_le {cells : List Nat} {m : Nat} (h : ∀ v ∈ cells, v ≤ m) : rowMax cells ≤ m := by
  induction cells with
  | nil => simp [rowMax]
  | cons x xs ih =>
    rw [rowMax_cons]
    have h1 := h x (List.mem_cons_self x xs)
    have h2 := ih (fun v hv => h v (List.mem_cons_of_mem x hv))
    omega

theorem rowMax_append (xs ys : List Nat) : rowMax (xs ++ ys) = Max.max (rowMax xs) (rowMax ys) := by
  induction xs with
  | nil => simp [rowMax]
  | cons x xs ih =>
    rw [List.cons_append, rowMax_cons, rowMax_cons, ih]
    omega

theorem gridMax_append (a b : Heatmap) : gridMax (a ++ b) = Max.max (gridMax a) (gridMax b) := by
  simp only [gridMax, List.map_append, rowMax_append]

theorem le_gridMax {heatmap : Heatmap} {cells : List Nat} {v : Nat}
    (hc : cells ∈ heatmap) (hv : v ∈ cells) : v ≤ gridMax heatmap :=
  le_trans (le_rowMax hv) (le_rowMax (List.mem_map_of_mem rowMax hc))

theorem gridMax_le {heatmap : Heatmap} {m : Nat}
    (h : ∀ cells ∈ heatmap, ∀ v ∈ cells, v ≤ m) : gridMax heatmap ≤ m := by
  apply rowMax_le
  intro x hx
  obtain ⟨cells, hc, rfl⟩ := List.mem_map.mp hx
  exact rowMax_le (h cells hc)

theorem rowMax_set_le (cells : List Nat) (col w : Nat) :
    rowMax (cells.set col w) ≤ Max.max (rowMax cells) w := by
  induction cells generalizing col with
  | nil => simp [rowMax]
  | cons x xs ih =>
    cases col with
    | zero =>
      simp only [List.set_cons_zero, rowMax_cons]
      omega
    | succ k =>
      have := ih k
      simp only [List.set_cons_succ, rowMax_cons]
      omega

theorem rowMax_set {cells : List Nat} {col v : Nat} (w : Nat) (hv : cells[col]? = some v)
    (hvw : v ≤ w) : rowMax (cells.set col w) = Max.max (rowMax cells) w := by
  induction cells generalizing col with
  | nil => simp at hv
  | cons x xs ih =>
    cases col with
    | zero =>
      simp only [List.getElem?_cons_zero, Option.some.injEq] at hv
      subst hv
      simp only [List.set_cons_zero, rowMax_cons]
      omega
    | succ k =>
      simp only [List.getElem?_cons_succ] at hv
      have := ih hv
      simp only [List.set_cons_succ, rowMax_cons]
      omega

theorem gridMax_set_le {heatmap : Heatmap} {row : Nat} {cells : List Nat} (col w : Nat)
    (hcells : heatmap[row]? = some cells) :
    gridMax (heatmap.set row (cells.set col w)) ≤ Max.max (gridMax heatmap) w := by
  have h1 := rowMax_set_le (heatmap.map rowMax) row (rowMax (cells.set col w))
  have h2 := rowMax_set_le cells col w
  have h3 : rowMax cells ≤ gridMax heatmap :=
    le_rowMax (List.mem_map_of_mem rowMax (List.getElem?_mem hcells))
  simp only [gridMax, List.map_set] at h1 h3 ⊢
  omega

theorem gridMax_set {heatmap : Heatmap} {row col v : Nat} {cells : List Nat} (w : Nat)
    (hcells : heatmap[row]? = some cells) (hv : cells[col]? = some v) (hvw : v ≤ w) :
    gridMax (heatmap.set row (cells.set col w)) = Max.max (gridMax heatmap) w := by
  have h0 : (heatmap.map rowMax)[row]? = some (rowMax cells) := by simp [hcells]
  have h2 := rowMax_set w hv hvw
  have h1 := rowMax_set (rowMax (cells.set col w)) h0 (by omega)
  have h3 : rowMax cells ≤ gridMax heatmap :=
    le_rowMax (List.mem_map_of_mem rowMax (List.getElem?_mem hcells))
  simp only [gridMax, List.map_set] at h1 h3 ⊢
  omega

theorem cell_le_gridSum {heatmap : Heatmap} {row col v : Nat} {cells : List Nat}
    (hcells : heatmap[row]? = some cells) (hv : cells[col]? = some v) :
    v ≤ gridSum heatmap := by
  have := gridSum_set_add 0 hcells hv
  omega

/-- One accumulator step never lowers the global maximum and keeps every cell at or below
it. -/
theorem recordPoint_gridMax_le {imageWidth imageHeight : Int} {min max : ComplexNumber}
    {st st1 : Heatmap × Nat} {point : ComplexNumber}
    (h : recordPoint imageWidth imageHeight min max st point = some st1) :
    st.2 ≤ st1.2 ∧ (gridMax st.1 ≤ st.2 → gridMax st1.1 ≤ st1.2) := by
  rcases recordPoint_eq_some h with ⟨-, rfl⟩ | ⟨-, row, col, cells, v, -, -, hc, hv, rfl⟩
  · exact ⟨le_refl _, fun h => h⟩
  · have hg := gridMax_set_le col ((v + 1) % uintSize) hc
    constructor
    · show st.2 ≤ if (v + 1) % uintSize > st.2 then (v + 1) % uintSize else st.2
      split <;> omega
    · intro hle
      show gridMax (st.1.set row (cells.set col ((v + 1) % uintSize)))
        ≤ if (v + 1) % uintSize > st.2 then (v + 1) % uintSize else st.2
      split <;> omega

/-- One accumulator step without a counter wrap: the sum of the cells grows by the point's
contribution and the global maximum keeps tracking the largest cell. -/
theorem recordPoint_exact {imageWidth imageHeight : Int} {min max : ComplexNumber}
    {st st1 : Heatmap × Nat} {point : ComplexNumber}
    (h : recordPoint imageWidth imageHeight min max st point = some st1)
    (hlt : gridSum st.1 + recordedCount min max [point] < uintSize) :
    gridSum st1.1 = gridSum st.1 + recordedCount min max [point] ∧
    ∀ m0 : Nat, st.2 = Max.max m0 (gridMax st.1) → st1.2 = Max.max m0 (gridMax st1.1) := by
  rcases recordPoint_eq_some h with ⟨hout, rfl⟩ | ⟨hin, row, col, cells, v, -, -, hc, hv, rfl⟩
  · exact ⟨by simp [recordedCount, hout], fun m0 h => h⟩
  · have hcnt : recordedCount min max [point] = 1 := by simp [recordedCount, hin]
    rw [hcnt] at hlt ⊢
    have hvle := cell_le_gridSum hc hv
    have hmod : (v + 1) % uintSize = v + 1 := Nat.mod_eq_of_lt (by omega)
    have hs := gridSum_set_add (v + 1) hc hv
    have hg := gridMax_set (v + 1) hc hv (Nat.le_succ v)
    rw [hmod]
    refine ⟨by show gridSum (st.1.set row (cells.set col (v + 1))) = gridSum st.1 + 1; omega, ?_⟩
    intro m0 hm
    show (if v + 1 > st.2 then v + 1 else st.2)
      = Max.max m0 (gridMax (st.1.set row (cells.set col (v + 1))))
    rw [hg, hm]
    show (if v + 1 > Max.max m0 (gridMax st.1) then v + 1 else Max.max m0 (gridMax st.1))
      = Max.max m0 (Max.max (gridMax st.1) (v + 1))
    split <;> omega

theorem recordPoints_gridMax_le {imageWidth imageHeight : Int} {min max : ComplexNumber}
    {points : List ComplexNumber} {st st1 : Heatmap × Nat}
    (h : recordPoints imageWidth imageHeight min max st points = some st1) :
    st.2 ≤ st1.2 ∧ (gridMax st.1 ≤ st.2 → gridMax st1.1 ≤ st1.2) := by
  induction points generalizing st with
  | nil =>
    simp only [recordPoints, Option.some.injEq] at h
    subst h
    exact ⟨le_refl _, fun h => h⟩
  | cons p ps ih =>
    simp only [recordPoints] at h
    cases hp : recordPoint imageWidth imageHeight min max st p with
    | none => simp [hp] at h
    | some st2 =>
      simp only [hp] at h
      obtain ⟨h1, h2⟩ := recordPoint_gridMax_le hp
      obtain ⟨h3, h4⟩ := ih h
      exact ⟨le_trans h1 h3, fun hle => h4 (h2 hle)⟩

theorem sampleLoop_gridMax_le {imageWidth imageHeight : Int} {min max : ComplexNumber}
    {numIters : Nat} {samples : List ComplexNumber} {st st1 : Heatmap × Nat}
    (h : sampleLoop imageWidth imageHeight min max numIters st samples = some st1) :
    st.2 ≤ st1.2 ∧ (gridMax st.1 ≤ st.2 → gridMax st1.1 ≤ st1.2) := by
  induction samples generalizing st with
  | nil =>
    simp only [sampleLoop, Option.some.injEq] at h
    subst h
    exact ⟨le_refl _, fun h => h⟩
  | cons s ss ih =>
    simp only [sampleLoop] at h
    cases hp : recordPoints imageWidth imageHeight min max st (buddhabrotPoints s numIters) with
    | none => simp [hp] at h
    | some st2 =>
      simp only [hp] at h
      obtain ⟨h1, h2⟩ := recordPoints_gridMax_le hp
      obtain ⟨h3, h4⟩ := ih h
      exact ⟨le_trans h1 h3, fun hle => h4 (h2 hle)⟩

theorem recordPoints_exact {imageWidth imageHeight : Int} {min max : ComplexNumber}
    {points : List ComplexNumber} {st st1 : Heatmap × Nat}
    (h : recordPoints imageWidth imageHeight min max st points = some st1)
    (hlt : gridSum st.1 + recordedCount min max points < uintSize) :
    gridSum st1.1 = gridSum st.1 + recordedCount min max points ∧
    ∀ m0 : Nat, st.2 = Max.max m0 (gridMax st.1) → st1.2 = Max.max m0 (gridMax st1.1) := by
  induction points generalizing st with
  | nil =>
    simp only [recordPoints, Option.some.injEq] at h
    subst h
    exact ⟨by simp [recordedCount], fun m0 h => h⟩
  | cons p ps ih =>
    simp only [recordPoints] at h
    cases hp : recordPoint imageWidth imageHeight min max st p with
    | none => simp [hp] at h
    | some st2 =>
      simp only [hp] at h
      have hone : recordedCount min max [p] = if inViewport min max p then 1 else 0 := by
        rw [recordedCount_cons]; simp [recordedCount]
      rw [recordedCount_cons] at hlt ⊢
      obtain ⟨h1, h2⟩ := recordPoint_exact hp (by rw [hone]; omega)
      obtain ⟨h3, h4⟩ := ih h (by rw [h1, hone]; omega)
      exact ⟨by rw [h3, h1, hone]; omega, fun m0 hm => h4 m0 (h2 m0 hm)⟩

theorem sampleLoop_exact {imageWidth imageHeight : Int} {min max : ComplexNumber}
    {numIters : Nat} {samples : List ComplexNumber} {st st1 : Heatmap × Nat}
    (h : sampleLoop imageWidth imageHeight min max numIters st samples = some st1)
    (hlt : gridSum st.1 + recordedTotal min max numIters samples < uintSize) :
    gridSum st1.1 = gridSum st.1 + recordedTotal min max numIters samples ∧
    ∀ m0 : Nat, st.2 = Max.max m0 (gridMax st.1) → st1.2 = Max.max m0 (gridMax st1.1) := by
  induction samples generalizing st with
  | nil =>
    simp only [sampleLoop, Option.some.injEq] at h
    subst h
    exact ⟨by simp [recordedTotal], fun m0 h => h⟩
  | cons s ss ih =>
    simp only [sampleLoop] at h
    cases hp : recordPoints imageWidth imageHeight min max st (buddhabrotPoints s numIters) with
    | none => simp [hp] at h
    | some st2 =>
      simp only [hp] at h
      have hcons : recordedTotal min max numIters (s :: ss)
          = recordedCount min max (buddhabrotPoints s numIters)
            + recordedTotal min max numIters ss := by
        simp [recordedTotal]
      rw [hcons] at hlt ⊢
      obtain ⟨h1, h2⟩ := recordPoints_exact hp (by omega)
      obtain ⟨h3, h4⟩ := ih h (by rw [h1]; omega)
      exact ⟨by rw [h3, h1]; omega, fun m0 hm => h4 m0 (h2 m0 hm)⟩

theorem gridMax_zeros {width height : Int} {zeros : Heatmap}
    (h : allocHeatmap width height = some zeros) : gridMax zeros = 0 := by
  obtain ⟨-, -, hz⟩ := allocHeatmap_hasShape h
  exact Nat.le_zero.mp (gridMax_le (fun cells hc v hv => le_of_eq (hz cells hc v hv)))

/-- What a successful construction stores. -/
theorem construct_eq_some {width height samples : Int} {minR maxR minI maxI : ℚ}
    {redIters blueIters greenIters : Nat} {b : Buddhabrot}
    (h : construct width height samples minR maxR minI maxI redIters blueIters greenIters
      = some b) :
    ∃ (wh count : Int) (zeros : Heatmap),
      intMul width height = some wh ∧ intMul wh samples = some count ∧
      allocHeatmap width height = some zeros ∧
      b = { imageWidth := width, imageHeight := height,
            redIterations := redIters, blueIterations := blueIters,
            greenIterations := greenIters,
            min := ⟨minR, minI⟩, max := ⟨maxR, maxI⟩,
            sampleCount := count, maxHeatmapValue := 0,
            redHeatmap := zeros, blueHeatmap := zeros, greenHeatmap := zeros } := by
  unfold construct at h
  cases h1 : intMul width height with
  | none => simp [h1] at h
  | some wh =>
    cases h2 : intMul wh samples with
    | none => simp [h1, h2] at h
    | some count =>
      cases h3 : allocHeatmap width height with
      | none => simp [h1, h2, h3] at h
      | some zeros =>
        simp only [h1, h2, h3, Option.some.injEq] at h
        exact ⟨wh, count, zeros, rfl, h2, rfl, h.symm⟩

theorem intMul_bounds {a b c : Int} (h : intMul a b = some c) (ha : 0 < a) (hb : 0 < b) :
    a ≤ intMax ∧ b ≤ intMax := by
  unfold intMul at h
  split at h
  · rename_i hr
    have h1 : a ≤ a * b := le_mul_of_one_le_right (le_of_lt ha) hb
    have h2 : b ≤ a * b := le_mul_of_one_le_left (le_of_lt hb) ha
    exact ⟨le_trans h1 hr.2, le_trans h2 hr.2⟩
  · simp at h

theorem generateHeatmap_zeros_le {imageWidth imageHeight : Int} {min max : ComplexNumber}
    {numIters numSamples m0 : Nat} {draw : Nat → ComplexNumber} {zeros : Heatmap}
    {width height : Int} {res : Heatmap × Nat}
    (hz : allocHeatmap width height = some zeros)
    (h : generateHeatmap zeros imageWidth imageHeight min max numIters numSamples m0 draw
      = some res) :
    m0 ≤ res.2 ∧ gridMax res.1 ≤ res.2 := by
  obtain ⟨h1, h2⟩ := sampleLoop_gridMax_le h
  exact ⟨h1, h2 (by rw [gridMax_zeros hz]; exact Nat.zero_le _)⟩

theorem generateHeatmap_zeros_exact {imageWidth imageHeight : Int} {min max : ComplexNumber}
    {numIters numSamples m0 : Nat} {draw : Nat → ComplexNumber} {zeros : Heatmap}
    {width height : Int} {res : Heatmap × Nat}
    (hz : allocHeatmap width height = some zeros)
    (h : generateHeatmap zeros imageWidth imageHeight min max numIters numSamples m0 draw
      = some res)
    (hlt : recordedTotal min max numIters ((List.range numSamples).map draw) < uintSize) :
    res.2 = Max.max m0 (gridMax res.1) := by
  obtain ⟨-, hsum, -⟩ := allocHeatmap_hasShape hz
  have hex := sampleLoop_exact h (by show gridSum zeros + _ < _; rw [hsum]; omega)
  exact hex.2 m0 (by show m0 = Max.max m0 (gridMax zeros); rw [gridMax_zeros hz]; omega)

/-- The three phases behind a defined result of `accumulate`. -/
theorem accumulate_eq_some {b acc : Buddhabrot} {redDraw greenDraw blueDraw : Nat → ComplexNumber}
    (h : accumulate b redDraw greenDraw blueDraw = some acc) :
    ∃ (red green blue : Heatmap) (m1 m2 m3 : Nat),
      generateHeatmap b.redHeatmap b.imageWidth b.imageHeight b.min b.max
        b.redIterations b.numSamples b.maxHeatmapValue redDraw = some (red, m1) ∧
      generateHeatmap b.greenHeatmap b.imageWidth b.imageHeight b.min b.max
        b.greenIterations b.numSamples m1 greenDraw = some (green, m2) ∧
      generateHeatmap b.blueHeatmap b.imageWidth b.imageHeight b.min b.max
        b.blueIterations b.numSamples m2 blueDraw = some (blue, m3) ∧
      acc = { b with redHeatmap := red, greenHeatmap := green, blueHeatmap := blue,
                     maxHeatmapValue := m3 } := by
  unfold accumulate at h
  cases h1 : generateHeatmap b.redHeatmap b.imageWidth b.imageHeight b.min b.max
      b.redIterations b.numSamples b.maxHeatmapValue redDraw with
  | none => simp [h1] at h
  | some r1 =>
    obtain ⟨red, m1⟩ := r1
    simp only [h1] at h
    cases h2 : generateHeatmap b.greenHeatmap b.imageWidth b.imageHeight b.min b.max
        b.greenIterations b.numSamples m1 greenDraw with
    | none => simp [h2] at h
    | some r2 =>
      obtain ⟨green, m2⟩ := r2
      simp only [h2] at h
      cases h3 : generateHeatmap b.blueHeatmap b.imageWidth b.imageHeight b.min b.max
          b.blueIterations b.numSamples m2 blueDraw with
      | none => simp [h3] at h
      | some r3 =>
        obtain ⟨blue, m3⟩ := r3
        simp only [h3, Option.some.injEq] at h
        exact ⟨red, green, blue, m1, m2, m3, rfl, h2, h3, h.symm⟩

/-- After the accumulation phases of a freshly constructed object every cell of the three
heatmaps is at most `maxHeatmapValue`. -/
theorem accumulate_cells_le {width height samples : Int} {minR maxR minI maxI : ℚ}
    {redIters blueIters greenIters : Nat} {b acc : Buddhabrot}
    {redDraw greenDraw blueDraw : Nat → ComplexNumber}
    (hb : construct width height samples minR maxR minI maxI redIters blueIters greenIters
      = some b)
    (h : accumulate b redDraw greenDraw blueDraw = some acc) :
    gridMax (acc.redHeatmap ++ acc.greenHeatmap ++ acc.blueHeatmap) ≤ acc.maxHeatmapValue := by
  obtain ⟨wh, count, zeros, -, -, hz, rfl⟩ := construct_eq_some hb
  obtain ⟨red, green, blue, m1, m2, m3, h1, h2, h3, rfl⟩ := accumulate_eq_some h
  obtain ⟨-, hr⟩ := generateHeatmap_zeros_le hz h1
  obtain ⟨h12, hg⟩ := generateHeatmap_zeros_le hz h2
  obtain ⟨h23, hbl⟩ := generateHeatmap_zeros_le hz h3
  simp only [gridMax_append]
  simp only at hr hg hbl h12 h23
  omega

/-- After the accumulation phases of a freshly constructed object, when no channel records
`2^32` or more points, `maxHeatmapValue` is the largest cell count of the three heatmaps. -/
theorem accumulate_max_exact {width height samples : Int} {minR maxR minI maxI : ℚ}
    {redIters blueIters greenIters : Nat} {b acc : Buddhabrot}
    {redDraw greenDraw blueDraw : Nat → ComplexNumber}
    (hb : construct width height samples minR maxR minI maxI redIters blueIters greenIters
      = some b)
    (h : accumulate b redDraw greenDraw blueDraw = some acc)
    (hred : recordedTotal b.min b.max b.redIterations
      ((List.range b.numSamples).map redDraw) < uintSize)
    (hgreen : recordedTotal b.min b.max b.greenIterations
      ((List.range b.numSamples).map greenDraw) < uintSize)
    (hblue : recordedTotal b.min b.max b.blueIterations
      ((List.range b.numSamples).map blueDraw) < uintSize) :
    acc.maxHeatmapValue = gridMax (acc.redHeatmap ++ acc.greenHeatmap ++ acc.blueHeatmap) := by
  obtain ⟨wh, count, zeros, -, -, hz, rfl⟩ := construct_eq_some hb
  obtain ⟨red, green, blue, m1, m2, m3, h1, h2, h3, rfl⟩ := accumulate_eq_some h
  have e1 := generateHeatmap_zeros_exact hz h1 hred
  have e2 := generateHeatmap_zeros_exact hz h2 hgreen
  have e3 := generateHeatmap_zeros_exact hz h3 hblue
  simp only [gridMax_append]
  simp only at e1 e2 e3
  omega

/-- The accumulation phases of a freshly constructed object are defined when every
in-viewport orbit point of every channel is mapped to an index inside the heatmap. -/
theorem accumulate_defined {width height samples : Int} {minR maxR minI maxI : ℚ}
    {redIters blueIters greenIters : Nat} {b : Buddhabrot}
    {redDraw greenDraw blueDraw : Nat → ComplexNumber}
    (hb : construct width height samples minR maxR minI maxI redIters blueIters greenIters
      = some b)
    (hred : ∀ k < b.numSamples, ∀ p ∈ buddhabrotPoints (redDraw k) b.redIterations,
      inViewport b.min b.max p → indexInGrid b.imageWidth b.imageHeight b.min b.max p)
    (hgreen : ∀ k < b.numSamples, ∀ p ∈ buddhabrotPoints (greenDraw k) b.greenIterations,
      inViewport b.min b.max p → indexInGrid b.imageWidth b.imageHeight b.min b.max p)
    (hblue : ∀ k < b.numSamples, ∀ p ∈ buddhabrotPoints (blueDraw k) b.blueIterations,
      inViewport b.min b.max p → indexInGrid b.imageWidth b.imageHeight b.min b.max p) :
    ∃ acc, accumulate b redDraw greenDraw blueDraw = some acc := by
  obtain ⟨wh, count, zeros, hwh, -, hz, rfl⟩ := construct_eq_some hb
  obtain ⟨hshape, -, -⟩ := allocHeatmap_hasShape hz
  have key : ∀ (numIters m0 : Nat) (draw : Nat → ComplexNumber) (n : Nat),
      (∀ k < n, ∀ p ∈ buddhabrotPoints (draw k) numIters,
        inViewport ⟨minR, minI⟩ ⟨maxR, maxI⟩ p →
          indexInGrid width height ⟨minR, minI⟩ ⟨maxR, maxI⟩ p) →
      ∃ res, generateHeatmap zeros width height ⟨minR, minI⟩ ⟨maxR, maxI⟩ numIters n m0 draw
        = some res := by
    intro numIters m0 draw n hsafe
    have hsafe' : ∀ s ∈ (List.range n).map draw, ∀ p ∈ buddhabrotPoints s numIters,
        inViewport ⟨minR, minI⟩ ⟨maxR, maxI⟩ p →
          indexInGrid width height ⟨minR, minI⟩ ⟨maxR, maxI⟩ p := by
      intro s hs
      obtain ⟨k, hk, rfl⟩ := List.mem_map.mp hs
      exact hsafe k (List.mem_range.mp hk)
    obtain ⟨st1, hrun, -⟩ := @sampleLoop_defined width height ⟨minR, minI⟩ ⟨maxR, maxI⟩
      numIters _ (zeros, m0) hshape hsafe'
    exact ⟨st1, hrun⟩
  obtain ⟨⟨red, m1⟩, h1⟩ := key redIters 0 redDraw _ hred
  obtain ⟨⟨green, m2⟩, h2⟩ := key greenIters m1 greenDraw _ hgreen
  obtain ⟨⟨blue, m3⟩, h3⟩ := key blueIters m2 blueDraw _ hblue
  simp only [accumulate, h1, h2, h3]
  exact ⟨_, rfl⟩

/-- C8 (as amended): for a freshly constructed object (three zero-initialised heatmaps and
`maxHeatmapValue = 0`) and any samples each of whose in-viewport orbit points is mapped by
`rowFromR` and `colFromI` to an index inside the heatmap, the red, green and blue
accumulation phases of `generate` are defined and leave every cell of every channel at most
`maxHeatmapValue`; and `maxHeatmapValue` equals the largest cell count over all cells of the
three heatmaps provided each channel records fewer than `2^32` points (no 32-bit counter
wraps). -/
theorem accumulate_maxHeatmapValue (width height samples : Int) (minR maxR minI maxI : ℚ)
    (redIters blueIters greenIters : Nat) (redDraw greenDraw blueDraw : Nat → ComplexNumber)
    (b : Buddhabrot)
    (hb : construct width height samples minR maxR minI maxI redIters blueIters greenIters
      = some b)
    (hred : ∀ k < b.numSamples, ∀ p ∈ buddhabrotPoints (redDraw k) b.redIterations,
      inViewport b.min b.max p → indexInGrid b.imageWidth b.imageHeight b.min b.max p)
    (hgreen : ∀ k < b.numSamples, ∀ p ∈ buddhabrotPoints (greenDraw k) b.greenIterations,
      inViewport b.min b.max p → indexInGrid b.imageWidth b.imageHeight b.min b.max p)
    (hblue : ∀ k < b.numSamples, ∀ p ∈ buddhabrotPoints (blueDraw k) b.blueIterations,
      inViewport b.min b.max p → indexInGrid b.imageWidth b.imageHeight b.min b.max p) :
    ∃ acc : Buddhabrot, accumulate b redDraw greenDraw blueDraw = some acc ∧
      (∀ cells ∈ acc.redHeatmap ++ acc.greenHeatmap ++ acc.blueHeatmap,
        ∀ v ∈ cells, v ≤ acc.maxHeatmapValue) ∧
      (recordedTotal b.min b.max b.redIterations
          ((List.range b.numSamples).map redDraw) < uintSize →
        recordedTotal b.min b.max b.greenIterations
          ((List.range b.numSamples).map greenDraw) < uintSize →
        recordedTotal b.min b.max b.blueIterations
          ((List.range b.numSamples).map blueDraw) < uintSize →
        acc.maxHeatmapValue
          = gridMax (acc.redHeatmap ++ acc.greenHeatmap ++ acc.blueHeatmap)) := by
  obtain ⟨acc, hacc⟩ := accumulate_defined hb hred hgreen hblue
  refine ⟨acc, hacc, ?_, fun h1 h2 h3 => accumulate_max_exact hb hacc h1 h2 h3⟩
  intro cells hc v hv
  exact le_trans (le_gridMax hc hv) (accumulate_cells_le hb hacc)

/-- A run of C8 (as amended): the 2 × 2 image of `[-2, 2] × [-2, 2]` with four samples per
channel; the phases are defined and `maxHeatmapValue` is the largest cell count. -/
theorem accumulate_maxHeatmapValue_witness :
    ∃ acc : Buddhabrot, accumulate smallObject smallDraw smallDraw smallDraw = some acc ∧
      (∀ cells ∈ acc.redHeatmap ++ acc.greenHeatmap ++ acc.blueHeatmap,
        ∀ v ∈ cells, v ≤ acc.maxHeatmapValue) ∧
      acc.maxHeatmapValue
        = gridMax (acc.redHeatmap ++ acc.greenHeatmap ++ acc.blueHeatmap) :=
  match accumulate_maxHeatmapValue 2 2 1 (-2) 2 (-2) 2 3 3 3 smallDraw smallDraw smallDraw
      smallObject (by decide!) (by decide!) (by decide!) (by decide!) with
  | ⟨acc, hacc, hle, hmax⟩ => ⟨acc, hacc, hle, hmax (by decide!) (by decide!) (by decide!)⟩

theorem sampleLoop_replicate_nil (imageWidth imageHeight : Int) (min max : ComplexNumber)
    (numIters : Nat) (c : ComplexNumber) (st : Heatmap × Nat) (k : Nat)
    (h : buddhabrotPoints c numIters = []) :
    sampleLoop imageWidth imageHeight min max numIters st (List.replicate k c) = some st := by
  induction k with
  | zero => rfl
  | succ k ih =>
    rw [List.replicate_succ, sampleLoop, h]
    simp only [recordPoints]
    exact ih

theorem accumulate_of_phases {b : Buddhabrot}
    {redDraw greenDraw blueDraw : Nat → ComplexNumber}
    {red green blue : Heatmap} {m1 m2 m3 : Nat}
    (h1 : generateHeatmap b.redHeatmap b.imageWidth b.imageHeight b.min b.max
      b.redIterations b.numSamples b.maxHeatmapValue redDraw = some (red, m1))
    (h2 : generateHeatmap b.greenHeatmap b.imageWidth b.imageHeight b.min b.max
      b.greenIterations b.numSamples m1 greenDraw = some (green, m2))
    (h3 : generateHeatmap b.blueHeatmap b.imageWidth b.imageHeight b.min b.max
      b.blueIterations b.numSamples m2 blueDraw = some (blue, m3)) :
    accumulate b redDraw greenDraw blueDraw
      = some { b with redHeatmap := red, greenHeatmap := green, blueHeatmap := blue,
                      maxHeatmapValue := m3 } := by
  simp only [accumulate, h1, h2, h3]

/-- A phase with budget 1 records nothing. -/
theorem generateHeatmap_single_cell_idle (m : Nat) :
    generateHeatmap [[0]] 1 1 ⟨-4, -4⟩ ⟨4, 4⟩ 1 536870912 m (fun _ => ⟨11 / 32, 0⟩)
      = some ([[0]], m) := by
  rw [generateHeatmap, map_const_range]
  exact sampleLoop_replicate_nil 1 1 _ _ 1 _ _ _ (by decide!)

/-- C8 (counterexample): the object built by `Buddhabrot(1, 1, 536870912, -4, 4, -4, 4, 9,
1, 1)`, three zero-initialised single-cell heatmaps and `maxHeatmapValue = 0`, with every
sample drawn equal to `11/32 + 0i`: each red trajectory records eight points in the red
cell, whose 32-bit counter reaches `2^32 - 1` and wraps to 0; after the three phases the
cells are 0, 0 and 0 and `maxHeatmapValue` is 4294967295, which is not the largest cell
count. -/
theorem accumulate_maxHeatmapValue_counterexample :
    construct 1 1 536870912 (-4) 4 (-4) 4 9 1 1 = some singleCellObject ∧
    accumulate singleCellObject (fun _ => ⟨11 / 32, 0⟩) (fun _ => ⟨11 / 32, 0⟩)
        (fun _ => ⟨11 / 32, 0⟩)
      = some { singleCellObject with maxHeatmapValue := 4294967295 } ∧
    gridMax ([[0]] ++ [[0]] ++ [[0]]) = 0 := by
  refine ⟨by decide!, ?_, by decide⟩
  have hn : singleCellObject.numSamples = 536870912 := by decide
  have h1 : generateHeatmap singleCellObject.redHeatmap singleCellObject.imageWidth
      singleCellObject.imageHeight singleCellObject.min singleCellObject.max
      singleCellObject.redIterations singleCellObject.numSamples
      singleCellObject.maxHeatmapValue (fun _ => ⟨11 / 32, 0⟩)
        = some ([[0]], 4294967295) := by
    rw [hn]; exact generateHeatmap_single_cell_red
  have h2 : generateHeatmap singleCellObject.greenHeatmap singleCellObject.imageWidth
      singleCellObject.imageHeight singleCellObject.min singleCellObject.max
      singleCellObject.greenIterations singleCellObject.numSamples
      4294967295 (fun _ => ⟨11 / 32, 0⟩) = some ([[0]], 4294967295) := by
    rw [hn]; exact generateHeatmap_single_cell_idle _
  have h3 : generateHeatmap singleCellObject.blueHeatmap singleCellObject.imageWidth
      singleCellObject.imageHeight singleCellObject.min singleCellObject.max
      singleCellObject.blueIterations singleCellObject.numSamples
      4294967295 (fun _ => ⟨11 / 32, 0⟩) = some ([[0]], 4294967295) := by
    rw [hn]; exact generateHeatmap_single_cell_idle _
  exact accumulate_of_phases h1 h2 h3

/-! ## The normalizer `colourFromHeatmap` -/

/-- The colour of a cell at most the (positive, `UINT`) global maximum is defined and lies in
`[0, 255]`. -/
theorem colourFromHeatmap_bounded {m v : Nat} (hm : 0 < m) (hm32 : m < uintSize)
    (hv : v ≤ m) :
    ∃ colour : Int, colourFromHeatmap v m 255 = some colour ∧ 0 ≤ colour ∧ colour ≤ 255 := by
  have hmq : (0 : ℚ) < (m : ℚ) := by exact_mod_cast hm
  have hvq : (v : ℚ) ≤ (m : ℚ) := by exact_mod_cast hv
  have hx1 : (v : ℚ) * ((255 : Int) : ℚ) / (m : ℚ) ≤ 255 := by
    rw [div_le_iff₀ hmq]
    push_cast
    nlinarith
  have h31 : (2 : ℚ) ^ (31 : Int) = 2147483648 := by norm_num
  have h20 : (2 : ℚ) ^ (-20 : Int) = 1 / 1048576 := by norm_num
  obtain ⟨p, hp, hp0, hperr⟩ := colour_value (v := v) (d := 255) hm hm32 (by decide)
    (by decide) (by rw [h31]; linarith)
  rw [h20] at hperr
  obtain ⟨-, hhi⟩ := abs_le.mp hperr
  have hfl : ⌊p⌋ < 256 := Int.floor_lt.mpr (by push_cast; linarith)
  refine ⟨⌊p⌋, ?_, Int.floor_nonneg.mpr hp0, by omega⟩
  unfold colourFromHeatmap
  simp only [hp, Binary64.toInt]
  exact toInt_of_nonneg hp0 (le_trans (le_of_lt hfl) (by decide))

/-- A cell at most the (positive, `UINT`) global maximum is scaled into `[0, 255]`. -/
theorem scaleCell_le {m v v1 : Nat} (hm : 0 < m) (hm32 : m < uintSize) (hv : v ≤ m)
    (h : scaleCell m v = some v1) : v1 ≤ 255 := by
  unfold scaleCell at h
  obtain ⟨colour, hc, h0, h1⟩ := colourFromHeatmap_bounded hm hm32 hv
  rw [hc] at h
  simp only [Option.some.injEq] at h
  subst h
  simp only [uintSize]
  omega

theorem scaleRow_le {m : Nat} {cells cells1 : List Nat} (hm : 0 < m) (hm32 : m < uintSize)
    (hle : ∀ v ∈ cells, v ≤ m)
    (h : scaleRow m cells = some cells1) : ∀ v1 ∈ cells1, v1 ≤ 255 := by
  induction cells generalizing cells1 with
  | nil =>
    simp only [scaleRow, Option.some.injEq] at h
    subst h
    simp
  | cons x xs ih =>
    simp only [scaleRow] at h
    cases hx : scaleCell m x with
    | none => simp [hx] at h
    | some x1 =>
      cases hxs : scaleRow m xs with
      | none => simp [hx, hxs] at h
      | some xs1 =>
        simp only [hx, hxs, Option.some.injEq] at h
        subst h
        intro v1 hv1
        rcases List.mem_cons.mp hv1 with rfl | hmem
        · exact scaleCell_le hm hm32 (hle x (List.mem_cons_self x xs)) hx
        · exact ih (fun v hv => hle v (List.mem_cons_of_mem x hv)) hxs v1 hmem

theorem scaleHeatmap_le {m : Nat} {heatmap heatmap1 : Heatmap} (hm : 0 < m)
    (hm32 : m < uintSize) (hle : gridMax heatmap ≤ m)
    (h : scaleHeatmap m heatmap = some heatmap1) :
    ∀ cells1 ∈ heatmap1, ∀ v1 ∈ cells1, v1 ≤ 255 := by
  induction heatmap generalizing heatmap1 with
  | nil =>
    simp only [scaleHeatmap, Option.some.injEq] at h
    subst h
    simp
  | cons x xs ih =>
    simp only [scaleHeatmap] at h
    have hx_le : ∀ v ∈ x, v ≤ m := fun v hv =>
      le_trans (le_gridMax (List.mem_cons_self x xs) hv) hle
    have hxs_le : gridMax xs ≤ m :=
      le_trans (gridMax_le (fun cells hc v hv => le_gridMax (List.mem_cons_of_mem x hc) hv)) hle
    cases hx : scaleRow m x with
    | none => simp [hx] at h
    | some x1 =>
      cases hxs : scaleHeatmap m xs with
      | none => simp [hx, hxs] at h
      | some xs1 =>
        simp only [hx, hxs, Option.some.injEq] at h
        subst h
        intro cells1 hc1
        rcases List.mem_cons.mp hc1 with rfl | hmem
        · exact scaleRow_le hm hm32 hx_le hx
        · exact ih hxs_le hxs cells1 hmem

/-- The accumulation and the three scalings behind a defined result of `generate`. -/
theorem generate_eq_some {b out : Buddhabrot} {redDraw greenDraw blueDraw : Nat → ComplexNumber}
    (h : generate b redDraw greenDraw blueDraw = some out) :
    ∃ (acc : Buddhabrot) (red green blue : Heatmap),
      accumulate b redDraw greenDraw blueDraw = some acc ∧
      scaleHeatmap acc.maxHeatmapValue acc.redHeatmap = some red ∧
      scaleHeatmap acc.maxHeatmapValue acc.greenHeatmap = some green ∧
      scaleHeatmap acc.maxHeatmapValue acc.blueHeatmap = some blue ∧
      out = { acc with redHeatmap := red, greenHeatmap := green, blueHeatmap := blue } := by
  unfold generate at h
  cases hacc : accumulate b redDraw greenDraw blueDraw with
  | none => simp [hacc] at h
  | some acc =>
    simp only [hacc] at h
    cases hr : scaleHeatmap acc.maxHeatmapValue acc.redHeatmap with
    | none => simp [hr] at h
    | some red =>
      cases hg : scaleHeatmap acc.maxHeatmapValue acc.greenHeatmap with
      | none => simp [hr, hg] at h
      | some green =>
        cases hbl : scaleHeatmap acc.maxHeatmapValue acc.blueHeatmap with
        | none => simp [hr, hg, hbl] at h
        | some blue =>
          simp only [hr, hg, hbl, Option.some.injEq] at h
          exact ⟨acc, red, green, blue, rfl, hr, hg, hbl, h.symm⟩

/-- A recorded point leaves a positive global maximum. -/
theorem recordPoint_pos {imageWidth imageHeight : Int} {min max : ComplexNumber}
    {st st1 : Heatmap × Nat} {point : ComplexNumber}
    (h : recordPoint imageWidth imageHeight min max st point = some st1)
    (hle : gridMax st.1 ≤ st.2) (hin : inViewport min max point) : 0 < st1.2 := by
  rcases recordPoint_eq_some h with ⟨hout, -⟩ | ⟨-, row, col, cells, v, -, -, hc, hv, rfl⟩
  · exact absurd hin hout
  · have hvle : v ≤ gridMax st.1 := le_gridMax (List.getElem?_mem hc) (List.getElem?_mem hv)
    show 0 < if (v + 1) % uintSize > st.2 then (v + 1) % uintSize else st.2
    simp only [uintSize]
    split <;> omega

theorem recordPoints_pos {imageWidth imageHeight : Int} {min max : ComplexNumber}
    {points : List ComplexNumber} {st st1 : Heatmap × Nat}
    (h : recordPoints imageWidth imageHeight min max st points = some st1)
    (hle : gridMax st.1 ≤ st.2) (hpos : 0 < recordedCount min max points ∨ 0 < st.2) :
    0 < st1.2 := by
  induction points generalizing st with
  | nil =>
    simp only [recordPoints, Option.some.injEq] at h
    subst h
    rcases hpos with hp | hp
    · simp [recordedCount] at hp
    · exact hp
  | cons p ps ih =>
    simp only [recordPoints] at h
    cases hp : recordPoint imageWidth imageHeight min max st p with
    | none => simp [hp] at h
    | some st2 =>
      simp only [hp] at h
      obtain ⟨hmono, hinv⟩ := recordPoint_gridMax_le hp
      by_cases hin : inViewport min max p
      · exact ih h (hinv hle) (Or.inr (recordPoint_pos hp hle hin))
      · rw [recordedCount_cons, if_neg hin, Nat.zero_add] at hpos
        rcases hpos with hc | hc
        · exact ih h (hinv hle) (Or.inl hc)
        · exact ih h (hinv hle) (Or.inr (lt_of_lt_of_le hc hmono))

theorem sampleLoop_pos {imageWidth imageHeight : Int} {min max : ComplexNumber}
    {numIters : Nat} {samples : List ComplexNumber} {st st1 : Heatmap × Nat}
    (h : sampleLoop imageWidth imageHeight min max numIters st samples = some st1)
    (hle : gridMax st.1 ≤ st.2)
    (hpos : 0 < recordedTotal min max numIters samples ∨ 0 < st.2) : 0 < st1.2 := by
  induction samples generalizing st with
  | nil =>
    simp only [sampleLoop, Option.some.injEq] at h
    subst h
    rcases hpos with hp | hp
    · simp [recordedTotal] at hp
    · exact hp
  | cons s ss ih =>
    simp only [sampleLoop] at h
    cases hp : recordPoints imageWidth imageHeight min max st (buddhabrotPoints s numIters) with
    | none => simp [hp] at h
    | some st2 =>
      simp only [hp] at h
      obtain ⟨hmono, hinv⟩ := recordPoints_gridMax_le hp
      have hcons : recordedTotal min max numIters (s :: ss)
          = recordedCount min max (buddhabrotPoints s numIters)
            + recordedTotal min max numIters ss := by
        simp [recordedTotal]
      rw [hcons] at hpos
      by_cases hfirst : 0 < recordedCount min max (buddhabrotPoints s numIters)
      · exact ih h (hinv hle) (Or.inr (recordPoints_pos hp hle (Or.inl hfirst)))
      · rcases hpos with hc | hc
        · exact ih h (hinv hle) (Or.inl (by omega))
        · exact ih h (hinv hle) (Or.inr (lt_of_lt_of_le hc hmono))

/-- The global maximum stays a `UINT` value. -/
theorem recordPoint_max_lt {imageWidth imageHeight : Int} {min max : ComplexNumber}
    {st st1 : Heatmap × Nat} {point : ComplexNumber}
    (h : recordPoint imageWidth imageHeight min max st point = some st1)
    (hlt : st.2 < uintSize) : st1.2 < uintSize := by
  rcases recordPoint_eq_some h with ⟨-, rfl⟩ | ⟨-, row, col, cells, v, -, -, -, -, rfl⟩
  · exact hlt
  · show (if (v + 1) % uintSize > st.2 then (v + 1) % uintSize else st.2) < uintSize
    split
    · exact Nat.mod_lt _ (by decide)
    · exact hlt

theorem recordPoints_max_lt {imageWidth imageHeight : Int} {min max : ComplexNumber}
    {points : List ComplexNumber} {st st1 : Heatmap × Nat}
    (h : recordPoints imageWidth imageHeight min max st points = some st1)
    (hlt : st.2 < uintSize) : st1.2 < uintSize := by
  induction points generalizing st with
  | nil =>
    simp only [recordPoints, Option.some.injEq] at h
    subst h
    exact hlt
  | cons p ps ih =>
    simp only [recordPoints] at h
    cases hp : recordPoint imageWidth imageHeight min max st p with
    | none => simp [hp] at h
    | some st2 =>
      simp only [hp] at h
      exact ih h (recordPoint_max_lt hp hlt)

theorem sampleLoop_max_lt {imageWidth imageHeight : Int} {min max : ComplexNumber}
    {numIters : Nat} {samples : List ComplexNumber} {st st1 : Heatmap × Nat}
    (h : sampleLoop imageWidth imageHeight min max numIters st samples = some st1)
    (hlt : st.2 < uintSize) : st1.2 < uintSize := by
  induction samples generalizing st with
  | nil =>
    simp only [sampleLoop, Option.some.injEq] at h
    subst h
    exact hlt
  | cons s ss ih =>
    simp only [sampleLoop] at h
    cases hp : recordPoints imageWidth imageHeight min max st (buddhabrotPoints s numIters) with
    | none => simp [hp] at h
    | some st2 =>
      simp only [hp] at h
      exact ih h (recordPoints_max_lt hp hlt)

/-- After the accumulation phases of a freshly constructed object the global maximum is a
`UINT` value. -/
theorem accumulate_max_lt {width height samples : Int} {minR maxR minI maxI : ℚ}
    {redIters blueIters greenIters : Nat} {b acc : Buddhabrot}
    {redDraw greenDraw blueDraw : Nat → ComplexNumber}
    (hb : construct width height samples minR maxR minI maxI redIters blueIters greenIters
      = some b)
    (hacc : accumulate b redDraw greenDraw blueDraw = some acc) :
    acc.maxHeatmapValue < uintSize := by
  obtain ⟨wh, count, zeros, -, -, hz, rfl⟩ := construct_eq_some hb
  obtain ⟨red0, green0, blue0, m1, m2, m3, h1, h2, h3, rfl⟩ := accumulate_eq_some hacc
  have p1 := sampleLoop_max_lt h1 (by show 0 < uintSize; decide)
  have p2 := sampleLoop_max_lt h2 p1
  exact sampleLoop_max_lt h3 p2

/-- After the accumulation phases of a freshly constructed object that recorded at least one
orbit point the global maximum is positive. -/
theorem accumulate_pos {width height samples : Int} {minR maxR minI maxI : ℚ}
    {redIters blueIters greenIters : Nat} {b acc : Buddhabrot}
    {redDraw greenDraw blueDraw : Nat → ComplexNumber}
    (hb : construct width height samples minR maxR minI maxI redIters blueIters greenIters
      = some b)
    (hacc : accumulate b redDraw greenDraw blueDraw = some acc)
    (hrec : 0 < recordedTotal b.min b.max b.redIterations
          ((List.range b.numSamples).map redDraw)
        + recordedTotal b.min b.max b.greenIterations
          ((List.range b.numSamples).map greenDraw)
        + recordedTotal b.min b.max b.blueIterations
          ((List.range b.numSamples).map blueDraw)) :
    0 < acc.maxHeatmapValue := by
  obtain ⟨wh, count, zeros, -, -, hz, rfl⟩ := construct_eq_some hb
  obtain ⟨red0, green0, blue0, m1, m2, m3, h1, h2, h3, rfl⟩ := accumulate_eq_some hacc
  have hz0 : gridMax zeros = 0 := gridMax_zeros hz
  obtain ⟨h12, -⟩ := generateHeatmap_zeros_le hz h2
  obtain ⟨h23, -⟩ := generateHeatmap_zeros_le hz h3
  have p1 := sampleLoop_pos h1 (by show gridMax zeros ≤ 0; omega)
  have p2 := sampleLoop_pos h2 (by show gridMax zeros ≤ m1; omega)
  have p3 := sampleLoop_pos h3 (by show gridMax zeros ≤ m2; omega)
  dsimp only at hrec p1 p2 p3 h12 h23 ⊢
  omega

/-- C10 (as amended): after `generate` completes a run, started from a freshly constructed
object (three zero-initialised heatmaps and `maxHeatmapValue = 0`), in which at least one
orbit point was recorded, the global maximum is positive and every cell of the red, green
and blue heatmaps is an integer in `[0, 255]`. -/
theorem generate_cells_in_range (width height samples : Int) (minR maxR minI maxI : ℚ)
    (redIters blueIters greenIters : Nat) (redDraw greenDraw blueDraw : Nat → ComplexNumber)
    (b out : Buddhabrot)
    (hb : construct width height samples minR maxR minI maxI redIters blueIters greenIters
      = some b)
    (hgen : generate b redDraw greenDraw blueDraw = some out)
    (hrec : 0 < recordedTotal b.min b.max b.redIterations
          ((List.range b.numSamples).map redDraw)
        + recordedTotal b.min b.max b.greenIterations
          ((List.range b.numSamples).map greenDraw)
        + recordedTotal b.min b.max b.blueIterations
          ((List.range b.numSamples).map blueDraw)) :
    0 < out.maxHeatmapValue ∧
    ∀ cells ∈ out.redHeatmap ++ out.greenHeatmap ++ out.blueHeatmap,
      ∀ v ∈ cells, 0 ≤ v ∧ v ≤ 255 := by
  obtain ⟨acc, red, green, blue, hacc, hr, hg, hbl, rfl⟩ := generate_eq_some hgen
  have hle := accumulate_cells_le hb hacc
  simp only [gridMax_append] at hle
  have hpos : 0 < acc.maxHeatmapValue := accumulate_pos hb hacc hrec
  have hlt : acc.maxHeatmapValue < uintSize := accumulate_max_lt hb hacc
  refine ⟨hpos, ?_⟩
  intro cells hc v hv
  refine ⟨Nat.zero_le v, ?_⟩
  rcases List.mem_append.mp hc with hc | hc
  · rcases List.mem_append.mp hc with hc | hc
    · exact scaleHeatmap_le hpos hlt (by omega) hr cells hc v hv
    · exact scaleHeatmap_le hpos hlt (by omega) hg cells hc v hv
  · exact scaleHeatmap_le hpos hlt (by omega) hbl cells hc v hv

/-- A run of C10 (as amended): `Buddhabrot(2, 2, 1, -2, 2, -2, 2, 3, 3, 3)` with the samples
`3/2 + (k/2) i` in every channel. -/
theorem generate_cells_in_range_witness :
    generate smallObject smallDraw smallDraw smallDraw = some smallImage ∧
    0 < smallImage.maxHeatmapValue ∧
    ∀ cells ∈ smallImage.redHeatmap ++ smallImage.greenHeatmap ++ smallImage.blueHeatmap,
      ∀ v ∈ cells, 0 ≤ v ∧ v ≤ 255 :=
  ⟨by decide!,
   generate_cells_in_range 2 2 1 (-2) 2 (-2) 2 3 3 3 smallDraw smallDraw smallDraw
     smallObject smallImage (by decide!) (by decide!) (by decide!)⟩

/-- C10 (counterexample): `generate` run a second time, on the image that a first run left
(cells `[[0, 0], [0, 255]]` in every channel, `maxHeatmapValue = 4`), with every sample drawn
equal to `-3/2 - 3/2 i`: each channel records four orbit points in cell `[0][0]`, the global
maximum stays 4, the run completes and the normalization rescales the old cell 255 to
`floor(255 * (255 / 4)) = 16256`, which is not in `[0, 255]`. -/
theorem generate_cells_in_range_counterexample :
    generate smallImage (fun _ => ⟨-3 / 2, -3 / 2⟩) (fun _ => ⟨-3 / 2, -3 / 2⟩)
        (fun _ => ⟨-3 / 2, -3 / 2⟩)
      = some { smallImage with redHeatmap := [[255, 0], [0, 16256]],
                               greenHeatmap := [[255, 0], [0, 16256]],
                               blueHeatmap := [[255, 0], [0, 16256]] } ∧
    recordedTotal smallImage.min smallImage.max smallImage.redIterations
        ((List.range smallImage.numSamples).map
          (fun _ => (⟨-3 / 2, -3 / 2⟩ : ComplexNumber))) = 4 ∧
    ¬ ∀ cells ∈ ([[255, 0], [0, 16256]] : Heatmap), ∀ v ∈ cells, v ≤ 255 := by
  decide!

theorem scaleCell_defined {m v : Nat} (hm : 0 < m) (hm32 : m < uintSize) (hv : v ≤ m) :
    ∃ v1, scaleCell m v = some v1 := by
  obtain ⟨colour, hc, -, -⟩ := colourFromHeatmap_bounded hm hm32 hv
  simp only [scaleCell, hc]
  exact ⟨_, rfl⟩

theorem scaleRow_defined {m : Nat} {cells : List Nat} (hm : 0 < m) (hm32 : m < uintSize)
    (hle : ∀ v ∈ cells, v ≤ m) :
    ∃ cells1, scaleRow m cells = some cells1 := by
  induction cells with
  | nil => exact ⟨[], rfl⟩
  | cons x xs ih =>
    obtain ⟨x1, hx⟩ := scaleCell_defined hm hm32 (hle x (List.mem_cons_self x xs))
    obtain ⟨xs1, hxs⟩ := ih (fun v hv => hle v (List.mem_cons_of_mem x hv))
    exact ⟨x1 :: xs1, by simp only [scaleRow, hx, hxs]⟩

theorem scaleHeatmap_defined {m : Nat} {heatmap : Heatmap} (hm : 0 < m) (hm32 : m < uintSize)
    (hle : gridMax heatmap ≤ m) : ∃ heatmap1, scaleHeatmap m heatmap = some heatmap1 := by
  induction heatmap with
  | nil => exact ⟨[], rfl⟩
  | cons x xs ih =>
    have hx_le : ∀ v ∈ x, v ≤ m := fun v hv =>
      le_trans (le_gridMax (List.mem_cons_self x xs) hv) hle
    have hxs_le : gridMax xs ≤ m :=
      le_trans (gridMax_le (fun cells hc v hv => le_gridMax (List.mem_cons_of_mem x hc) hv)) hle
    obtain ⟨x1, hx⟩ := scaleRow_defined hm hm32 hx_le
    obtain ⟨xs1, hxs⟩ := ih hxs_le
    exact ⟨x1 :: xs1, by simp only [scaleHeatmap, hx, hxs]⟩

/-- The run of `generate` completes for a freshly constructed object when every in-viewport
orbit point of every channel is mapped to an index inside the heatmap and at least one orbit
point is recorded. -/
theorem generate_defined {width height samples : Int} {minR maxR minI maxI : ℚ}
    {redIters blueIters greenIters : Nat} {b : Buddhabrot}
    {redDraw greenDraw blueDraw : Nat → ComplexNumber}
    (hb : construct width height samples minR maxR minI maxI redIters blueIters greenIters
      = some b)
    (hred : ∀ k < b.numSamples, ∀ p ∈ buddhabrotPoints (redDraw k) b.redIterations,
      inViewport b.min b.max p → indexInGrid b.imageWidth b.imageHeight b.min b.max p)
    (hgreen : ∀ k < b.numSamples, ∀ p ∈ buddhabrotPoints (greenDraw k) b.greenIterations,
      inViewport b.min b.max p → indexInGrid b.imageWidth b.imageHeight b.min b.max p)
    (hblue : ∀ k < b.numSamples, ∀ p ∈ buddhabrotPoints (blueDraw k) b.blueIterations,
      inViewport b.min b.max p → indexInGrid b.imageWidth b.imageHeight b.min b.max p)
    (hrec : 0 < recordedTotal b.min b.max b.redIterations
          ((List.range b.numSamples).map redDraw)
        + recordedTotal b.min b.max b.greenIterations
          ((List.range b.numSamples).map greenDraw)
        + recordedTotal b.min b.max b.blueIterations
          ((List.range b.numSamples).map blueDraw)) :
    ∃ out, generate b redDraw greenDraw blueDraw = some out := by
  obtain ⟨acc, hacc⟩ := accumulate_defined hb hred hgreen hblue
  have hpos := accumulate_pos hb hacc hrec
  have hlt := accumulate_max_lt hb hacc
  have hle := accumulate_cells_le hb hacc
  simp only [gridMax_append] at hle
  obtain ⟨red, hr⟩ := @scaleHeatmap_defined _ acc.redHeatmap hpos hlt (by omega)
  obtain ⟨green, hg⟩ := @scaleHeatmap_defined _ acc.greenHeatmap hpos hlt (by omega)
  obtain ⟨blue, hbl⟩ := @scaleHeatmap_defined _ acc.blueHeatmap hpos hlt (by omega)
  simp only [generate, hacc, hr, hg, hbl]
  exact ⟨_, rfl⟩

/-! ## The cell that holds the global maximum -/

/-- C11: evaluation of the normalizer at a cell equal to the global maximum 25, where the
claimed colour is 255: `colourFromHeatmap(25, 25, 255)` is 254.  The binary64 quotient
`255 / 25` is rounded down to `2871044762448691 / 2^48 < 10.2`, and 25 times it is rounded
to `8972014882652159 / 2^45 < 255`, which the conversion to `int` truncates to 254.
The run `Buddhabrot(5, 5, 1, -2, 2, -2, 2, 3, 3, 3)` with every sample drawn equal to
`3/2 + 0i` records 25 orbit points in each channel, all in cell `[4][2]`; the global maximum
is 25, `generate` completes and scales that cell to 254 in every channel: no cell of any
channel equals 255. -/
theorem generate_max_cell_eval :
    colourFromHeatmap 25 25 255 = some 254 ∧
    Binary64.div ((255 : Int) : ℚ) (Binary64.finite ((25 : Nat) : ℚ))
      = Binary64.finite (2871044762448691 / 281474976710656) ∧
    Binary64.mul (Binary64.finite ((25 : Nat) : ℚ))
        (Binary64.finite (2871044762448691 / 281474976710656))
      = Binary64.finite (8972014882652159 / 35184372088832) ∧
    construct 5 5 1 (-2) 2 (-2) 2 3 3 3 = some mediumObject ∧
    accumulate mediumObject (fun _ => ⟨3 / 2, 0⟩) (fun _ => ⟨3 / 2, 0⟩) (fun _ => ⟨3 / 2, 0⟩)
      = some (mediumResult 25 25) ∧
    generate mediumObject (fun _ => ⟨3 / 2, 0⟩) (fun _ => ⟨3 / 2, 0⟩) (fun _ => ⟨3 / 2, 0⟩)
      = some (mediumResult 254 25) ∧
    ∀ cells ∈ (mediumResult 254 25).redHeatmap ++ (mediumResult 254 25).greenHeatmap
        ++ (mediumResult 254 25).blueHeatmap, 255 ∉ cells := by
  decide!

/-! ## A run without hits -/

theorem recordPoints_of_count_zero {imageWidth imageHeight : Int} {min max : ComplexNumber}
    {points : List ComplexNumber} (st : Heatmap × Nat)
    (h : recordedCount min max points = 0) :
    recordPoints imageWidth imageHeight min max st points = some st := by
  induction points with
  | nil => rfl
  | cons p ps ih =>
    rw [recordedCount_cons] at h
    have hout : ¬ inViewport min max p := by
      intro hin
      rw [if_pos hin] at h
      omega
    rw [if_neg hout, Nat.zero_add] at h
    rw [recordPoints, recordPoint_outside hout]
    exact ih h

theorem sampleLoop_of_total_zero {imageWidth imageHeight : Int} {min max : ComplexNumber}
    {numIters : Nat} {samples : List ComplexNumber} (st : Heatmap × Nat)
    (h : recordedTotal min max numIters samples = 0) :
    sampleLoop imageWidth imageHeight min max numIters st samples = some st := by
  induction samples with
  | nil => rfl
  | cons s ss ih =>
    have hcons : recordedTotal min max numIters (s :: ss)
        = recordedCount min max (buddhabrotPoints s numIters)
          + recordedTotal min max numIters ss := by
      simp [recordedTotal]
    rw [hcons] at h
    rw [sampleLoop, recordPoints_of_count_zero st (by omega)]
    exact ih (by omega)

/-- With the global maximum 0 the scale is infinite and no colour is defined. -/
theorem colourFromHeatmap_zero_max (v : Nat) (d : Int) : colourFromHeatmap v 0 d = none := by
  unfold colourFromHeatmap
  simp only [Nat.cast_zero, Binary64.div, if_true]
  by_cases hd : (d : ℚ) = 0
  · simp [hd, Binary64.mul, Binary64.toInt]
  · simp only [if_neg hd, Binary64.mul]
    split_ifs <;> rfl

theorem scaleCell_zero_max (v : Nat) : scaleCell 0 v = none := by
  simp [scaleCell, colourFromHeatmap_zero_max]

theorem scaleHeatmap_zero_max_replicate (w h : Nat) :
    scaleHeatmap 0 (List.replicate (h + 1) (List.replicate (w + 1) 0)) = none := by
  simp [List.replicate_succ, scaleHeatmap, scaleRow, scaleCell_zero_max]

theorem scaleHeatmap_of_no_cell (m : Nat) (heatmap : Heatmap)
    (h : ∀ cells ∈ heatmap, cells = []) : scaleHeatmap m heatmap = some heatmap := by
  induction heatmap with
  | nil => rfl
  | cons x xs ih =>
    have hx : x = [] := h x (List.mem_cons_self x xs)
    subst hx
    rw [scaleHeatmap, ih (fun cells hc => h cells (List.mem_cons_of_mem _ hc))]
    rfl

/-- C12 (as amended): if the accumulation phases of `generate`, started from a freshly
constructed object, record zero hits, they leave the object unchanged with the global
maximum still 0; `generate` has no check of it and no way to report a failure: for an image
with at least one cell it goes on to `colourFromHeatmap` with `maxHeatmapValue = 0`, a
division by zero whose conversion to `int` is undefined, so that no result is defined; for
an image without cells it completes with the empty grids. -/
theorem generate_zero_hits (width height samples : Int) (minR maxR minI maxI : ℚ)
    (redIters blueIters greenIters : Nat) (redDraw greenDraw blueDraw : Nat → ComplexNumber)
    (b : Buddhabrot)
    (hb : construct width height samples minR maxR minI maxI redIters blueIters greenIters
      = some b)
    (hred : recordedTotal b.min b.max b.redIterations
      ((List.range b.numSamples).map redDraw) = 0)
    (hgreen : recordedTotal b.min b.max b.greenIterations
      ((List.range b.numSamples).map greenDraw) = 0)
    (hblue : recordedTotal b.min b.max b.blueIterations
      ((List.range b.numSamples).map blueDraw) = 0) :
    accumulate b redDraw greenDraw blueDraw = some b ∧
    b.maxHeatmapValue = 0 ∧
    (∀ v : Nat, colourFromHeatmap v b.maxHeatmapValue 255 = none) ∧
    (0 < width → 0 < height → generate b redDraw greenDraw blueDraw = none) ∧
    (width = 0 ∨ height = 0 → generate b redDraw greenDraw blueDraw = some b) := by
  obtain ⟨wh, count, zeros, -, -, hz, rfl⟩ := construct_eq_some hb
  have hacc : accumulate _ redDraw greenDraw blueDraw = some _ :=
    accumulate_of_phases (sampleLoop_of_total_zero _ hred)
      (sampleLoop_of_total_zero _ hgreen) (sampleLoop_of_total_zero _ hblue)
  refine ⟨hacc, rfl, fun v => colourFromHeatmap_zero_max v 255, ?_, ?_⟩
  · intro hW hH
    obtain ⟨w, hw⟩ : ∃ w : Nat, width.toNat = w + 1 := ⟨width.toNat - 1, by omega⟩
    obtain ⟨h, hh⟩ : ∃ h : Nat, height.toNat = h + 1 := ⟨height.toNat - 1, by omega⟩
    have hzeros : zeros = List.replicate (h + 1) (List.replicate (w + 1) 0) := by
      unfold allocHeatmap at hz
      rw [if_neg (by omega), if_neg (by omega)] at hz
      rw [← hw, ← hh]
      exact (Option.some.inj hz).symm
    have hs : scaleHeatmap 0 zeros = none := by
      rw [hzeros]; exact scaleHeatmap_zero_max_replicate w h
    simp only [generate, hacc, hs]
  · intro hdim
    have hnone : ∀ cells ∈ zeros, cells = [] := by
      unfold allocHeatmap at hz
      split at hz
      · simp at hz
      · split at hz
        · simp at hz
        · have hzeros := (Option.some.inj hz).symm
          intro cells hc
          rw [hzeros] at hc
          rcases hdim with hw | hh
          · rw [List.eq_of_mem_replicate hc, hw]; rfl
          · rw [hh] at hc; simp at hc
    have hs := scaleHeatmap_of_no_cell 0 zeros hnone
    simp only [generate, hacc, hs]

/-- A run of C12 (as amended): `Buddhabrot(2, 2, 1, -2, 2, -2, 2, 3, 3, 3)` with every
sample drawn at the origin, whose trajectory is empty. -/
theorem generate_zero_hits_witness :
    accumulate smallObject (fun _ => ⟨0, 0⟩) (fun _ => ⟨0, 0⟩) (fun _ => ⟨0, 0⟩)
      = some smallObject ∧
    smallObject.maxHeatmapValue = 0 ∧
    (∀ v : Nat, colourFromHeatmap v smallObject.maxHeatmapValue 255 = none) ∧
    ((0 : Int) < 2 → (0 : Int) < 2 →
      generate smallObject (fun _ => ⟨0, 0⟩) (fun _ => ⟨0, 0⟩) (fun _ => ⟨0, 0⟩) = none) ∧
    ((2 : Int) = 0 ∨ (2 : Int) = 0 →
      generate smallObject (fun _ => ⟨0, 0⟩) (fun _ => ⟨0, 0⟩) (fun _ => ⟨0, 0⟩)
        = some smallObject) :=
  generate_zero_hits 2 2 1 (-2) 2 (-2) 2 3 3 3 (fun _ => ⟨0, 0⟩) (fun _ => ⟨0, 0⟩)
    (fun _ => ⟨0, 0⟩) smallObject (by decide!) (by decide!) (by decide!) (by decide!)

/-- C12 (counterexample): `Buddhabrot(1, 1, 1, -2, 2, -2, 2, 1, 1, 1)` with its single
sample per channel drawn at `1/2 + 0i`: every budget is 1, every trajectory is empty, the
accumulation records no hit and ends with `maxHeatmapValue = 0`; `generate` then evaluates
`colourFromHeatmap(0, 0, 255)`, the division by zero, and has no defined result: no failure
is reported in its place. -/
theorem generate_zero_hits_counterexample :
    construct 1 1 1 (-2) 2 (-2) 2 1 1 1
      = some { imageWidth := 1, imageHeight := 1, redIterations := 1, blueIterations := 1,
               greenIterations := 1, min := ⟨-2, -2⟩, max := ⟨2, 2⟩, sampleCount := 1,
               maxHeatmapValue := 0, redHeatmap := [[0]], blueHeatmap := [[0]],
               greenHeatmap := [[0]] } ∧
    accumulate { imageWidth := 1, imageHeight := 1, redIterations := 1, blueIterations := 1,
                 greenIterations := 1, min := ⟨-2, -2⟩, max := ⟨2, 2⟩, sampleCount := 1,
                 maxHeatmapValue := 0, redHeatmap := [[0]], blueHeatmap := [[0]],
                 greenHeatmap := [[0]] }
        (fun _ => ⟨1 / 2, 0⟩) (fun _ => ⟨1 / 2, 0⟩) (fun _ => ⟨1 / 2, 0⟩)
      = some { imageWidth := 1, imageHeight := 1, redIterations := 1, blueIterations := 1,
               greenIterations := 1, min := ⟨-2, -2⟩, max := ⟨2, 2⟩, sampleCount := 1,
               maxHeatmapValue := 0, redHeatmap := [[0]], blueHeatmap := [[0]],
               greenHeatmap := [[0]] } ∧
    colourFromHeatmap 0 0 255 = none ∧
    scaleHeatmap 0 [[0]] = none ∧
    generate { imageWidth := 1, imageHeight := 1, redIterations := 1, blueIterations := 1,
               greenIterations := 1, min := ⟨-2, -2⟩, max := ⟨2, 2⟩, sampleCount := 1,
               maxHeatmapValue := 0, redHeatmap := [[0]], blueHeatmap := [[0]],
               greenHeatmap := [[0]] }
        (fun _ => ⟨1 / 2, 0⟩) (fun _ => ⟨1 / 2, 0⟩) (fun _ => ⟨1 / 2, 0⟩) = none := by
  decide!

/-! ## The constructor -/

/-- C13 (as amended): the constructor validates none of its arguments and has no
configuration-error path.  It is undefined exactly when one of the `int` products
`width * height`, `width * height * samples` overflows, or fails with the exception of
`new[]` when the height is negative or the width is negative with a positive height; in
every other case, whatever the samples multiplier and the viewport bounds, it completes and
stores its arguments as given, with `sampleCount = width * height * samples`,
`maxHeatmapValue = 0` and three zero heatmaps. -/
theorem construct_unvalidated (width height samples : Int) (minR maxR minI maxI : ℚ)
    (redIters blueIters greenIters : Nat) :
    (construct width height samples minR maxR minI maxI redIters blueIters greenIters = none ↔
      (¬ (intMin ≤ width * height ∧ width * height ≤ intMax) ∨
       ¬ (intMin ≤ width * height * samples ∧ width * height * samples ≤ intMax) ∨
       height < 0 ∨ (0 < height ∧ width < 0))) ∧
    (¬ (¬ (intMin ≤ width * height ∧ width * height ≤ intMax) ∨
        ¬ (intMin ≤ width * height * samples ∧ width * height * samples ≤ intMax) ∨
        height < 0 ∨ (0 < height ∧ width < 0)) →
      construct width height samples minR maxR minI maxI redIters blueIters greenIters
        = some { imageWidth := width, imageHeight := height,
                 redIterations := redIters, blueIterations := blueIters,
                 greenIterations := greenIters,
                 min := ⟨minR, minI⟩, max := ⟨maxR, maxI⟩,
                 sampleCount := width * height * samples, maxHeatmapValue := 0,
                 redHeatmap := List.replicate height.toNat (List.replicate width.toNat 0),
                 blueHeatmap := List.replicate height.toNat (List.replicate width.toNat 0),
                 greenHeatmap :=
                   List.replicate height.toNat (List.replicate width.toNat 0) }) := by
  by_cases h1 : intMin ≤ width * height ∧ width * height ≤ intMax
  · have e1 : intMul width height = some (width * height) := if_pos h1
    by_cases h2 : intMin ≤ width * height * samples ∧ width * height * samples ≤ intMax
    · have e2 : intMul (width * height) samples = some (width * height * samples) :=
        if_pos h2
      by_cases h3 : height < 0
      · have e3 : allocHeatmap width height = none := if_pos h3
        simp only [construct, e1, e2, e3]
        simp [h3]
      · by_cases h4 : 0 < height ∧ width < 0
        · have e3 : allocHeatmap width height = none := by
            unfold allocHeatmap
            rw [if_neg h3, if_pos h4]
          simp only [construct, e1, e2, e3]
          simp [h4]
        · have e3 : allocHeatmap width height
              = some (List.replicate height.toNat (List.replicate width.toNat 0)) := by
            unfold allocHeatmap
            rw [if_neg h3, if_neg h4]
          simp only [construct, e1, e2, e3]
          simp only [h1, h2, h3, h4]
          simp
    · have e2 : intMul (width * height) samples = none := if_neg h2
      simp only [construct, e1, e2]
      simp [h2]
  · have e1 : intMul width height = none := if_neg h1
    simp only [construct, e1]
    simp [h1]

/-- A run of C13 (as amended): `Buddhabrot(2, 2, 0, 1, 0, 1, 0, 3, 3, 3)`, a samples
multiplier of 0 and a viewport with `minR > maxR` and `minI > maxI`, is constructed as
given. -/
theorem construct_unvalidated_witness :
    construct 2 2 0 1 0 1 0 3 3 3
      = some { imageWidth := 2, imageHeight := 2,
               redIterations := 3, blueIterations := 3, greenIterations := 3,
               min := ⟨1, 1⟩, max := ⟨0, 0⟩,
               sampleCount := 2 * 2 * 0, maxHeatmapValue := 0,
               redHeatmap := List.replicate (2 : Int).toNat (List.replicate (2 : Int).toNat 0),
               blueHeatmap := List.replicate (2 : Int).toNat (List.replicate (2 : Int).toNat 0),
               greenHeatmap :=
                 List.replicate (2 : Int).toNat (List.replicate (2 : Int).toNat 0) } :=
  (construct_unvalidated 2 2 0 1 0 1 0 3 3 3).2 (by decide)

/-- C13 (counterexample): construction completes, and allocates its grids, with a samples
multiplier of 0, with a negative samples multiplier, with width and height 0, with
`minR > maxR`, and with `minI = maxI`. -/
theorem construct_unvalidated_counterexample :
    construct 2 2 0 (-2) 2 (-2) 2 3 3 3
      = some { imageWidth := 2, imageHeight := 2, redIterations := 3, blueIterations := 3,
               greenIterations := 3, min := ⟨-2, -2⟩, max := ⟨2, 2⟩, sampleCount := 0,
               maxHeatmapValue := 0, redHeatmap := [[0, 0], [0, 0]],
               blueHeatmap := [[0, 0], [0, 0]], greenHeatmap := [[0, 0], [0, 0]] } ∧
    construct 2 2 (-1) (-2) 2 (-2) 2 3 3 3
      = some { imageWidth := 2, imageHeight := 2, redIterations := 3, blueIterations := 3,
               greenIterations := 3, min := ⟨-2, -2⟩, max := ⟨2, 2⟩, sampleCount := -4,
               maxHeatmapValue := 0, redHeatmap := [[0, 0], [0, 0]],
               blueHeatmap := [[0, 0], [0, 0]], greenHeatmap := [[0, 0], [0, 0]] } ∧
    construct 0 0 1 (-2) 2 (-2) 2 3 3 3
      = some { imageWidth := 0, imageHeight := 0, redIterations := 3, blueIterations := 3,
               greenIterations := 3, min := ⟨-2, -2⟩, max := ⟨2, 2⟩, sampleCount := 0,
               maxHeatmapValue := 0, redHeatmap := [], blueHeatmap := [],
               greenHeatmap := [] } ∧
    construct 2 2 1 2 (-2) (-2) 2 3 3 3
      = some { imageWidth := 2, imageHeight := 2, redIterations := 3, blueIterations := 3,
               greenIterations := 3, min := ⟨2, -2⟩, max := ⟨-2, 2⟩, sampleCount := 4,
               maxHeatmapValue := 0, redHeatmap := [[0, 0], [0, 0]],
               blueHeatmap := [[0, 0], [0, 0]], greenHeatmap := [[0, 0], [0, 0]] } ∧
    construct 2 2 1 (-2) 2 1 1 3 3 3
      = some { imageWidth := 2, imageHeight := 2, redIterations := 3, blueIterations := 3,
               greenIterations := 3, min := ⟨-2, 1⟩, max := ⟨2, 1⟩, sampleCount := 4,
               maxHeatmapValue := 0, redHeatmap := [[0, 0], [0, 0]],
               blueHeatmap := [[0, 0], [0, 0]], greenHeatmap := [[0, 0], [0, 0]] } := by
  decide!

/-! ## The channel budgets and the sample count -/

theorem allocHeatmap_eq_some {width height : Int} {zeros : Heatmap}
    (h : allocHeatmap width height = some zeros) :
    zeros = List.replicate height.toNat (List.replicate width.toNat 0) := by
  unfold allocHeatmap at h
  split at h
  · simp at h
  · split at h
    · simp at h
    · exact (Option.some.inj h).symm

/-- The accumulation phases of a freshly constructed object, channel by channel: red with
the parameter `redIters`, green with `greenIters`, blue with `blueIters`, each over
`numSamples` samples and each from the zero heatmap. -/
theorem accumulate_construct {width height samples : Int} {minR maxR minI maxI : ℚ}
    {redIters blueIters greenIters : Nat} {b : Buddhabrot}
    (redDraw greenDraw blueDraw : Nat → ComplexNumber)
    (hb : construct width height samples minR maxR minI maxI redIters blueIters greenIters
      = some b) :
    (accumulate b redDraw greenDraw blueDraw).map channels
      = accumulateChannels width height ⟨minR, minI⟩ ⟨maxR, maxI⟩ b.numSamples
          redIters greenIters blueIters redDraw greenDraw blueDraw
          (List.replicate height.toNat (List.replicate width.toNat 0)) := by
  obtain ⟨wh, count, zeros, -, -, hz, rfl⟩ := construct_eq_some hb
  rw [← allocHeatmap_eq_some hz]
  simp only [accumulate, accumulateChannels]
  cases generateHeatmap zeros width height ⟨minR, minI⟩ ⟨maxR, maxI⟩ redIters
      (numSamples _) 0 redDraw with
  | none => rfl
  | some r1 =>
    obtain ⟨red, m1⟩ := r1
    simp only
    cases generateHeatmap zeros width height ⟨minR, minI⟩ ⟨maxR, maxI⟩ greenIters
        (numSamples _) m1 greenDraw with
    | none => rfl
    | some r2 =>
      obtain ⟨green, m2⟩ := r2
      simp only
      cases generateHeatmap zeros width height ⟨minR, minI⟩ ⟨maxR, maxI⟩ blueIters
          (numSamples _) m2 blueDraw with
      | none => rfl
      | some r3 => rfl

/-- C14 (as amended): the constructor takes its three iteration budgets in the order
`redIters, blueIters, greenIters`.  For every construction with budget arguments
`first, second, third`, the object stores `first` as the red, `second` as the blue and
`third` as the green budget, and the accumulation of `generate` is the red grid with the
first budget, then the green grid with the third budget, then the blue grid with the second
budget, each from the zero grid and through the shared maximum. -/
theorem accumulate_budget_order (width height samples : Int) (minR maxR minI maxI : ℚ)
    (first second third : Nat) (redDraw greenDraw blueDraw : Nat → ComplexNumber)
    (b : Buddhabrot)
    (hb : construct width height samples minR maxR minI maxI first second third = some b) :
    b.redIterations = first ∧ b.blueIterations = second ∧ b.greenIterations = third ∧
    (accumulate b redDraw greenDraw blueDraw).map channels
      = accumulateChannels width height ⟨minR, minI⟩ ⟨maxR, maxI⟩ b.numSamples
          first third second redDraw greenDraw blueDraw
          (List.replicate height.toNat (List.replicate width.toNat 0)) := by
  refine ⟨?_, ?_, ?_, accumulate_construct redDraw greenDraw blueDraw hb⟩
  all_goals
    obtain ⟨wh, count, zeros, -, -, -, rfl⟩ := construct_eq_some hb
    rfl

/-- A run of C14 (as amended): `Buddhabrot(2, 2, 1, -2, 2, -2, 2, 1, 3, 1)`, budgets
`(1, 3, 1)` in argument order, with the samples `smallDraw`: the second budget, 3, is the
blue one, and the blue grid takes the hits. -/
theorem accumulate_budget_order_witness :
    budgetObject.redIterations = 1 ∧ budgetObject.blueIterations = 3 ∧
    budgetObject.greenIterations = 1 ∧
    (accumulate budgetObject smallDraw smallDraw smallDraw).map channels
      = accumulateChannels 2 2 ⟨-2, -2⟩ ⟨2, 2⟩ budgetObject.numSamples
          1 1 3 smallDraw smallDraw smallDraw [[0, 0], [0, 0]] :=
  accumulate_budget_order 2 2 1 (-2) 2 (-2) 2 1 3 1 smallDraw smallDraw smallDraw
    budgetObject (by decide!)

/-- C14 (counterexample): with the budgets supplied in the order (red, green, blue) the
second one is not the green budget.  `Buddhabrot(2, 2, 1, -2, 2, -2, 2, 50, 500, 50)` stores
500 as the blue and 50 as the green budget; and in the run of
`Buddhabrot(2, 2, 1, -2, 2, -2, 2, 1, 3, 1)` with the samples `smallDraw` the green grid is
accumulated with budget 1 and stays zero while the blue grid, accumulated with budget 3,
takes the four hits, whereas red, green, blue accumulated with the budgets 1, 3, 1 in that
order put the hits in the green grid. -/
theorem accumulate_budget_order_counterexample :
    (construct 2 2 1 (-2) 2 (-2) 2 50 500 50).map
        (fun b => (b.redIterations, b.greenIterations, b.blueIterations))
      = some (50, 50, 500) ∧
    construct 2 2 1 (-2) 2 (-2) 2 1 3 1 = some budgetObject ∧
    (accumulate budgetObject smallDraw smallDraw smallDraw).map channels
      = some ([[0, 0], [0, 0]], [[0, 0], [0, 0]], [[0, 0], [0, 4]], 4) ∧
    accumulateChannels 2 2 ⟨-2, -2⟩ ⟨2, 2⟩ 4 1 3 1 smallDraw smallDraw smallDraw
        [[0, 0], [0, 0]]
      = some ([[0, 0], [0, 0]], [[0, 0], [0, 4]], [[0, 0], [0, 0]], 4) := by
  decide!

theorem numSamples_of_fit (b : Buddhabrot) (h0 : 0 ≤ b.sampleCount)
    (h1 : b.sampleCount ≤ intMax) : b.numSamples = b.sampleCount.toNat := by
  unfold numSamples ulliSize
  unfold intMax at h1
  omega

theorem digitChar_plain : ∀ k < 10, (Nat.digitChar k).isWhitespace = false ∧
    Nat.digitChar k ≠ '\n' := by
  decide

theorem toDigitsCore_plain (f : Nat) : ∀ (n : Nat) (ds : List Char),
    (∀ c ∈ ds, c.isWhitespace = false ∧ c ≠ '\n') →
    ∀ c ∈ Nat.toDigitsCore 10 f n ds, c.isWhitespace = false ∧ c ≠ '\n' := by
  induction f with
  | zero => intro n ds h; simpa [Nat.toDigitsCore] using h
  | succ f ih =>
    intro n ds h
    have hd : ∀ c ∈ Nat.digitChar (n % 10) :: ds, c.isWhitespace = false ∧ c ≠ '\n' := by
      intro c hc
      rcases List.mem_cons.mp hc with rfl | hc
      · exact digitChar_plain _ (Nat.mod_lt _ (by decide))
      · exact h c hc
    unfold Nat.toDigitsCore
    simp only
    split
    · exact hd
    · exact ih _ _ hd

theorem toDigitsCore_ne_nil (f : Nat) : ∀ (n : Nat) (ds : List Char), ds ≠ [] →
    Nat.toDigitsCore 10 f n ds ≠ [] := by
  induction f with
  | zero => intro n ds h; simpa [Nat.toDigitsCore] using h
  | succ f ih =>
    intro n ds h
    unfold Nat.toDigitsCore
    simp only
    split
    · exact List.cons_ne_nil _ _
    · exact ih _ _ (List.cons_ne_nil _ _)

theorem toString_nat_data (n : Nat) : (toString n).data = Nat.toDigits 10 n := rfl

theorem toString_nat_plain (n : Nat) :
    ∀ c ∈ (toString n).data, c.isWhitespace = false ∧ c ≠ '\n' := by
  rw [toString_nat_data]
  exact toDigitsCore_plain _ _ _ (by simp)

theorem toString_nat_ne_nil (n : Nat) : (toString n).data ≠ [] := by
  rw [toString_nat_data]
  unfold Nat.toDigits Nat.toDigitsCore
  simp only
  split
  · exact List.cons_ne_nil _ _
  · exact toDigitsCore_ne_nil _ _ _ (List.cons_ne_nil _ _)

theorem toString_int_no_newline (n : Int) : ∀ c ∈ (toString n).data, c ≠ '\n' := by
  cases n with
  | ofNat m => exact fun c hc => (toString_nat_plain m c hc).2
  | negSucc m =>
    intro c hc
    have hd : (toString (Int.negSucc m)).data = '-' :: (toString (m + 1)).data := rfl
    rw [hd] at hc
    rcases List.mem_cons.mp hc with rfl | hc
    · decide
    · exact (toString_nat_plain _ c hc).2

theorem splitLines_line (l : List Char) (h : ∀ c ∈ l, c ≠ '\n') :
    ∀ (line rest : List Char),
      splitLines line (l ++ '\n' :: rest) = String.mk (line ++ l) :: splitLines [] rest := by
  induction l with
  | nil => intro line rest; simp [splitLines]
  | cons c cs ih =>
    intro line rest
    have hc : c ≠ '\n' := h c (List.mem_cons_self c cs)
    rw [List.cons_append, splitLines, if_neg hc,
      ih (fun d hd => h d (List.mem_cons_of_mem _ hd)), List.append_assoc]
    rfl

theorem tokensFrom_word (w : List Char) (h : ∀ c ∈ w, c.isWhitespace = false) :
    ∀ (token rest : List Char), token ++ w ≠ [] →
      tokensFrom token (w ++ ' ' :: rest) = String.mk (token ++ w) :: tokensFrom [] rest := by
  induction w with
  | nil =>
    intro token rest hne
    have hws : (' ' : Char).isWhitespace = true := by decide
    rw [List.append_nil] at hne
    rw [List.nil_append, tokensFrom, if_pos hws, if_neg hne, List.append_nil]
  | cons c cs ih =>
    intro token rest _
    have hc : c.isWhitespace = false := h c (List.mem_cons_self c cs)
    rw [List.cons_append, tokensFrom, hc,
      ih (fun d hd => h d (List.mem_cons_of_mem _ hd)) (token ++ [c]) rest (by simp),
      List.append_assoc]
    rfl

theorem tokensFrom_space (rest : List Char) :
    tokensFrom [] (' ' :: rest) = tokensFrom [] rest := by
  have hws : (' ' : Char).isWhitespace = true := by decide
  rw [tokensFrom, if_pos hws, if_pos rfl]

theorem tokensFrom_nat (n : Nat) (rest : List Char) :
    tokensFrom [] ((toString n).data ++ ' ' :: rest) = toString n :: tokensFrom [] rest := by
  rw [tokensFrom_word _ (fun c hc => (toString_nat_plain n c hc).1) [] rest
    (by simpa using toString_nat_ne_nil n)]
  rfl

theorem pixelText_data (red green blue : Nat) :
    (pixelText red green blue).data
      = (toString red).data ++ ' ' :: ((toString green).data ++ ' ' ::
          ((toString blue).data ++ ' ' :: ' ' :: ' ' :: [])) := by
  simp [pixelText, String.data_append]

theorem tokensFrom_pixelText (red green blue : Nat) (rest : List Char) :
    tokensFrom [] ((pixelText red green blue).data ++ rest)
      = toString red :: toString green :: toString blue :: tokensFrom [] rest := by
  rw [pixelText_data]
  simp only [List.append_assoc, List.cons_append, List.nil_append]
  rw [tokensFrom_nat, tokensFrom_nat, tokensFrom_nat, tokensFrom_space, tokensFrom_space]

theorem pixelText_no_newline (red green blue : Nat) :
    ∀ c ∈ (pixelText red green blue).data, c ≠ '\n' := by
  intro c hc
  rw [pixelText_data] at hc
  simp only [List.mem_append, List.mem_cons, List.mem_nil_iff, or_false] at hc
  rcases hc with h | rfl | h | rfl | h | rfl | rfl | rfl
  · exact (toString_nat_plain _ c h).2
  · decide
  · exact (toString_nat_plain _ c h).2
  · decide
  · exact (toString_nat_plain _ c h).2
  · decide
  · decide
  · decide

theorem cellAt_of_hasShape {heatmap : Heatmap} {width height row col : Nat}
    (h : hasShape heatmap width height) (hrow : row < height) (hcol : col < width) :
    ∃ v, cellAt heatmap row col = some v := by
  obtain ⟨hlen, hcells⟩ := h
  have hr : row < heatmap.length := by omega
  have hmem : heatmap[row] ∈ heatmap := List.getElem_mem hr
  have hc : col < heatmap[row].length := by rw [hcells _ hmem]; exact hcol
  refine ⟨heatmap[row][col], ?_⟩
  simp [cellAt, List.getElem?_eq_getElem hr, List.getElem?_eq_getElem hc]

/-- The pixels of one row: the text is defined when the cells are inside the heatmaps, has
no newline, and its tokens are the red, green and blue values column by column. -/
theorem pixelsText_tokens (b : Buddhabrot) (row : Nat) (cols : List Nat)
    (h : ∀ col ∈ cols, (∃ v, cellAt b.redHeatmap row col = some v) ∧
      (∃ v, cellAt b.greenHeatmap row col = some v) ∧
      (∃ v, cellAt b.blueHeatmap row col = some v)) :
    ∃ pixels : String, pixelsText b row cols = some pixels ∧
      (∀ c ∈ pixels.data, c ≠ '\n') ∧
      tokens pixels = cols.flatMap (fun col =>
        [cellText b.redHeatmap row col, cellText b.greenHeatmap row col,
         cellText b.blueHeatmap row col]) := by
  induction cols with
  | nil => exact ⟨"", rfl, by simp, rfl⟩
  | cons col cols ih =>
    obtain ⟨rest, hrest, hnl, htok⟩ := ih (fun c hc => h c (List.mem_cons_of_mem _ hc))
    obtain ⟨⟨r, hr⟩, ⟨g, hg⟩, ⟨bl, hbl⟩⟩ := h col (List.mem_cons_self col cols)
    refine ⟨pixelText r g bl ++ rest, by simp only [pixelsText, hr, hg, hbl, hrest], ?_, ?_⟩
    · intro c hc
      rw [String.data_append] at hc
      rcases List.mem_append.mp hc with h1 | h1
      · exact pixelText_no_newline r g bl c h1
      · exact hnl c h1
    · unfold tokens at htok ⊢
      rw [String.data_append, tokensFrom_pixelText, htok, List.flatMap_cons]
      simp [cellText, hr, hg, hbl]

theorem flatMap_triple_length (f g h : Nat → String) (cols : List Nat) :
    (cols.flatMap (fun col => [f col, g col, h col])).length = 3 * cols.length := by
  induction cols with
  | nil => rfl
  | cons c cs ih =>
    rw [List.flatMap_cons, List.length_append, ih, List.length_cons]
    simp only [List.length_cons, List.length_nil]
    omega

theorem flatMap_triple_getElem (f g h : Nat → String) (cols : List Nat) :
    ∀ k col, cols[k]? = some col →
      (cols.flatMap (fun col => [f col, g col, h col]))[3 * k]? = some (f col) ∧
      (cols.flatMap (fun col => [f col, g col, h col]))[3 * k + 1]? = some (g col) ∧
      (cols.flatMap (fun col => [f col, g col, h col]))[3 * k + 2]? = some (h col) := by
  induction cols with
  | nil => intro k col hk; simp at hk
  | cons c cs ih =>
    intro k col hk
    rw [List.flatMap_cons]
    cases k with
    | zero =>
      simp only [List.getElem?_cons_zero, Option.some.injEq] at hk
      subst hk
      exact ⟨by simp, by simp, by simp⟩
    | succ k =>
      rw [List.getElem?_cons_succ] at hk
      obtain ⟨h0, h1, h2⟩ := ih k col hk
      have e0 : 3 * (k + 1) = 3 * k + 1 + 1 + 1 := by omega
      have e1 : 3 * (k + 1) + 1 = 3 * k + 1 + 1 + 1 + 1 := by omega
      have e2 : 3 * (k + 1) + 2 = 3 * k + 2 + 1 + 1 + 1 := by omega
      rw [e2, e1, e0]
      simp only [List.cons_append, List.nil_append, List.getElem?_cons_succ]
      exact ⟨h0, h1, h2⟩

/-- The rows: the text is defined when the cells are inside the heatmaps, and its lines
are the pixels of the successive rows. -/
theorem rowsText_lines (b : Buddhabrot) (rows : List Nat)
    (h : ∀ row ∈ rows, ∀ col ∈ List.range b.imageWidth.toNat,
      (∃ v, cellAt b.redHeatmap row col = some v) ∧
      (∃ v, cellAt b.greenHeatmap row col = some v) ∧
      (∃ v, cellAt b.blueHeatmap row col = some v)) :
    ∃ text : String, rowsText b rows = some text ∧
      lines text = rows.map (fun row =>
        (pixelsText b row (List.range b.imageWidth.toNat)).getD "") := by
  induction rows with
  | nil => exact ⟨"", rfl, rfl⟩
  | cons row rows ih =>
    obtain ⟨rest, hrest, hlines⟩ := ih (fun r hr => h r (List.mem_cons_of_mem _ hr))
    obtain ⟨pixels, hpix, hnl, -⟩ := pixelsText_tokens b row _
      (h row (List.mem_cons_self row rows))
    refine ⟨pixels ++ "\n" ++ rest, by simp only [rowsText, hpix, hrest], ?_⟩
    unfold lines at hlines ⊢
    have hd : (pixels ++ "\n" ++ rest).data = pixels.data ++ '\n' :: rest.data := by
      simp [String.data_append]
    rw [hd, splitLines_line _ hnl, hlines, List.map_cons, hpix]
    rfl

/-- C16: for every object whose three heatmaps have `imageHeight` rows of `imageWidth`
cells, `flushToPPMFile` writes a text whose lines are the three header lines `P3`,
`<imageWidth> <imageHeight>` and `255` followed by exactly `imageHeight` lines; the line of
row `row` consists of exactly `3 * imageWidth` whitespace-separated numbers, and those at
positions `3 * col`, `3 * col + 1` and `3 * col + 2` are the decimal texts of
`redHeatmap[row][col]`, `greenHeatmap[row][col]` and `blueHeatmap[row][col]`. -/
theorem flushToPPMFile_text (b : Buddhabrot)
    (hred : hasShape b.redHeatmap b.imageWidth.toNat b.imageHeight.toNat)
    (hgreen : hasShape b.greenHeatmap b.imageWidth.toNat b.imageHeight.toNat)
    (hblue : hasShape b.blueHeatmap b.imageWidth.toNat b.imageHeight.toNat) :
    ∃ (text : String) (rowLines : List String),
      flushToPPMFile b = some text ∧
      lines text = "P3" :: (toString b.imageWidth ++ " " ++ toString b.imageHeight)
        :: "255" :: rowLines ∧
      rowLines.length = b.imageHeight.toNat ∧
      ∀ row < b.imageHeight.toNat, ∃ line : String, rowLines[row]? = some line ∧
        (tokens line).length = 3 * b.imageWidth.toNat ∧
        ∀ col < b.imageWidth.toNat, ∃ red green blue : Nat,
          cellAt b.redHeatmap row col = some red ∧
          cellAt b.greenHeatmap row col = some green ∧
          cellAt b.blueHeatmap row col = some blue ∧
          (tokens line)[3 * col]? = some (toString red) ∧
          (tokens line)[3 * col + 1]? = some (toString green) ∧
          (tokens line)[3 * col + 2]? = some (toString blue) := by
  have hcells : ∀ row ∈ List.range b.imageHeight.toNat,
      ∀ col ∈ List.range b.imageWidth.toNat,
      (∃ v, cellAt b.redHeatmap row col = some v) ∧
      (∃ v, cellAt b.greenHeatmap row col = some v) ∧
      (∃ v, cellAt b.blueHeatmap row col = some v) := by
    intro row hrow col hcol
    have hr := List.mem_range.mp hrow
    have hc := List.mem_range.mp hcol
    exact ⟨cellAt_of_hasShape hred hr hc, cellAt_of_hasShape hgreen hr hc,
      cellAt_of_hasShape hblue hr hc⟩
  obtain ⟨rows, hrows, hlines⟩ := rowsText_lines b _ hcells
  refine ⟨"P3" ++ "\n" ++ (toString b.imageWidth ++ " " ++ toString b.imageHeight ++ "\n")
      ++ (toString (255 : Int) ++ "\n") ++ rows,
    (List.range b.imageHeight.toNat).map (fun row =>
      (pixelsText b row (List.range b.imageWidth.toNat)).getD ""),
    by simp only [flushToPPMFile, hrows], ?_, ?_, ?_⟩
  · unfold lines at hlines ⊢
    have hd : ("P3" ++ "\n" ++ (toString b.imageWidth ++ " " ++ toString b.imageHeight ++ "\n")
        ++ (toString (255 : Int) ++ "\n") ++ rows).data
        = "P3".data ++ '\n' ::
            ((toString b.imageWidth ++ " " ++ toString b.imageHeight).data ++ '\n' ::
              ("255".data ++ '\n' :: rows.data)) := by
      have h255 : toString (255 : Int) = "255" := by decide
      rw [h255]
      simp [String.data_append]
    have h2 : ∀ c ∈ (toString b.imageWidth ++ " " ++ toString b.imageHeight).data,
        c ≠ '\n' := by
      intro c hc
      simp only [String.data_append, List.mem_append] at hc
      rcases hc with (h1 | h1) | h1
      · exact toString_int_no_newline _ c h1
      · have : c = ' ' := by simpa using h1
        subst this; decide
      · exact toString_int_no_newline _ c h1
    rw [hd, splitLines_line _ (by decide), splitLines_line _ h2,
      splitLines_line _ (by decide), hlines]
    rfl
  · rw [List.length_map, List.length_range]
  · intro row hrow
    obtain ⟨pixels, hpix, -, htok⟩ := pixelsText_tokens b row _
      (hcells row (List.mem_range.mpr hrow))
    refine ⟨pixels, ?_, ?_, ?_⟩
    · rw [List.getElem?_map, List.getElem?_range hrow, Option.map_some', hpix]
      rfl
    · rw [htok, flatMap_triple_length, List.length_range]
    · intro col hcol
      obtain ⟨⟨r, hr⟩, ⟨g, hg⟩, ⟨bl, hbl⟩⟩ :=
        hcells row (List.mem_range.mpr hrow) col (List.mem_range.mpr hcol)
      obtain ⟨t0, t1, t2⟩ := flatMap_triple_getElem (cellText b.redHeatmap row)
        (cellText b.greenHeatmap row) (cellText b.blueHeatmap row) _ col col
        (List.getElem?_range hcol)
      refine ⟨r, g, bl, hr, hg, hbl, ?_, ?_, ?_⟩
      · rw [htok, t0]; simp [cellText, hr]
      · rw [htok, t1]; simp [cellText, hg]
      · rw [htok, t2]; simp [cellText, hbl]

/-- A run of C16: the text written for the 2 × 2 image `ppmObject`, and the statement of
C16 for it. -/
theorem flushToPPMFile_text_witness :
    flushToPPMFile ppmObject
      = some "P3\n2 2\n255\n0 1 9   63 2 10   \n127 3 11   255 4 12   \n" ∧
    ∃ (text : String) (rowLines : List String),
      flushToPPMFile ppmObject = some text ∧
      lines text = "P3" :: (toString ppmObject.imageWidth ++ " "
        ++ toString ppmObject.imageHeight) :: "255" :: rowLines ∧
      rowLines.length = ppmObject.imageHeight.toNat ∧
      ∀ row < ppmObject.imageHeight.toNat, ∃ line : String, rowLines[row]? = some line ∧
        (tokens line).length = 3 * ppmObject.imageWidth.toNat ∧
        ∀ col < ppmObject.imageWidth.toNat, ∃ red green blue : Nat,
          cellAt ppmObject.redHeatmap row col = some red ∧
          cellAt ppmObject.greenHeatmap row col = some green ∧
          cellAt ppmObject.blueHeatmap row col = some blue ∧
          (tokens line)[3 * col]? = some (toString red) ∧
          (tokens line)[3 * col + 1]? = some (toString green) ∧
          (tokens line)[3 * col + 2]? = some (toString blue) :=
  ⟨by decide, flushToPPMFile_text ppmObject ⟨rfl, by decide⟩ ⟨rfl, by decide⟩
    ⟨rfl, by decide⟩⟩


/-! ## Monotonicity of the accumulator step and of the normalizer -/

/-- C17 (as amended): a defined step of `generateHeatmap` never decreases the global
maximum, and every cell (a 32-bit unsigned counter) after the step is at least its value
before, except that an incremented cell holding `2^32 - 1` wraps to 0. -/
theorem recordPoint_monotone (imageWidth imageHeight : Int) (min max : ComplexNumber)
    (st st1 : Heatmap × Nat) (point : ComplexNumber)
    (h : recordPoint imageWidth imageHeight min max st point = some st1) :
    st.2 ≤ st1.2 ∧
    ∀ a b v : Nat, cellAt st.1 a b = some v → v < uintSize →
      ∃ v1, cellAt st1.1 a b = some v1 ∧ (v ≤ v1 ∨ (v = uintSize - 1 ∧ v1 = 0)) := by
  refine ⟨(recordPoint_gridMax_le h).1, ?_⟩
  intro a b v hcell hv
  rcases recordPoint_eq_some h with ⟨-, rfl⟩ | ⟨-, row, col, cells, w, -, -, hc, hw, rfl⟩
  · exact ⟨v, hcell, Or.inl (le_refl v)⟩
  · by_cases hab : (a, b) = (row, col)
    · obtain ⟨rfl, rfl⟩ := Prod.mk.inj hab
      have hvw : v = w := by
        simp only [cellAt, hc, hw, Option.some.injEq] at hcell
        exact hcell.symm
      refine ⟨(w + 1) % uintSize, cellAt_set_self hc hw, ?_⟩
      rw [hvw] at hv ⊢
      simp only [uintSize] at hv ⊢
      omega
    · exact ⟨v, by rw [cellAt_set_of_ne hc hab]; exact hcell, Or.inl (le_refl v)⟩

/-- A run of C17 (as amended): on a 2 × 2 heatmap over `[0, 1] × [0, 1]` the point
`1/2 + 0i` increments the cell at row 1, column 0; the cell at row 0, column 1 is kept. -/
theorem recordPoint_monotone_witness :
    recordPoint 2 2 ⟨0, 0⟩ ⟨1, 1⟩ ([[1, 2], [3, 4]], 4) ⟨1 / 2, 0⟩
      = some ([[1, 2], [4, 4]], 4) ∧
    (4 : Nat) ≤ 4 ∧
    ∀ a b v : Nat, cellAt [[1, 2], [3, 4]] a b = some v → v < uintSize →
      ∃ v1, cellAt [[1, 2], [4, 4]] a b = some v1 ∧ (v ≤ v1 ∨ (v = uintSize - 1 ∧ v1 = 0)) :=
  ⟨by decide!,
    recordPoint_monotone 2 2 ⟨0, 0⟩ ⟨1, 1⟩ ([[1, 2], [3, 4]], 4) ([[1, 2], [4, 4]], 4)
      ⟨1 / 2, 0⟩ (by decide!)⟩

/-- C17 (counterexample): on the 2 × 2 heatmap `[[7, 2^32 - 1], [1, 2]]` over the viewport
`[0, 1] × [0, 1]`, the point `1/4 + 3/4 i` maps to row 0, column 1, and the step takes that
cell from 4294967295 to 0: the cell after the step is below its value before. -/
theorem recordPoint_monotone_counterexample :
    rowFromR (1 / 4) 0 1 2 = some 0 ∧ colFromI (3 / 4) 0 1 2 = some 1 ∧
    cellAt [[7, 4294967295], [1, 2]] 0 1 = some 4294967295 ∧
    recordPoint 2 2 ⟨0, 0⟩ ⟨1, 1⟩ ([[7, 4294967295], [1, 2]], 4294967295) ⟨1 / 4, 3 / 4⟩
      = some ([[7, 0], [1, 2]], 4294967295) ∧
    cellAt [[7, 0], [1, 2]] 0 1 = some 0 := by
  decide!

/-- The colour of a count against a positive `UINT` maximum and a non-negative `int` depth is
defined where `floor(v * d / G)` is below `INT_MAX`. -/
theorem colourFromHeatmap_defined {v G : Nat} {d : Int} (hG : 0 < G) (hG32 : G < uintSize)
    (hd0 : 0 ≤ d) (hd : d ≤ intMax)
    (hfit : ⌊((v : ℚ) * (d : ℚ)) / (G : ℚ)⌋ < intMax) :
    ∃ c : Int, colourFromHeatmap v G d = some c := by
  have hGq : (0 : ℚ) < (G : ℚ) := by exact_mod_cast hG
  have hxlt : ((v : ℚ) * (d : ℚ)) / (G : ℚ) < ((intMax : Int) : ℚ) := Int.floor_lt.mp hfit
  have hmaxq : ((intMax : Int) : ℚ) = 2147483647 := by simp [intMax]
  have h31 : (2 : ℚ) ^ (31 : Int) = 2147483648 := by norm_num
  have h20 : (2 : ℚ) ^ (-20 : Int) = 1 / 1048576 := by norm_num
  rw [hmaxq] at hxlt
  obtain ⟨p, hp, hp0, hperr⟩ := colour_value (v := v) hG hG32 hd0 hd
    (by rw [h31]; linarith)
  rw [h20] at hperr
  obtain ⟨-, hhi⟩ := abs_le.mp hperr
  have hpfit : ⌊p⌋ ≤ intMax := by
    have : ⌊p⌋ < 2147483648 := Int.floor_lt.mpr (by push_cast; linarith)
    simp only [intMax]; omega
  have hc : colourFromHeatmap v G d = some ⌊p⌋ := by
    unfold colourFromHeatmap
    simp only [hp, Binary64.toInt]
    exact toInt_of_nonneg hp0 hpfit
  exact ⟨⌊p⌋, hc⟩

/-- C18 (as amended): for every `unsigned int` global maximum `globalMax > 0` and every
`int` output depth `d ≥ 0`, `colourFromHeatmap` is monotone in the cell value wherever it is
defined: for all counts `a ≤ b` such that `floor(b * d / globalMax)` is below `INT_MAX`,
both colours are defined and
`colourFromHeatmap(a, globalMax, d) ≤ colourFromHeatmap(b, globalMax, d)`. -/
theorem colourFromHeatmap_monotone (globalMax : Nat) (d : Int) (a b : Nat)
    (hG : 0 < globalMax) (hG32 : globalMax < uintSize) (hd0 : 0 ≤ d) (hd : d ≤ intMax)
    (hab : a ≤ b)
    (hfit : ⌊((b : ℚ) * (d : ℚ)) / (globalMax : ℚ)⌋ < intMax) :
    ∃ ca cb : Int, colourFromHeatmap a globalMax d = some ca ∧
      colourFromHeatmap b globalMax d = some cb ∧ ca ≤ cb := by
  obtain ⟨cb, hcb⟩ := colourFromHeatmap_defined (v := b) hG hG32 hd0 hd hfit
  obtain ⟨ca, hca, hle⟩ := colour_mono hG hd0 hab hcb
  exact ⟨ca, cb, hca, hcb, hle⟩

/-- A run of C18 (as amended): the counts 1 ≤ 3 with global maximum 4 and depth 255 are
rendered as 63 ≤ 191. -/
theorem colourFromHeatmap_monotone_witness :
    colourFromHeatmap 1 4 255 = some 63 ∧ colourFromHeatmap 3 4 255 = some 191 ∧
    ∃ ca cb : Int, colourFromHeatmap 1 4 255 = some ca ∧
      colourFromHeatmap 3 4 255 = some cb ∧ ca ≤ cb :=
  ⟨by decide!, by decide!,
    colourFromHeatmap_monotone 4 255 1 3 (by decide) (by decide) (by decide) (by decide)
      (by decide) (by decide!)⟩

/-- C18 (counterexample): with global maximum 1 and depth 255 the counts
`1 ≤ 4294967295` are rendered as 255 and as the conversion to `int` of 1095216660225, which
is not an `int`: the colour of the larger count is undefined, not at least 255.  And with
global maximum `2^31` and depth `2^31 - 1` the counts `1 ≤ 2^31 + 1` are rendered as 0 and as
the conversion to `int` of `2^31`, to which the binary64 product rounds although
`floor(b * d / globalMax)` is `2^31 - 1`: again the colour of the larger count is
undefined. -/
theorem colourFromHeatmap_monotone_counterexample :
    (colourFromHeatmap 1 1 255 = some 255 ∧ colourFromHeatmap 4294967295 1 255 = none ∧
      ⌊(((4294967295 : Nat) : ℚ) * ((255 : Int) : ℚ)) / ((1 : Nat) : ℚ)⌋ = 1095216660225 ∧
      intMax < 1095216660225) ∧
    (colourFromHeatmap 1 2147483648 2147483647 = some 0 ∧
      colourFromHeatmap 2147483649 2147483648 2147483647 = none ∧
      Binary64.mul (Binary64.finite ((2147483649 : Nat) : ℚ))
          (Binary64.div ((2147483647 : Int) : ℚ) (Binary64.finite ((2147483648 : Nat) : ℚ)))
        = Binary64.finite 2147483648 ∧
      ⌊(((2147483649 : Nat) : ℚ) * ((2147483647 : Int) : ℚ)) / ((2147483648 : Nat) : ℚ)⌋
        = intMax) := by
  decide!

/-! ## What the trajectory generator returns -/

theorem orbitPrefix_succ (c : ComplexNumber) (n : Nat) :
    orbitPrefix c (n + 1) = orbitPrefix c n ++ [orbit c (n + 1)] := by
  simp [orbitPrefix, List.range_succ]

/-- The loop of `buddhabrotPoints`, entered with `n` iterates computed, stops at the first
iterate `z_m`, `m ≥ n`, that fails the guard `squareMagnitude() <= 2.0`, or at the budget. -/
theorem pointsLoop_orbit (c : ComplexNumber) (numIters fuel n : Nat)
    (h : n + fuel = numIters) :
    ∃ m, n ≤ m ∧ m ≤ numIters ∧
      pointsLoop c numIters fuel n (orbit c n) (orbitPrefix c n) = (m, orbitPrefix c m) ∧
      (∀ k, n ≤ k → k < m → (orbit c k).squareMagnitude ≤ 2) ∧
      (m < numIters → 2 < (orbit c m).squareMagnitude) := by
  induction fuel generalizing n with
  | zero =>
    refine ⟨n, le_refl n, by omega, by simp [pointsLoop], ?_, ?_⟩
    · intro k h1 h2; omega
    · intro h1; omega
  | succ fuel ih =>
    by_cases hg : (orbit c n).squareMagnitude ≤ 2
    · obtain ⟨m, h1, h2, h3, h4, h5⟩ := ih (n + 1) (by omega)
      refine ⟨m, by omega, h2, ?_, ?_, h5⟩
      · rw [pointsLoop, if_pos ⟨by omega, hg⟩]
        have hz : ((orbit c n).mul (orbit c n)).add c = orbit c (n + 1) := rfl
        simp only [hz, ← orbitPrefix_succ]
        exact h3
      · intro k hk1 hk2
        by_cases hkn : k = n
        · rw [hkn]; exact hg
        · exact h4 k (by omega) hk2
    · refine ⟨n, le_refl n, by omega, ?_, ?_, ?_⟩
      · rw [pointsLoop, if_neg (fun hh => hg hh.2)]
      · intro k h1 h2; omega
      · intro _; exact not_le.mp hg

theorem squareMagnitude_orbit_zero (c : ComplexNumber) : (orbit c 0).squareMagnitude = 0 := by
  simp [orbit, ComplexNumber.origin, ComplexNumber.squareMagnitude]

/-- The result of `buddhabrotPoints` in terms of the stopping index of its loop. -/
theorem buddhabrotPoints_eq (c : ComplexNumber) (numIters : Nat) :
    ∃ m, m ≤ numIters ∧
      buddhabrotPoints c numIters = (if m = numIters then [] else orbitPrefix c m) ∧
      (∀ k, k < m → (orbit c k).squareMagnitude ≤ 2) ∧
      (m < numIters → 2 < (orbit c m).squareMagnitude) := by
  obtain ⟨m, -, h2, h3, h4, h5⟩ := pointsLoop_orbit c numIters numIters 0 (by omega)
  refine ⟨m, h2, ?_, fun k hk => h4 k (Nat.zero_le k) hk, h5⟩
  have h0 : orbit c 0 = ComplexNumber.origin := rfl
  have hp : orbitPrefix c 0 = [] := rfl
  rw [h0, hp] at h3
  simp only [buddhabrotPoints, h3]

/-- C19: for every start point `c` and budget `N` (in particular `N ≥ 1`),
`buddhabrotPoints(c, N)` is either empty or the list `[z_1, ..., z_n]` of successive
iterates with `1 ≤ n < N` strictly, in which every `z_k` with `k < n` satisfies the loop
guard `squareMagnitude <= 2.0` and `z_n` violates it; it is that list whenever the first
violation of the guard happens at an iteration `n < N`; and it is empty when no iterate before
`z_N` violates the guard, be the first violation exactly at iteration `N` or nowhere. -/
theorem buddhabrotPoints_characterization (c : ComplexNumber) (N : Nat) :
    (buddhabrotPoints c N = [] ∨
      ∃ n, 1 ≤ n ∧ n < N ∧ buddhabrotPoints c N = orbitPrefix c n ∧
        (∀ k, 1 ≤ k → k < n → (orbit c k).squareMagnitude ≤ 2) ∧
        2 < (orbit c n).squareMagnitude) ∧
    (∀ n, 1 ≤ n → n < N → (∀ k, 1 ≤ k → k < n → (orbit c k).squareMagnitude ≤ 2) →
      2 < (orbit c n).squareMagnitude →
      buddhabrotPoints c N = orbitPrefix c n ∧ buddhabrotPoints c N ≠ []) ∧
    ((∀ k, 1 ≤ k → k < N → (orbit c k).squareMagnitude ≤ 2) → buddhabrotPoints c N = []) := by
  obtain ⟨m, hm, hres, hle, hgt⟩ := buddhabrotPoints_eq c N
  have hzero := squareMagnitude_orbit_zero c
  refine ⟨?_, ?_, ?_⟩
  · by_cases hmN : m = N
    · left; rw [hres, if_pos hmN]
    · right
      have hlt : m < N := lt_of_le_of_ne hm hmN
      have hv := hgt hlt
      have hm1 : 1 ≤ m := by
        rcases Nat.eq_zero_or_pos m with h0 | h0
        · rw [h0, hzero] at hv; norm_num at hv
        · exact h0
      exact ⟨m, hm1, hlt, by rw [hres, if_neg hmN], fun k _ hk => hle k hk, hv⟩
  · intro n hn1 hnN hbefore hviol
    have hmn : m = n := by
      rcases Nat.lt_trichotomy m n with h | h | h
      · have hv := hgt (by omega)
        rcases Nat.eq_zero_or_pos m with h0 | h0
        · rw [h0, hzero] at hv; norm_num at hv
        · exact absurd (hbefore m h0 h) (not_le.mpr hv)
      · exact h
      · exact absurd (hle n h) (not_le.mpr hviol)
    have hne : m ≠ N := by omega
    rw [hres, if_neg hne, hmn]
    refine ⟨rfl, ?_⟩
    obtain ⟨j, rfl⟩ : ∃ j, n = j + 1 := ⟨n - 1, by omega⟩
    rw [orbitPrefix_succ]
    simp
  · intro hall
    have hmN : m = N := by
      by_contra hne
      have hlt : m < N := lt_of_le_of_ne hm hne
      have hv := hgt hlt
      rcases Nat.eq_zero_or_pos m with h0 | h0
      · rw [h0, hzero] at hv; norm_num at hv
      · exact absurd (hall m h0 hlt) (not_le.mpr hv)
    rw [hres, if_pos hmN]

/-- Two runs of C19: the start point `3/2 + 0i` with budget 3 violates the guard first at
iteration 1 < 3 and is returned as `[z_1]`; the start point `3 + 0i` with budget 1 violates
it first at iteration 1, exactly the budget, and the result is empty. -/
theorem buddhabrotPoints_characterization_witness :
    (buddhabrotPoints ⟨3 / 2, 0⟩ 3 = orbitPrefix ⟨3 / 2, 0⟩ 1 ∧
      buddhabrotPoints ⟨3 / 2, 0⟩ 3 ≠ []) ∧
    2 < (orbit ⟨3, 0⟩ 1).squareMagnitude ∧ buddhabrotPoints ⟨3, 0⟩ 1 = [] :=
  ⟨(buddhabrotPoints_characterization ⟨3 / 2, 0⟩ 3).2.1 1 (by decide) (by decide)
      (fun k h1 h2 => absurd h2 (by omega)) (by decide!),
    by decide!,
    (buddhabrotPoints_characterization ⟨3, 0⟩ 1).2.2 (fun k h1 h2 => absurd h2 (by omega))⟩


/-! ## The range of the coordinate mapping -/

/-- C20 (as amended): for a viewport whose extents lie between `2^-900` and `2^900`,
positive `int` dimensions and a point inside the inclusive bounds, `rowFromR` and
`colFromI`, computed in binary64, are defined with `0 ≤ rowFromR(r) ≤ imageHeight` and
`0 ≤ colFromI(i) ≤ imageWidth`; the index is in range, `rowFromR(r) < imageHeight` and
`colFromI(i) < imageWidth`, for every point whose exact scaled coordinate
`(r - minR) * imageHeight / (maxR - minR)` is at most `imageHeight - 2^-17` (likewise for
the columns); and where no operation of the mapping rounds, `rowFromR(r) = imageHeight`
exactly when `r = maxR` and `colFromI(i) = imageWidth` exactly when `i = maxI`. -/
theorem rowFromR_colFromI_range (r i minR maxR minI maxI : ℚ)
    (imageHeight imageWidth : Int)
    (hH : 0 < imageHeight) (hW : 0 < imageWidth)
    (hHint : imageHeight ≤ intMax) (hWint : imageWidth ≤ intMax)
    (hR : (2 : ℚ) ^ (-900 : Int) ≤ maxR - minR ∧ maxR - minR ≤ (2 : ℚ) ^ (900 : Int))
    (hI : (2 : ℚ) ^ (-900 : Int) ≤ maxI - minI ∧ maxI - minI ≤ (2 : ℚ) ^ (900 : Int))
    (hr : minR ≤ r ∧ r ≤ maxR) (hi : minI ≤ i ∧ i ≤ maxI) :
    ∃ row col : Int,
      rowFromR r minR maxR imageHeight = some row ∧
      colFromI i minI maxI imageWidth = some col ∧
      0 ≤ row ∧ row ≤ imageHeight ∧ 0 ≤ col ∧ col ≤ imageWidth ∧
      ((r - minR) * imageHeight / (maxR - minR) ≤ imageHeight - 1 / 131072 →
        row < imageHeight) ∧
      ((i - minI) * imageWidth / (maxI - minI) ≤ imageWidth - 1 / 131072 →
        col < imageWidth) ∧
      (exactScaled r minR maxR imageHeight → (row = imageHeight ↔ r = maxR)) ∧
      (exactScaled i minI maxI imageWidth → (col = imageWidth ↔ i = maxI)) := by
  obtain ⟨row, hrow, hr0, hr1, -, hrs, hre⟩ := scaled_index hH hHint hr.1 hr.2 hR.1 hR.2
  obtain ⟨col, hcol, hc0, hc1, -, hcs, hce⟩ := scaled_index hW hWint hi.1 hi.2 hI.1 hI.2
  exact ⟨row, col, hrow, hcol, hr0, hr1, hc0, hc1, hrs, hcs,
    fun h => (hre h).2, fun h => (hce h).2⟩

/-- A run of C20 (as amended) on the viewport `[-2, 2] × [-1, 1]` with an 8 × 8 image: the
point `2 - 1/8 i`, on the maximum boundary of the real axis, has row 8 and column 3. -/
theorem rowFromR_colFromI_range_witness :
    rowFromR 2 (-2) 2 8 = some 8 ∧ colFromI (-1 / 8) (-1) 1 8 = some 3 ∧
    ∃ row col : Int,
      rowFromR 2 (-2) 2 8 = some row ∧ colFromI (-1 / 8) (-1) 1 8 = some col ∧
      0 ≤ row ∧ row ≤ 8 ∧ 0 ≤ col ∧ col ≤ 8 ∧
      (((2 : ℚ) - (-2)) * (8 : Int) / (2 - (-2)) ≤ (8 : Int) - 1 / 131072 → row < 8) ∧
      (((-1 / 8 : ℚ) - (-1)) * (8 : Int) / (1 - (-1)) ≤ (8 : Int) - 1 / 131072 → col < 8) ∧
      (exactScaled 2 (-2) 2 8 → (row = 8 ↔ (2 : ℚ) = 2)) ∧
      (exactScaled (-1 / 8) (-1) 1 8 → (col = 8 ↔ (-1 / 8 : ℚ) = 1)) :=
  ⟨by decide!, by decide!,
    rowFromR_colFromI_range 2 (-1 / 8) (-2) 2 (-1) 1 8 8
      (by decide) (by decide) (by decide) (by decide) (by decide!) (by decide!)
      (by decide!) (by decide!)⟩

/-- C20 (counterexample): on the viewport `[-2, 2]` with 4 rows the point
`r = 2 - 2^-52 = 1.9999999999999998`, strictly below the maximum, has
`rowFromR(r) = 4 = imageHeight`, and recording the point `r + 0i` indexes the 4-row heatmap
out of range; on the viewport `[0, 49]` with 1 row the point `r = 49 = maxR` has
`rowFromR(r) = 0`, not `imageHeight`; and on the viewports `[0, 2^-1074]` and
`[-2^1023, 2^1023]` with 4 rows, where the quotient `4 / 2^-1074` and the difference
`r - minR = 2^1024` overflow to an infinity, `rowFromR(0)` and `rowFromR(2^1023)` are
undefined. -/
theorem rowFromR_colFromI_range_counterexample :
    ((9007199254740991 / 4503599627370496 : ℚ) < 2 ∧
      rowFromR (9007199254740991 / 4503599627370496) (-2) 2 4 = some 4 ∧
      inViewport ⟨-2, -2⟩ ⟨2, 2⟩ ⟨9007199254740991 / 4503599627370496, 0⟩ ∧
      recordPoint 4 4 ⟨-2, -2⟩ ⟨2, 2⟩
        ([[0, 0, 0, 0], [0, 0, 0, 0], [0, 0, 0, 0], [0, 0, 0, 0]], 0)
        ⟨9007199254740991 / 4503599627370496, 0⟩ = none) ∧
    rowFromR 49 0 49 1 = some 0 ∧
    rowFromR 0 0 (1 / 2 ^ 1074) 4 = none ∧
    rowFromR (2 ^ 1023) (-(2 ^ 1023)) (2 ^ 1023) 4 = none := by
  decide!

end Buddhabrot
